import Mathlib

/-!
Delivery route optimizer (`main.c`): graph, Dijkstra, path reconstruction, greedy route.

Shallow embedding of the C program.  Conventions used throughout:

* a C `char` is a `Char`; the terminator / "no predecessor" byte `'\0'` is `NUL`;
* a C `int` is an `Int`; the additions on distances and costs (`newDistance`,
  `totalCost`) go through `wrapInt`, the two's-complement reduction to 32 bits, while
  counters bounded by an array capacity (`totalSteps`, `stepNumber`) are plain;
* a fixed-size C array of which only a prefix is in use is the `List` of that prefix
  (`vertexNames`, `distances`, `visited`, `paths`, `deliveries`), except `adjList`,
  which keeps all `MAX_VERTICES` heads (an empty list is the `NULL` head);
* a linked list is the `List` of its cells from the head;
* an index result that is `-1` in C is `none`; a `NULL` result is `none`;
* a write past the end of a buffer (`tempPath` in `reconstructPath`, the field `path` of
  a route step in `optimizeDeliveryRoute`) has no defined outcome: the function that
  performs it returns `none`;
* `malloc` is assumed to succeed;
* the `double` score of `calculateDeliveryScore` is an exact rational.
-/

namespace Route

/-! ## Constants and data model -/

def MAX_VERTICES : Nat := 26

def MAX_DELIVERIES : Nat := 50

def INF : Int := 999999

/-- The byte `'\0'`. -/
def NUL : Char := Char.ofNat 0

/-- Reduction of an integer to the range of a 32-bit two's-complement `int`. -/
def wrapInt (x : Int) : Int := (x + 2147483648) % 4294967296 - 2147483648

inductive Priority where
  | LOW
  | MEDIUM
  | HIGH
deriving DecidableEq, Repr

/-- Numeric value of the enumeration constant. -/
def Priority.val : Priority → Int
  | Priority.LOW => 1
  | Priority.MEDIUM => 2
  | Priority.HIGH => 3

structure Edge where
  destination : Char
  weight : Int
deriving DecidableEq, Repr

structure Graph where
  adjList : List (List Edge)
  vertexNames : List Char
deriving DecidableEq, Repr

/-- The field `vertexCount`: number of registered vertex names. -/
def Graph.vertexCount (g : Graph) : Nat := g.vertexNames.length

/-- The adjacency list `adjList[i]`. -/
def Graph.adj (g : Graph) (i : Nat) : List Edge := g.adjList.getD i []

/-- The name `vertexNames[i]`. -/
def Graph.name (g : Graph) (i : Nat) : Char := g.vertexNames.getD i NUL

structure Delivery where
  location : Char
  priority : Priority
  timeWindowStart : Int
  timeWindowEnd : Int
  completed : Bool
deriving DecidableEq, Repr

/-- The list `deliveries[0 .. count)`. -/
abbrev DeliveryList := List Delivery

structure PathInfo where
  distance : Int
  previous : Char
deriving DecidableEq, Repr

structure DijkstraResult where
  paths : List PathInfo
  source : Char
  vertexCount : Nat
deriving DecidableEq, Repr

/-- Size of the field `path` of a route step (`char path[100]`). -/
def PATH_SIZE : Nat := 100

/-- A route step.  The field `path` holds the text written by `reconstructPath`, without
its terminator: fewer than `PATH_SIZE` characters.  The fields `cost`, `stepNumber` and
the link to the next step lie right behind `path`, so a longer text would be written
over them; `takeDelivery` builds no step in that case. -/
structure DeliveryStep where
  location : Char
  priority : Priority
  path : List Char
  cost : Int
  stepNumber : Int
deriving DecidableEq, Repr

structure DeliverySequence where
  steps : List DeliveryStep
  totalSteps : Int
  totalCost : Int
  warehouse : Char
deriving DecidableEq, Repr

/-! ## Graph -/

def createGraph : Graph :=
  { adjList := List.replicate MAX_VERTICES [], vertexNames := [] }

/-- Linear search of `vertex` in a list of names: first position, or `none`. -/
def findName : List Char → Char → Option Nat
  | [], _ => none
  | c :: cs, vertex => if c = vertex then some 0 else (findName cs vertex).map (· + 1)

def getVertexIndex (g : Graph) (vertex : Char) : Option Nat :=
  findName g.vertexNames vertex

def addVertex (g : Graph) (vertex : Char) : Graph × Option Nat :=
  match getVertexIndex g vertex with
  | some i => (g, some i)
  | none =>
    if g.vertexCount ≥ MAX_VERTICES then (g, none)
    else ({ g with vertexNames := g.vertexNames ++ [vertex] }, some g.vertexCount)

/-- Result: the graph after the call and the returned status (`0` or `-1`). -/
def addEdge (g : Graph) (src dest : Char) (weight : Int) : Graph × Int :=
  let r1 := addVertex g src
  let r2 := addVertex r1.1 dest
  match r1.2, r2.2 with
  | some srcIndex, some destIndex =>
    let adj1 := r2.1.adjList.set srcIndex (⟨dest, weight⟩ :: r2.1.adjList.getD srcIndex [])
    let adj2 := adj1.set destIndex (⟨src, weight⟩ :: adj1.getD destIndex [])
    ({ r2.1 with adjList := adj2 }, 0)
  | _, _ => (r2.1, -1)

/-- The graph obtained from `createGraph` by one `addEdge` call per triple, in order
(what `loadMapFromFile` does with the triples it reads). -/
def buildGraph (edges : List (Char × Char × Int)) : Graph :=
  edges.foldl (fun g e => (addEdge g e.1 e.2.1 e.2.2).1) createGraph

/-! ## Dijkstra -/

/-- The arrays `dijkstra` works on: the locals `distances`, `visited` and the
`paths` array of the result under construction.  (The local `previous` array is
written but never read and is left out.) -/
structure DState where
  distances : List Int
  visited : List Bool
  paths : List PathInfo
deriving DecidableEq, Repr

def DState.dist (st : DState) (i : Nat) : Int := st.distances.getD i 0

def DState.vis (st : DState) (i : Nat) : Bool := st.visited.getD i false

def DState.info (st : DState) (i : Nat) : PathInfo := st.paths.getD i ⟨0, NUL⟩

/-- One iteration of the scan in `getMinDistanceVertex`; the accumulator is
`(minDistance, minIndex)`. -/
def minStep (distances : List Int) (visited : List Bool) (acc : Int × Option Nat) (v : Nat) :
    Int × Option Nat :=
  if visited.getD v false = false ∧ distances.getD v 0 < acc.1 then (distances.getD v 0, some v)
  else acc

def getMinDistanceVertex (distances : List Int) (visited : List Bool) (vertexCount : Nat) :
    Option Nat :=
  ((List.range vertexCount).foldl (minStep distances visited) (INF, none)).2

/-- Body of the `while (current)` loop of `dijkstra` for one adjacency entry of `u`. -/
def relaxEdge (g : Graph) (u : Nat) (st : DState) (e : Edge) : DState :=
  match getVertexIndex g e.destination with
  | none => st
  | some v =>
    if st.vis v = false then
      let newDistance := wrapInt (st.dist u + e.weight)
      if newDistance < st.dist v then
        { st with
          distances := st.distances.set v newDistance
          paths := st.paths.set v ⟨newDistance, g.name u⟩ }
      else st
    else st

/-- Marking `u` visited and relaxing all its adjacency entries. -/
def settle (g : Graph) (u : Nat) (st : DState) : DState :=
  (g.adj u).foldl (relaxEdge g u) { st with visited := st.visited.set u true }

/-- The `for (count ...)` loop of `dijkstra`, with the number of remaining iterations. -/
def dijkstraLoop (g : Graph) : Nat → DState → DState
  | 0, st => st
  | k + 1, st =>
    match getMinDistanceVertex st.distances st.visited g.vertexCount with
    | none => st
    | some u =>
      if st.dist u = INF then st
      else dijkstraLoop g k (settle g u st)

/-- The arrays after the initialisation loop and the two assignments for the source. -/
def initState (n sourceIndex : Nat) : DState :=
  { distances := (List.replicate n INF).set sourceIndex 0
    visited := List.replicate n false
    paths := (List.replicate n (⟨INF, NUL⟩ : PathInfo)).set sourceIndex ⟨0, NUL⟩ }

/-- The arrays when the main loop of `dijkstra` ends. -/
def finalState (g : Graph) (sourceIndex : Nat) : DState :=
  dijkstraLoop g g.vertexCount (initState g.vertexCount sourceIndex)

def dijkstra (g : Graph) (source : Char) : Option DijkstraResult :=
  match getVertexIndex g source with
  | none => none
  | some sourceIndex =>
    let st := finalState g sourceIndex
    some { paths := st.paths, source := source, vertexCount := g.vertexCount }

/-- The second argument is the possibly-`NULL` result pointer. -/
def getShortestDistance (result : Option DijkstraResult) (g : Graph) (destination : Char) : Int :=
  match getVertexIndex g destination, result with
  | some destIndex, some r => (r.paths.getD destIndex ⟨0, NUL⟩).distance
  | _, _ => INF

/-! ## Path reconstruction -/

/-- The `while` loop of `reconstructPath`.  `room` is the number of free slots left in
`tempPath`; `none` is a write past the end of `tempPath`.  The result is the final
`current` and the filled part of `tempPath` (destination first). -/
def walkBack (result : DijkstraResult) (g : Graph) : Nat → Char → List Char →
    Option (Char × List Char)
  | room, current, tempPath =>
    if current ≠ result.source ∧ current ≠ NUL then
      match room with
      | 0 => none
      | room + 1 =>
        match getVertexIndex g current with
        | none => some (current, tempPath ++ [current])
        | some currentIndex =>
          walkBack result g room (result.paths.getD currentIndex ⟨0, NUL⟩).previous
            (tempPath ++ [current])
    else some (current, tempPath)

/-- The call `strcat(pathStr, vertex)` for the one-character string `vertex`: nothing is
appended when the character is the terminator. -/
def appendVertex (pathStr : List Char) (c : Char) : List Char :=
  if c = NUL then pathStr else pathStr ++ [c]

/-- One iteration of the output loop of `reconstructPath`. -/
def emitStep (pathStr : List Char) (c : Char) : List Char :=
  appendVertex (if pathStr.length > 0 then pathStr ++ " -> ".toList else pathStr) c

/-- The text left in `pathStr` (without its terminator); `none` is a write past the end
of `tempPath`.  The function does not know the size of `pathStr`: whether the text fits
there is decided at the call (see `takeDelivery`). -/
def reconstructPath (result : DijkstraResult) (g : Graph) (destination : Char) :
    Option (List Char) :=
  match getVertexIndex g destination with
  | none => some "No path".toList
  | some destIndex =>
    if (result.paths.getD destIndex ⟨0, NUL⟩).distance = INF then some "No path".toList
    else
      match walkBack result g MAX_VERTICES destination [] with
      | none => none
      | some (current, tempPath) =>
        if current = result.source then
          if tempPath.length < MAX_VERTICES then
            some ((tempPath ++ [result.source]).reverse.foldl emitStep [])
          else none
        else some (tempPath.reverse.foldl emitStep [])

/-! ## Greedy route construction -/

def calculateDeliveryScore (delivery : Delivery) (distance : Int) : ℚ :=
  let priorityWeight : ℚ := (delivery.priority.val : ℚ) * 10
  let distanceWeight : ℚ := if distance > 0 then 50 / (distance : ℚ) else 50
  priorityWeight + distanceWeight

/-- The entry `deliveries[i]`. -/
def deliveryAt (deliveries : DeliveryList) (i : Nat) : Delivery :=
  deliveries.getD i ⟨NUL, Priority.LOW, 0, 0, false⟩

/-- One iteration of the scan in `selectNextDelivery`; the accumulator is
`(bestIndex, bestScore)`. -/
def selectStep (g : Graph) (deliveries : DeliveryList) (dijkstraResult : Option DijkstraResult)
    (acc : Option Nat × ℚ) (i : Nat) : Option Nat × ℚ :=
  if (deliveryAt deliveries i).completed then acc
  else
    let distance := getShortestDistance dijkstraResult g (deliveryAt deliveries i).location
    if distance = INF then acc
    else
      let score := calculateDeliveryScore (deliveryAt deliveries i) distance
      if score > acc.2 then (some i, score) else acc

def selectNextDelivery (g : Graph) (deliveries : DeliveryList) (_currentLocation : Char)
    (dijkstraResult : Option DijkstraResult) : Option Nat :=
  ((List.range deliveries.length).foldl (selectStep g deliveries dijkstraResult) (none, -1)).1

/-- The variables of the loop of `optimizeDeliveryRoute`, with the graph and the delivery
list its pointers refer to.  `chosen` is a ghost field: the values taken by
`nextDeliveryIndex`, in order (the C steps do not store the index). -/
structure RouteState where
  graph : Graph
  deliveries : DeliveryList
  sequence : DeliverySequence
  currentLocation : Char
  chosen : List Nat
deriving DecidableEq, Repr

/-- The body of the loop of `optimizeDeliveryRoute` once the next delivery is known.  The
step is filled in first and `reconstructPath` then writes its text into the field `path`
of the step.  The result is `none` when that call writes past the end of its `tempPath`,
or when the text and its terminator do not fit in the `PATH_SIZE` bytes of `path`, so
that the text overwrites `cost`, `stepNumber` and the link of the step. -/
def takeDelivery (g : Graph) (st : RouteState) (dijkstraResult : DijkstraResult)
    (nextDeliveryIndex : Nat) : Option RouteState :=
  let deliveries := st.deliveries.set nextDeliveryIndex
    { deliveryAt st.deliveries nextDeliveryIndex with completed := true }
  let nextLocation := (deliveryAt deliveries nextDeliveryIndex).location
  let distance := getShortestDistance (some dijkstraResult) g nextLocation
  match reconstructPath dijkstraResult g nextLocation with
  | none => none
  | some text =>
    if text.length < PATH_SIZE then
      let step : DeliveryStep :=
        { location := nextLocation
          priority := (deliveryAt deliveries nextDeliveryIndex).priority
          path := text
          cost := distance
          stepNumber := st.sequence.totalSteps + 1 }
      some
        { graph := st.graph
          deliveries := deliveries
          sequence :=
            { steps := st.sequence.steps ++ [step]
              totalSteps := st.sequence.totalSteps + 1
              totalCost := wrapInt (st.sequence.totalCost + distance)
              warehouse := st.sequence.warehouse }
          currentLocation := nextLocation
          chosen := st.chosen ++ [nextDeliveryIndex] }
    else none

/-- The `for (completed ...)` loop of `optimizeDeliveryRoute`, with the number of
remaining iterations; `none` as for `takeDelivery`. -/
def routeLoop (g : Graph) : Nat → RouteState → Option RouteState
  | 0, st => some st
  | k + 1, st =>
    match dijkstra g st.currentLocation with
    | none => some st
    | some dijkstraResult =>
      match selectNextDelivery g st.deliveries st.currentLocation (some dijkstraResult) with
      | none => some st
      | some nextDeliveryIndex =>
        match takeDelivery g st dijkstraResult nextDeliveryIndex with
        | none => none
        | some st2 => routeLoop g k st2

/-- The loop state at the entry of `optimizeDeliveryRoute`. -/
def routeStart (g : Graph) (deliveries : DeliveryList) (warehouse : Char) : RouteState :=
  { graph := g
    deliveries := deliveries
    sequence := { steps := [], totalSteps := 0, totalCost := 0, warehouse := warehouse }
    currentLocation := warehouse
    chosen := [] }

/-- The final loop state: the returned sequence, the graph and the delivery list as the
call leaves them, the last position and the chosen indices; `none` when a path text was
written past the end of a buffer (see `takeDelivery`). -/
def optimizeDeliveryRoute (g : Graph) (deliveries : DeliveryList) (warehouse : Char) :
    Option RouteState :=
  routeLoop g deliveries.length (routeStart g deliveries warehouse)

/-! ## Specification vocabulary: edges, paths, well-formed graphs -/

/-- The adjacency list of vertex `u` holds an entry for `v` with weight `w`. -/
def HasEdge (g : Graph) (u v : Char) (w : Int) : Prop :=
  ∃ i, getVertexIndex g u = some i ∧ (⟨v, w⟩ : Edge) ∈ g.adj i

/-- The proposition `Path g s v vs d`: `vs` is the vertex sequence of a path (repetitions
allowed) from `s` to `v` following adjacency entries whose weights sum to `d`; parallel
entries give distinct paths with the same vertex sequence. -/
inductive Path (g : Graph) (s : Char) : Char → List Char → Int → Prop where
  | nil : s ∈ g.vertexNames → Path g s s [s] 0
  | snoc {u v : Char} {vs : List Char} {d w : Int} :
      Path g s u vs d → HasEdge g u v w → Path g s v (vs ++ [v]) (d + w)

/-- Some path leads from `s` to `v`. -/
def Reachable (g : Graph) (s v : Char) : Prop := ∃ vs d, Path g s v vs d

/-- Shape of the graphs the program can hold. -/
structure WF (g : Graph) : Prop where
  nodup : g.vertexNames.Nodup
  count_le : g.vertexCount ≤ MAX_VERTICES
  adj_len : g.adjList.length = MAX_VERTICES
  adj_unused : ∀ i, g.vertexCount ≤ i → g.adj i = []
  dest_mem : ∀ i, ∀ e ∈ g.adj i, e.destination ∈ g.vertexNames
  symm : ∀ i, i < g.vertexCount → ∀ e ∈ g.adj i,
    ∃ j, getVertexIndex g e.destination = some j ∧ (⟨g.name i, e.weight⟩ : Edge) ∈ g.adj j

/-- All adjacency entries carry a non-negative weight. -/
def NonNeg (g : Graph) : Prop := ∀ i, ∀ e ∈ g.adj i, 0 ≤ e.weight

/-- Every adjacency entry that is not a self-loop has weight at most `B`. -/
def LoopFreeBound (g : Graph) (B : Int) : Prop :=
  ∀ i, i < g.vertexCount → ∀ e ∈ g.adj i, e.destination ≠ g.name i → e.weight ≤ B

/-- Every path without a repeated vertex has total weight below the sentinel. -/
def PathsBelowInf (g : Graph) : Prop :=
  ∀ a b vs d, Path g a b vs d → vs.Nodup → d < INF

/-- Largest weight `w` for which `d + w` cannot overflow when `d < INF`. -/
def MAX_SAFE_WEIGHT : Int := 2146483649

/-- The vertices of `vs` separated by `" -> "`. -/
def joinArrow : List Char → List Char
  | [] => []
  | [c] => [c]
  | c :: d :: cs => c :: (" -> ".toList ++ joinArrow (d :: cs))

/-- The map of the scenario of the specification: A-B (5), B-C (3), A-C (10). -/
def exampleEdges : List (Char × Char × Int) := [('A', 'B', 5), ('B', 'C', 3), ('A', 'C', 10)]

/-- A map with a vertex named by the terminator byte. -/
def nulEdges : List (Char × Char × Int) := [('A', NUL, 1)]

/-- A map on which `1 + 2147483647` is computed when `dijkstra` starts from `A`. -/
def bigEdges : List (Char × Char × Int) := [('A', 'C', 1), ('C', 'B', 2147483647)]

/-- The statement of C2 for one graph, source and destination: `dijkstra` succeeds and
`reconstructPath` writes the vertices, joined by `" -> "`, of a path from `s` to `d`
whose weights sum to the distance recorded for `d`. -/
def EmitsRecordedPath (g : Graph) (s d : Char) : Prop :=
  ∃ r vs, dijkstra g s = some r ∧ reconstructPath r g d = some (joinArrow vs) ∧
    Path g s d vs (getShortestDistance (some r) g d)

/-- Delivery `i` is a candidate of `selectNextDelivery`: it exists, is not completed and
its distance is not the sentinel. -/
def Eligible (g : Graph) (deliveries : DeliveryList) (res : Option DijkstraResult) (i : Nat) :
    Prop :=
  i < deliveries.length ∧ (deliveryAt deliveries i).completed = false ∧
    getShortestDistance res g (deliveryAt deliveries i).location ≠ INF

/-- The score `selectNextDelivery` computes for delivery `i`. -/
def scoreAt (g : Graph) (deliveries : DeliveryList) (res : Option DijkstraResult) (i : Nat) : ℚ :=
  calculateDeliveryScore (deliveryAt deliveries i)
    (getShortestDistance res g (deliveryAt deliveries i).location)

/-- Location of the last step, or `w` when there is no step. -/
def lastLocation (w : Char) (steps : List DeliveryStep) : Char :=
  match steps.getLast? with
  | some s => s.location
  | none => w

/-- Every step costs what `dijkstra`, run from the location of the step before it (from
`w` for the first step), records for the location of the step. -/
def CostsFrom (g : Graph) : Char → List DeliveryStep → Prop
  | _, [] => True
  | w, s :: rest =>
    s.cost = getShortestDistance (dijkstra g w) g s.location ∧ CostsFrom g s.location rest

/-- Mathematical sum of the step costs. -/
def costSum (steps : List DeliveryStep) : Int := (steps.map fun s => s.cost).sum

/-- Every text that `reconstructPath` writes for a result of `dijkstra` on `g` fits,
together with its terminator, in the field `path` of a route step. -/
def TextsFit (g : Graph) : Prop :=
  ∀ s d r, dijkstra g s = some r →
    ∃ text, reconstructPath r g d = some text ∧ text.length < PATH_SIZE

/-- Invariant of the loop of `optimizeDeliveryRoute` started with the delivery list
`dl0` and the warehouse `w`. -/
structure RouteInv (g : Graph) (dl0 : DeliveryList) (w : Char) (st : RouteState) : Prop where
  graph : st.graph = g
  len : st.deliveries.length = dl0.length
  frame : ∀ i, deliveryAt st.deliveries i =
    if i ∈ st.chosen then { deliveryAt dl0 i with completed := true } else deliveryAt dl0 i
  nodup : st.chosen.Nodup
  fresh : ∀ i, i ∈ st.chosen → i < dl0.length ∧ (deliveryAt dl0 i).completed = false
  steps_len : st.sequence.steps.length = st.chosen.length
  total_steps : st.sequence.totalSteps = (st.chosen.length : Int)
  warehouse : st.sequence.warehouse = w
  current : st.currentLocation = lastLocation w st.sequence.steps
  costs : CostsFrom g w st.sequence.steps
  total : st.sequence.totalCost = wrapInt (costSum st.sequence.steps)
  locations : st.sequence.steps.map (fun s => s.location) =
    st.chosen.map fun i => (deliveryAt dl0 i).location
  priorities : st.sequence.steps.map (fun s => s.priority) =
    st.chosen.map fun i => (deliveryAt dl0 i).priority

/-- The deliveries of the scenario of the specification. -/
def exampleDeliveries : DeliveryList :=
  [⟨'B', Priority.MEDIUM, 0, 100, false⟩, ⟨'C', Priority.HIGH, 0, 100, false⟩]

/-- A map with non-negative weights on which two distance additions leave the `int`
range. -/
def chainEdges : List (Char × Char × Int) :=
  [('A', 'C', 1), ('C', 'B', 2147483647), ('B', 'E', 1), ('E', 'D', 2147483647)]

/-- Two deliveries on `chainEdges`. -/
def chainDeliveries : DeliveryList :=
  [⟨'B', Priority.LOW, 0, 100, false⟩, ⟨'D', Priority.LOW, 0, 100, false⟩]

/-- A map with one entry of weight `INT_MIN`. -/
def negEdges : List (Char × Char × Int) := [('A', 'B', -2147483648)]

/-- Two deliveries on the two vertices of `negEdges`. -/
def negDeliveries : DeliveryList :=
  [⟨'B', Priority.LOW, 0, 100, false⟩, ⟨'A', Priority.LOW, 0, 100, false⟩]

/-- A map with one entry heavier than the sentinel. -/
def heavyEdges : List (Char × Char × Int) := [('A', 'B', 1000000)]

/-- A map with two components: A-B and C-D. -/
def splitEdges : List (Char × Char × Int) := [('A', 'B', 5), ('C', 'D', 1)]

/-- A call that changes a graph. -/
inductive GraphOp where
  | vertex (c : Char)
  | edge (src dest : Char) (weight : Int)

/-- The graph after one call. -/
def applyOp (g : Graph) : GraphOp → Graph
  | GraphOp.vertex c => (addVertex g c).1
  | GraphOp.edge src dest weight => (addEdge g src dest weight).1

/-- The graph obtained from `createGraph` by a sequence of `addVertex` and `addEdge`
calls. -/
def applyOps (ops : List GraphOp) : Graph := ops.foldl applyOp createGraph

/-- The adjacency list of the vertex named `x` (empty when `x` is not a vertex). -/
def adjOf (g : Graph) (x : Char) : List Edge :=
  match getVertexIndex g x with
  | some i => g.adj i
  | none => []

/-- The entries that a successful `addEdge(src, dest, weight)` puts in front of the
adjacency list of `x`, first entry first. -/
def entryOf (x : Char) (e : Char × Char × Int) : List Edge :=
  (if e.2.1 = x then [(⟨e.1, e.2.2⟩ : Edge)] else []) ++
    (if e.1 = x then [(⟨e.2.1, e.2.2⟩ : Edge)] else [])

/-- The triples, in call order, whose `addEdge` call succeeds when the calls are made one
after the other starting from `g`. -/
def acceptedEdges : Graph → List (Char × Char × Int) → List (Char × Char × Int)
  | _, [] => []
  | g, e :: es =>
    (if (addEdge g e.1 e.2.1 e.2.2).2 = 0 then [e] else []) ++
      acceptedEdges (addEdge g e.1 e.2.1 e.2.2).1 es

/-- The chain a-b, b-c, ... over the first `n + 1` lower-case letters, all of weight 1. -/
def letterChain (n : Nat) : List (Char × Char × Int) :=
  (List.range n).map fun i => (Char.ofNat (97 + i), Char.ofNat (98 + i), 1)

/-- One delivery at the far end of `letterChain 25`. -/
def farDelivery : DeliveryList := [⟨'z', Priority.LOW, 0, 100, false⟩]

/-- A malformed result over the graph of `exampleEdges` (vertices A, B, C): the
predecessor of `B` is `C` and the predecessor of `C` is `B`. -/
def cycleResult : DijkstraResult :=
  { paths := [⟨0, NUL⟩, ⟨1, 'C'⟩, ⟨1, 'B'⟩], source := 'A', vertexCount := 3 }

/-- A malformed result over the graph of `exampleEdges`: the predecessor of `C` is the
unknown symbol `Q`. -/
def strayResult : DijkstraResult :=
  { paths := [⟨0, NUL⟩, ⟨5, 'A'⟩, ⟨8, 'Q'⟩], source := 'A', vertexCount := 3 }

/-! ## Invariants of the Dijkstra loop -/

/-- The proposition `Tree g si st v p`: following the recorded predecessors from vertex
index `v` leads to the source index `si` along the indices `p` (`v` first, `si` last);
every link is an adjacency entry from an already visited vertex and accounts for the
recorded distance. -/
inductive Tree (g : Graph) (si : Nat) (st : DState) : Nat → List Nat → Prop where
  | root : Tree g si st si [si]
  | step {u v : Nat} {p : List Nat} {w : Int} :
      Tree g si st u p → st.vis u = true → v < g.vertexCount → v ∉ p →
      (⟨g.name v, w⟩ : Edge) ∈ g.adj u → st.dist v = wrapInt (st.dist u + w) →
      (st.info v).previous = g.name u → Tree g si st v (v :: p)

/-- Invariant of the arrays that holds for every graph. -/
structure Shape (g : Graph) (si : Nat) (st : DState) : Prop where
  si_lt : si < g.vertexCount
  len_d : st.distances.length = g.vertexCount
  len_v : st.visited.length = g.vertexCount
  len_p : st.paths.length = g.vertexCount
  sync : ∀ i, i < g.vertexCount → (st.info i).distance = st.dist i
  le_inf : ∀ i, i < g.vertexCount → st.dist i ≤ INF
  vis_fin : ∀ i, i < g.vertexCount → st.vis i = true → st.dist i < INF
  src_dist : st.dist si = 0
  src_vis : st.vis si = true ∨
    ∀ i, i < g.vertexCount → st.vis i = false ∧ (i ≠ si → st.dist i = INF)
  unset : ∀ i, i < g.vertexCount → st.dist i = INF ∨ i = si → (st.info i).previous = NUL
  tree : ∀ i, i < g.vertexCount → st.dist i < INF → ∃ p, Tree g si st i p

/-- Invariant of the distances that needs non-negative weights and no overflow. -/
structure Metric (g : Graph) (st : DState) : Prop where
  nonneg : ∀ i, i < g.vertexCount → 0 ≤ st.dist i
  mono : ∀ i j, i < g.vertexCount → j < g.vertexCount → st.vis i = true → st.vis j = false →
    st.dist i ≤ st.dist j
  closed : ∀ i, i < g.vertexCount → st.vis i = true → ∀ e ∈ g.adj i, ∀ j,
    getVertexIndex g e.destination = some j → st.dist j ≤ st.dist i + e.weight

/-- Invariant of the distances while the adjacency entries of the visited vertex `u` are
being relaxed. -/
structure Mid (g : Graph) (u : Nat) (st : DState) : Prop where
  nonneg : ∀ i, i < g.vertexCount → 0 ≤ st.dist i
  below : ∀ i, i < g.vertexCount → st.vis i = true → st.dist i ≤ st.dist u
  above : ∀ j, j < g.vertexCount → st.vis j = false → st.dist u ≤ st.dist j
  closed : ∀ i, i < g.vertexCount → st.vis i = true → i ≠ u → ∀ e ∈ g.adj i, ∀ j,
    getVertexIndex g e.destination = some j → st.dist j ≤ st.dist i + e.weight

/-- Every unvisited vertex is at the sentinel distance. -/
def Done (g : Graph) (st : DState) : Prop :=
  ∀ i, i < g.vertexCount → st.vis i = false → st.dist i = INF

/-! ## Auxiliary facts on lists and name lookup -/

theorem getD_set_eq {α : Type} (l : List α) (i j : Nat) (a d : α) :
    (l.set i a).getD j d = if i = j ∧ i < l.length then a else l.getD j d := by
  simp only [List.getD_eq_getElem?_getD, List.getElem?_set]
  by_cases h : i = j
  · subst h
    by_cases h2 : i < l.length
    · simp [h2]
    · have h3 : l.length ≤ i := Nat.le_of_not_lt h2
      simp [h2, List.getElem?_eq_none h3]
  · simp [h]

theorem findName_some {l : List Char} {v : Char} {i : Nat} (h : findName l v = some i) :
    i < l.length ∧ l.getD i NUL = v := by
  induction l generalizing i with
  | nil => simp [findName] at h
  | cons c cs ih =>
    unfold findName at h
    by_cases hc : c = v
    · simp [hc] at h
      subst h
      simp [hc]
    · simp only [hc, if_false, Option.map_eq_some'] at h
      obtain ⟨k, hk, rfl⟩ := h
      have := ih hk
      refine ⟨by simpa using this.1, ?_⟩
      simpa using this.2

theorem findName_none {l : List Char} {v : Char} : findName l v = none ↔ v ∉ l := by
  induction l with
  | nil => simp [findName]
  | cons c cs ih =>
    unfold findName
    by_cases hc : c = v
    · simp [hc]
    · simp [hc, ih, Ne.symm hc]

theorem findName_of_mem {l : List Char} {v : Char} (h : v ∈ l) : ∃ i, findName l v = some i := by
  cases hf : findName l v with
  | none => exact absurd h (findName_none.1 hf)
  | some i => exact ⟨i, rfl⟩

theorem findName_getD {l : List Char} (hnd : l.Nodup) {i : Nat} (hi : i < l.length) :
    findName l (l.getD i NUL) = some i := by
  induction l generalizing i with
  | nil => simp at hi
  | cons c cs ih =>
    rw [List.nodup_cons] at hnd
    cases i with
    | zero => simp [findName]
    | succ k =>
      have hk : k < cs.length := by simpa using hi
      have hmem : cs.getD k NUL ∈ cs := by
        rw [List.getD_eq_getElem _ _ hk]; exact List.getElem_mem hk
      have hne : c ≠ cs.getD k NUL := fun h => hnd.1 (h ▸ hmem)
      simp only [List.getD_cons_succ, findName, hne, if_false, ih hnd.2 hk]
      rfl

theorem getD_mem_of_lt {l : List Char} {i : Nat} (hi : i < l.length) : l.getD i NUL ∈ l := by
  rw [List.getD_eq_getElem _ _ hi]; exact List.getElem_mem hi

/-! ## Selection of the minimum and relaxation of one entry -/

theorem minFold_spec (D : List Int) (V : List Bool) (n : Nat) :
    ((List.range n).foldl (minStep D V) (INF, none)).1 ≤ INF ∧
    (∀ j, j < n → V.getD j false = false →
      ((List.range n).foldl (minStep D V) (INF, none)).1 ≤ D.getD j 0) ∧
    (∀ u, ((List.range n).foldl (minStep D V) (INF, none)).2 = some u →
      u < n ∧ V.getD u false = false ∧
      D.getD u 0 = ((List.range n).foldl (minStep D V) (INF, none)).1 ∧ D.getD u 0 < INF) ∧
    (((List.range n).foldl (minStep D V) (INF, none)).2 = none →
      ((List.range n).foldl (minStep D V) (INF, none)).1 = INF) := by
  induction n with
  | zero => simp
  | succ n ih =>
    rw [List.range_succ, List.foldl_append]
    generalize (List.range n).foldl (minStep D V) (INF, none) = r at ih ⊢
    obtain ⟨h1, h2, h3, h4⟩ := ih
    simp only [List.foldl_cons, List.foldl_nil]
    unfold minStep
    by_cases hc : V.getD n false = false ∧ D.getD n 0 < r.1
    · rw [if_pos hc]
      refine ⟨by simp only; omega, ?_, ?_, ?_⟩
      · intro j hj hv
        simp only
        rcases Nat.lt_succ_iff_lt_or_eq.1 hj with hlt | heq
        · have := h2 j hlt hv; omega
        · subst heq; exact le_refl _
      · intro u hu
        simp only [Option.some.injEq] at hu
        subst hu
        exact ⟨Nat.lt_succ_self _, hc.1, rfl, by omega⟩
      · intro h; simp at h
    · rw [if_neg hc]
      refine ⟨h1, ?_, ?_, h4⟩
      · intro j hj hv
        rcases Nat.lt_succ_iff_lt_or_eq.1 hj with hlt | heq
        · exact h2 j hlt hv
        · subst heq
          have : ¬ D.getD j 0 < r.1 := fun h => hc ⟨hv, h⟩
          omega
      · intro u hu
        obtain ⟨a, b, c, d⟩ := h3 u hu
        exact ⟨Nat.lt_succ_of_lt a, b, c, d⟩

theorem getMin_some {st : DState} {n u : Nat}
    (h : getMinDistanceVertex st.distances st.visited n = some u) :
    u < n ∧ st.vis u = false ∧ st.dist u < INF ∧
      ∀ j, j < n → st.vis j = false → st.dist u ≤ st.dist j := by
  obtain ⟨_, h2, h3, _⟩ := minFold_spec st.distances st.visited n
  obtain ⟨a, b, c, d⟩ := h3 u h
  refine ⟨a, b, d, ?_⟩
  intro j hj hv
  have := h2 j hj hv
  unfold DState.dist
  rw [c]; exact this

theorem getMin_none {st : DState} {n : Nat}
    (h : getMinDistanceVertex st.distances st.visited n = none) :
    ∀ j, j < n → st.vis j = false → INF ≤ st.dist j := by
  obtain ⟨_, h2, _, h4⟩ := minFold_spec st.distances st.visited n
  intro j hj hv
  have := h2 j hj hv
  rw [h4 h] at this
  exact this

/-- The state after a successful relaxation of `v`. -/
theorem relaxEdge_cases (g : Graph) (u : Nat) (st : DState) (e : Edge) :
    relaxEdge g u st e = st ∨
    ∃ v, getVertexIndex g e.destination = some v ∧ st.vis v = false ∧
      wrapInt (st.dist u + e.weight) < st.dist v ∧
      relaxEdge g u st e =
        { st with
          distances := st.distances.set v (wrapInt (st.dist u + e.weight))
          paths := st.paths.set v ⟨wrapInt (st.dist u + e.weight), g.name u⟩ } := by
  unfold relaxEdge
  cases hv : getVertexIndex g e.destination with
  | none => left; rfl
  | some v =>
    simp only
    by_cases h1 : st.vis v = false
    · rw [if_pos h1]
      by_cases h2 : wrapInt (st.dist u + e.weight) < st.dist v
      · rw [if_pos h2]; right; exact ⟨v, rfl, h1, h2, rfl⟩
      · rw [if_neg h2]; left; rfl
    · rw [if_neg h1]; left; rfl

theorem relaxEdge_le (g : Graph) (u : Nat) (st : DState) (e : Edge) (v : Nat)
    (hv : getVertexIndex g e.destination = some v) (hvis : st.vis v = false)
    (hlen : v < st.distances.length) :
    (relaxEdge g u st e).dist v ≤ wrapInt (st.dist u + e.weight) := by
  unfold relaxEdge
  simp only [hv, hvis, if_true]
  by_cases h2 : wrapInt (st.dist u + e.weight) < st.dist v
  · rw [if_pos h2]
    simp [DState.dist, getD_set_eq, hlen]
  · rw [if_neg h2]; omega

/-! ## The shape invariant -/

/-- The arrays after recording distance `nd` and predecessor `c` for `v`. -/
theorem dist_update (st : DState) (v i : Nat) (nd : Int) (c : Char)
    (hv : v < st.distances.length) :
    ({ st with distances := st.distances.set v nd, paths := st.paths.set v ⟨nd, c⟩ } :
      DState).dist i = if i = v then nd else st.dist i := by
  simp only [DState.dist, getD_set_eq, hv, and_true]
  by_cases h : v = i
  · simp [h]
  · simp [h, Ne.symm h]

theorem info_update (st : DState) (v i : Nat) (nd : Int) (c : Char)
    (hv : v < st.paths.length) :
    ({ st with distances := st.distances.set v nd, paths := st.paths.set v ⟨nd, c⟩ } :
      DState).info i = if i = v then ⟨nd, c⟩ else st.info i := by
  simp only [DState.info, getD_set_eq, hv, and_true]
  by_cases h : v = i
  · simp [h]
  · simp [h, Ne.symm h]

theorem vis_mark (st : DState) (u i : Nat) (hu : u < st.visited.length) :
    ({ st with visited := st.visited.set u true } : DState).vis i =
      if i = u then true else st.vis i := by
  simp only [DState.vis, getD_set_eq, hu, and_true]
  by_cases h : u = i
  · simp [h]
  · simp [h, Ne.symm h]

theorem Tree.mem {g : Graph} {si : Nat} {st : DState} {v : Nat} {p : List Nat}
    (h : Tree g si st v p) : ∀ j, j ∈ p → j = v ∨ st.vis j = true := by
  induction h with
  | root => intro j hj; left; simpa using hj
  | step hu hvis _ _ _ _ _ ih =>
    intro j hj
    rcases List.mem_cons.1 hj with h | h
    · left; exact h
    · right
      rcases ih j h with h2 | h2
      · rw [h2]; exact hvis
      · exact h2

theorem Tree.stable {g : Graph} {si : Nat} {st st2 : DState} {v : Nat} {p : List Nat}
    (h : Tree g si st v p)
    (hd : ∀ j, j ∈ p → st2.dist j = st.dist j ∧ st2.info j = st.info j)
    (hv : ∀ j, st.vis j = true → st2.vis j = true) : Tree g si st2 v p := by
  induction h with
  | root => exact Tree.root
  | @step u v p w hu hvis hlt hnot hedge hdist hprev ih =>
    have hup : u ∈ p := by
      cases hu with
      | root => simp
      | step => simp
    refine Tree.step (ih fun j hj => hd j (List.mem_cons_of_mem _ hj)) (hv u hvis) hlt hnot hedge ?_ ?_
    · rw [(hd v (List.mem_cons_self _ _)).1, (hd u (List.mem_cons_of_mem _ hup)).1]; exact hdist
    · rw [(hd v (List.mem_cons_self _ _)).2]; exact hprev

theorem Tree.head_mem {g : Graph} {si : Nat} {st : DState} {v : Nat} {p : List Nat}
    (h : Tree g si st v p) : v ∈ p := by
  cases h with
  | root => simp
  | step => simp

theorem Shape.vis_src {g : Graph} {si : Nat} {st : DState} (hS : Shape g si st) {u : Nat}
    (hu : u < g.vertexCount) (hvis : st.vis u = true) : st.vis si = true := by
  rcases hS.src_vis with h | h
  · exact h
  · have := (h u hu).1; rw [hvis] at this; cases this

theorem Shape.relax {g : Graph} {si : Nat} {st : DState} (hS : Shape g si st) {u : Nat}
    (hu : u < g.vertexCount) (hvis : st.vis u = true) {e : Edge} (he : e ∈ g.adj u) :
    Shape g si (relaxEdge g u st e) ∧ (relaxEdge g u st e).visited = st.visited ∧
    (∀ i, st.vis i = true → (relaxEdge g u st e).dist i = st.dist i) ∧
    (∀ i, (relaxEdge g u st e).dist i ≤ st.dist i) := by
  rcases relaxEdge_cases g u st e with h | ⟨v, hv, hvv, hlt, h⟩
  · rw [h]; exact ⟨hS, rfl, fun _ _ => rfl, fun _ => le_refl _⟩
  · rw [h]
    have hvn : v < g.vertexCount := (findName_some hv).1
    have hname : g.name v = e.destination := (findName_some hv).2
    have hvd : v < st.distances.length := by rw [hS.len_d]; exact hvn
    have hvp : v < st.paths.length := by rw [hS.len_p]; exact hvn
    have hsi : st.vis si = true := hS.vis_src hu hvis
    have hsv : si ≠ v := fun h => by rw [h, hvv] at hsi; cases hsi
    have huv : u ≠ v := fun h => by rw [h, hvv] at hvis; cases hvis
    have hD := dist_update st v
    have hI := info_update st v
    have hinf : wrapInt (st.dist u + e.weight) < INF := lt_of_lt_of_le hlt (hS.le_inf v hvn)
    refine ⟨?_, rfl, ?_, ?_⟩
    · refine
        { si_lt := hS.si_lt
          len_d := by simp [hS.len_d]
          len_v := hS.len_v
          len_p := by simp [hS.len_p]
          sync := ?_
          le_inf := ?_
          vis_fin := ?_
          src_dist := ?_
          src_vis := Or.inl hsi
          unset := ?_
          tree := ?_ }
      · intro i hi
        rw [hD i _ _ hvd, hI i _ _ hvp]
        by_cases hiv : i = v
        · simp [hiv]
        · simp only [hiv, if_false]; exact hS.sync i hi
      · intro i hi
        rw [hD i _ _ hvd]
        by_cases hiv : i = v
        · simp only [hiv, if_true]; exact le_of_lt hinf
        · simp only [hiv, if_false]; exact hS.le_inf i hi
      · intro i hi hiv
        have hiv2 : st.vis i = true := hiv
        have hne : i ≠ v := fun h => by rw [h, hvv] at hiv2; cases hiv2
        rw [hD i _ _ hvd]; simp only [hne, if_false]; exact hS.vis_fin i hi hiv2
      · rw [hD si _ _ hvd]; simp only [hsv, if_false]; exact hS.src_dist
      · intro i hi hcase
        rw [hD i _ _ hvd] at hcase
        rw [hI i _ _ hvp]
        by_cases hiv : i = v
        · exfalso
          simp only [hiv, if_true] at hcase
          rcases hcase with h1 | h1
          · rw [h1] at hinf; exact lt_irrefl _ hinf
          · exact hsv h1.symm
        · simp only [hiv, if_false] at hcase ⊢
          exact hS.unset i hi hcase
      · intro i hi hfin
        rw [hD i _ _ hvd] at hfin
        by_cases hiv : i = v
        · subst hiv
          obtain ⟨p, hp⟩ := hS.tree u hu (hS.vis_fin u hu hvis)
          have hmem := hp.mem
          have hnot : i ∉ p := by
            intro hin
            rcases hmem i hin with h1 | h1
            · exact huv h1.symm
            · rw [hvv] at h1; cases h1
          refine ⟨i :: p, Tree.step (w := e.weight) (hp.stable ?_ fun j hj => hj) hvis hvn hnot ?_ ?_ ?_⟩
          · intro j hj
            have hji : j ≠ i := fun h => hnot (h ▸ hj)
            rw [hD j _ _ hvd, hI j _ _ hvp]; simp [hji]
          · rw [hname]; exact he
          · rw [hD i _ _ hvd, hD u _ _ hvd]; simp [huv]
          · rw [hI i _ _ hvp]; simp
        · simp only [hiv, if_false] at hfin
          obtain ⟨p, hp⟩ := hS.tree i hi hfin
          refine ⟨p, hp.stable ?_ fun j hj => hj⟩
          intro j hj
          have hjv : j ≠ v := by
            intro h
            rcases hp.mem j hj with h1 | h1
            · exact hiv (h1 ▸ h)
            · rw [h, hvv] at h1; cases h1
          rw [hD j _ _ hvd, hI j _ _ hvp]; simp [hjv]
    · intro i hi
      have hne : i ≠ v := fun h => by rw [h, hvv] at hi; cases hi
      rw [hD i _ _ hvd]; simp [hne]
    · intro i
      rw [hD i _ _ hvd]
      by_cases hiv : i = v
      · simp only [hiv, if_true]; exact le_of_lt hlt
      · simp [hiv]

theorem Shape.mark {g : Graph} {si : Nat} {st : DState} (hS : Shape g si st) {u : Nat}
    (hu : u < g.vertexCount) (hfin : st.dist u < INF) :
    Shape g si { st with visited := st.visited.set u true } := by
  have huv : u < st.visited.length := by rw [hS.len_v]; exact hu
  have hV := vis_mark st u
  refine
    { si_lt := hS.si_lt
      len_d := hS.len_d
      len_v := by simp [hS.len_v]
      len_p := hS.len_p
      sync := hS.sync
      le_inf := hS.le_inf
      vis_fin := ?_
      src_dist := hS.src_dist
      src_vis := ?_
      unset := hS.unset
      tree := ?_ }
  · intro i hi hiv
    rw [hV i huv] at hiv
    by_cases hiu : i = u
    · rw [hiu]; exact hfin
    · simp only [hiu, if_false] at hiv; exact hS.vis_fin i hi hiv
  · left
    rw [hV si huv]
    rcases hS.src_vis with h | h
    · simp [h]
    · by_cases hsu : si = u
      · simp [hsu]
      · exfalso
        have := (h u hu).2 (Ne.symm hsu)
        have h2 : st.dist u < INF := hfin
        rw [this] at h2; exact lt_irrefl _ h2
  · intro i hi hlt
    obtain ⟨p, hp⟩ := hS.tree i hi hlt
    refine ⟨p, hp.stable (fun j _ => ⟨rfl, rfl⟩) ?_⟩
    intro j hj
    rw [hV j huv]; simp [hj]

theorem Shape.fold {g : Graph} {si u : Nat} (hu : u < g.vertexCount) :
    ∀ (es : List Edge) (st : DState), (∀ e, e ∈ es → e ∈ g.adj u) → Shape g si st →
      st.vis u = true →
      Shape g si (es.foldl (relaxEdge g u) st) ∧
      (es.foldl (relaxEdge g u) st).visited = st.visited ∧
      (∀ i, st.vis i = true → (es.foldl (relaxEdge g u) st).dist i = st.dist i) ∧
      (∀ i, (es.foldl (relaxEdge g u) st).dist i ≤ st.dist i) := by
  intro es
  induction es with
  | nil => intro st _ hS _; exact ⟨hS, rfl, fun _ _ => rfl, fun _ => le_refl _⟩
  | cons e es ih =>
    intro st hsub hS hvis
    obtain ⟨h1, h2, h3, h4⟩ := hS.relax hu hvis (hsub e (List.mem_cons_self _ _))
    have hvis2 : (relaxEdge g u st e).vis u = true := by
      unfold DState.vis; rw [h2]; exact hvis
    obtain ⟨k1, k2, k3, k4⟩ := ih (relaxEdge g u st e)
      (fun x hx => hsub x (List.mem_cons_of_mem _ hx)) h1 hvis2
    simp only [List.foldl_cons]
    refine ⟨k1, k2.trans h2, ?_, fun i => le_trans (k4 i) (h4 i)⟩
    intro i hi
    have hi2 : (relaxEdge g u st e).vis i = true := by
      unfold DState.vis; rw [h2]; exact hi
    rw [k3 i hi2, h3 i hi]

theorem count_set_true (l : List Bool) (u : Nat) (hu : u < l.length)
    (h : l.getD u false = false) : (l.set u true).count true = l.count true + 1 := by
  induction l generalizing u with
  | nil => simp at hu
  | cons b bs ih =>
    cases u with
    | zero =>
      simp only [List.getD_cons_zero] at h
      subst h
      simp
    | succ k =>
      have hk : k < bs.length := by simpa using hu
      have h2 : bs.getD k false = false := by simpa using h
      simp only [List.set_cons_succ, List.count_cons, ih k hk h2]
      omega

theorem all_true_of_count (l : List Bool) (h : l.length ≤ l.count true) (i : Nat)
    (hi : i < l.length) : l.getD i false = true := by
  have h2 : l.count true = l.length := le_antisymm (List.count_le_length _ _) h
  rw [List.count_eq_length] at h2
  rw [List.getD_eq_getElem _ _ hi]
  exact (h2 _ (List.getElem_mem hi)).symm

theorem Shape.settle_ok {g : Graph} {si : Nat} {st : DState} (hS : Shape g si st) {u : Nat}
    (hu : u < g.vertexCount) (hfin : st.dist u < INF) :
    Shape g si (settle g u st) ∧
    (settle g u st).visited = st.visited.set u true ∧
    (∀ i, st.vis i = true ∨ i = u → (settle g u st).dist i = st.dist i) ∧
    (∀ i, (settle g u st).dist i ≤ st.dist i) := by
  have huv : u < st.visited.length := by rw [hS.len_v]; exact hu
  have hm := hS.mark hu hfin
  have hvu : ({ st with visited := st.visited.set u true } : DState).vis u = true := by
    rw [vis_mark st u u huv]; simp
  obtain ⟨h1, h2, h3, h4⟩ := Shape.fold hu (g.adj u) _ (fun e he => he) hm hvu
  refine ⟨h1, h2, ?_, h4⟩
  intro i hi
  have : ({ st with visited := st.visited.set u true } : DState).vis i = true := by
    rw [vis_mark st u i huv]
    rcases hi with h | h
    · simp [h]
    · simp [h]
  exact h3 i this

theorem Shape.loop {g : Graph} {si : Nat} :
    ∀ (k : Nat) (st : DState), Shape g si st →
      g.vertexCount ≤ st.visited.count true + k →
      Shape g si (dijkstraLoop g k st) ∧ Done g (dijkstraLoop g k st) := by
  intro k
  induction k with
  | zero =>
    intro st hS hc
    refine ⟨hS, ?_⟩
    intro i hi hv
    have := all_true_of_count st.visited (by rw [hS.len_v]; simpa using hc) i
      (by rw [hS.len_v]; exact hi)
    have hv2 : st.visited.getD i false = false := hv
    rw [this] at hv2; cases hv2
  | succ k ih =>
    intro st hS hc
    unfold dijkstraLoop
    cases hm : getMinDistanceVertex st.distances st.visited g.vertexCount with
    | none =>
      refine ⟨hS, ?_⟩
      intro i hi hv
      exact le_antisymm (hS.le_inf i hi) (getMin_none hm i hi hv)
    | some u =>
      obtain ⟨hu, hnv, hfin, _⟩ := getMin_some hm
      simp only
      rw [if_neg (ne_of_lt hfin)]
      obtain ⟨h1, h2, _, _⟩ := hS.settle_ok hu hfin
      apply ih _ h1
      rw [h2, count_set_true _ _ (by rw [hS.len_v]; exact hu) hnv]
      omega

theorem Shape.init {g : Graph} {si : Nat} (hsi : si < g.vertexCount) :
    Shape g si (initState g.vertexCount si) := by
  have hD : ∀ i, i < g.vertexCount →
      (initState g.vertexCount si).dist i = if i = si then 0 else INF := by
    intro i hi
    simp only [initState, DState.dist, getD_set_eq, List.length_replicate, hsi, and_true]
    by_cases h : si = i
    · simp [h]
    · simp [h, Ne.symm h, List.getD_eq_getElem?_getD, List.getElem?_replicate, hi]
  have hI : ∀ i, i < g.vertexCount →
      (initState g.vertexCount si).info i = if i = si then ⟨0, NUL⟩ else ⟨INF, NUL⟩ := by
    intro i hi
    simp only [initState, DState.info, getD_set_eq, List.length_replicate, hsi, and_true]
    by_cases h : si = i
    · simp [h]
    · simp [h, Ne.symm h, List.getD_eq_getElem?_getD, List.getElem?_replicate, hi]
  have hV : ∀ i, i < g.vertexCount → (initState g.vertexCount si).vis i = false := by
    intro i hi
    simp [initState, DState.vis, List.getD_eq_getElem?_getD, List.getElem?_replicate, hi]
  refine
    { si_lt := hsi
      len_d := by simp [initState]
      len_v := by simp [initState]
      len_p := by simp [initState]
      sync := ?_
      le_inf := ?_
      vis_fin := ?_
      src_dist := by rw [hD si hsi]; simp
      src_vis := ?_
      unset := ?_
      tree := ?_ }
  · intro i hi
    rw [hD i hi, hI i hi]
    by_cases h : i = si <;> simp [h]
  · intro i hi
    rw [hD i hi]
    by_cases h : i = si <;> simp [h, INF]
  · intro i hi hv
    rw [hV i hi] at hv; cases hv
  · right
    intro i hi
    refine ⟨hV i hi, fun h => ?_⟩
    rw [hD i hi]; simp [h]
  · intro i hi _
    rw [hI i hi]
    by_cases h : i = si <;> simp [h]
  · intro i hi hlt
    rw [hD i hi] at hlt
    by_cases h : i = si
    · subst h; exact ⟨[i], Tree.root⟩
    · simp [h] at hlt

/-! ## The metric invariant -/

theorem wrapInt_id {x : Int} (h1 : -2147483648 ≤ x) (h2 : x < 2147483648) : wrapInt x = x := by
  unfold wrapInt; omega

theorem name_inj {g : Graph} (hnd : g.vertexNames.Nodup) {i j : Nat} (hi : i < g.vertexCount)
    (hj : j < g.vertexCount) (h : g.name i = g.name j) : i = j := by
  have h1 : findName g.vertexNames (g.name i) = some i := findName_getD hnd hi
  have h2 : findName g.vertexNames (g.name j) = some j := findName_getD hnd hj
  rw [h] at h1
  rw [h1] at h2
  exact Option.some.inj h2

theorem index_name {g : Graph} (hnd : g.vertexNames.Nodup) {i : Nat} (hi : i < g.vertexCount) :
    getVertexIndex g (g.name i) = some i := findName_getD hnd hi

/-- No overflow when relaxing from `u` an entry leading to another vertex. -/
theorem relax_sum {g : Graph} (hnd : g.vertexNames.Nodup) (hnn : NonNeg g)
    (hb : LoopFreeBound g MAX_SAFE_WEIGHT) {st : DState} {u v : Nat} {e : Edge}
    (hu : u < g.vertexCount) (he : e ∈ g.adj u)
    (hv : getVertexIndex g e.destination = some v) (huv : u ≠ v)
    (h0 : 0 ≤ st.dist u) (h1 : st.dist u < INF) :
    wrapInt (st.dist u + e.weight) = st.dist u + e.weight ∧ 0 ≤ e.weight := by
  have hvn : v < g.vertexCount := (findName_some hv).1
  have hname : g.name v = e.destination := (findName_some hv).2
  have hne : e.destination ≠ g.name u := by
    intro h
    rw [← hname] at h
    exact huv (name_inj hnd hvn hu h).symm
  have hw := hb u hu e he hne
  have hw0 := hnn u e he
  refine ⟨wrapInt_id ?_ ?_, hw0⟩
  · omega
  · unfold MAX_SAFE_WEIGHT at hw; unfold INF at h1; omega

theorem Mid.relax_mid {g : Graph} (hnd : g.vertexNames.Nodup) (hnn : NonNeg g)
    (hb : LoopFreeBound g MAX_SAFE_WEIGHT) {si : Nat} {st : DState} (hS : Shape g si st)
    {u : Nat} (hM : Mid g u st) (hu : u < g.vertexCount) (hvis : st.vis u = true) {e : Edge}
    (he : e ∈ g.adj u) : Mid g u (relaxEdge g u st e) := by
  rcases relaxEdge_cases g u st e with h | ⟨v, hv, hvv, hlt, h⟩
  · rw [h]; exact hM
  · have huv : u ≠ v := fun h => by rw [h, hvv] at hvis; cases hvis
    obtain ⟨hsum, hw0⟩ := relax_sum hnd hnn hb hu he hv huv (hM.nonneg u hu)
      (hS.vis_fin u hu hvis)
    have hvn : v < g.vertexCount := (findName_some hv).1
    have hvd : v < st.distances.length := by rw [hS.len_d]; exact hvn
    have hD : ∀ i, (relaxEdge g u st e).dist i =
        if i = v then st.dist u + e.weight else st.dist i := by
      intro i; rw [h, dist_update st v i _ _ hvd, hsum]
    have hV : ∀ i, (relaxEdge g u st e).vis i = st.vis i := by
      intro i; rw [h]; rfl
    have hDu : (relaxEdge g u st e).dist u = st.dist u := by rw [hD u]; simp [huv]
    have hle : ∀ i, (relaxEdge g u st e).dist i ≤ st.dist i := by
      intro i
      rw [hD i]
      by_cases hiv : i = v
      · rw [hsum] at hlt; simp only [hiv, if_true]; exact le_of_lt hlt
      · simp [hiv]
    have hvsame : ∀ i, st.vis i = true → (relaxEdge g u st e).dist i = st.dist i := by
      intro i hi
      have hne : i ≠ v := fun h => by rw [h, hvv] at hi; cases hi
      rw [hD i]; simp [hne]
    have h0u := hM.nonneg u hu
    refine { nonneg := ?_, below := ?_, above := ?_, closed := ?_ }
    · intro i hi
      rw [hD i]
      by_cases hiv : i = v
      · simp only [hiv, if_true]; omega
      · simp only [hiv, if_false]; exact hM.nonneg i hi
    · intro i hi hiv
      rw [hV i] at hiv
      rw [hvsame i hiv, hDu]; exact hM.below i hi hiv
    · intro j hj hjv
      rw [hV j] at hjv
      rw [hDu, hD j]
      by_cases hjv2 : j = v
      · simp only [hjv2, if_true]; omega
      · simp only [hjv2, if_false]; exact hM.above j hj hjv
    · intro i hi hiv hiu e2 he2 j hj
      rw [hV i] at hiv
      rw [hvsame i hiv]
      exact le_trans (hle j) (hM.closed i hi hiv hiu e2 he2 j hj)

theorem Mid.fold_mid {g : Graph} (hnd : g.vertexNames.Nodup) (hnn : NonNeg g)
    (hb : LoopFreeBound g MAX_SAFE_WEIGHT) {si u : Nat} (hu : u < g.vertexCount) :
    ∀ (es : List Edge) (st : DState), (∀ e, e ∈ es → e ∈ g.adj u) → Shape g si st →
      Mid g u st → st.vis u = true →
      Mid g u (es.foldl (relaxEdge g u) st) ∧
      ∀ e, e ∈ es → ∀ j, getVertexIndex g e.destination = some j → st.vis j = false →
        (es.foldl (relaxEdge g u) st).dist j ≤ st.dist u + e.weight := by
  intro es
  induction es with
  | nil => intro st _ _ hM _; exact ⟨hM, fun e he => by simp at he⟩
  | cons e es ih =>
    intro st hsub hS hM hvis
    have hein := hsub e (List.mem_cons_self _ _)
    obtain ⟨h1, h2, h3, h4⟩ := hS.relax hu hvis hein
    have hM1 := hM.relax_mid hnd hnn hb hS hu hvis hein
    have hV : ∀ i, (relaxEdge g u st e).vis i = st.vis i := by
      intro i; unfold DState.vis; rw [h2]
    have hvis2 : (relaxEdge g u st e).vis u = true := by rw [hV]; exact hvis
    obtain ⟨k1, k2⟩ := ih (relaxEdge g u st e)
      (fun x hx => hsub x (List.mem_cons_of_mem _ hx)) h1 hM1 hvis2
    obtain ⟨_, _, _, f4⟩ := Shape.fold hu es (relaxEdge g u st e)
      (fun x hx => hsub x (List.mem_cons_of_mem _ hx)) h1 hvis2
    simp only [List.foldl_cons]
    refine ⟨k1, ?_⟩
    intro e2 he2 j hj hjv
    rcases List.mem_cons.1 he2 with heq | hin
    · subst heq
      have huj : u ≠ j := fun h => by rw [h, hjv] at hvis; cases hvis
      obtain ⟨hsum, _⟩ := relax_sum hnd hnn hb hu hein hj huj (hM.nonneg u hu)
        (hS.vis_fin u hu hvis)
      have hjn : j < g.vertexCount := (findName_some hj).1
      have := relaxEdge_le g u st e2 j hj hjv (by rw [hS.len_d]; exact hjn)
      rw [hsum] at this
      exact le_trans (f4 j) this
    · have := k2 e2 hin j hj (by rw [hV]; exact hjv)
      rw [h3 u hvis] at this
      exact this

theorem Metric.settle_metric {g : Graph} (hnd : g.vertexNames.Nodup) (hnn : NonNeg g)
    (hb : LoopFreeBound g MAX_SAFE_WEIGHT) {si : Nat} {st : DState} (hS : Shape g si st)
    (hM : Metric g st) {u : Nat} (hu : u < g.vertexCount) (hnv : st.vis u = false)
    (hfin : st.dist u < INF)
    (hmin : ∀ j, j < g.vertexCount → st.vis j = false → st.dist u ≤ st.dist j) :
    Metric g (settle g u st) := by
  have huv : u < st.visited.length := by rw [hS.len_v]; exact hu
  have hm := hS.mark hu hfin
  have hV1 := vis_mark st u
  have hvu : ({ st with visited := st.visited.set u true } : DState).vis u = true := by
    rw [hV1 u huv]; simp
  have hMid : Mid g u { st with visited := st.visited.set u true } := by
    refine { nonneg := hM.nonneg, below := ?_, above := ?_, closed := ?_ }
    · intro i hi hiv
      rw [hV1 i huv] at hiv
      by_cases hiu : i = u
      · subst hiu; exact le_refl _
      · simp only [hiu, if_false] at hiv
        exact hM.mono i u hi hu hiv hnv
    · intro j hj hjv
      rw [hV1 j huv] at hjv
      by_cases hju : j = u
      · simp [hju] at hjv
      · simp only [hju, if_false] at hjv
        exact hmin j hj hjv
    · intro i hi hiv hiu e he j hj
      rw [hV1 i huv] at hiv
      simp only [hiu, if_false] at hiv
      exact hM.closed i hi hiv e he j hj
  obtain ⟨s1, s2, s3, s4⟩ := Shape.fold hu (g.adj u) _ (fun e he => he) hm hvu
  obtain ⟨m1, m2⟩ := Mid.fold_mid hnd hnn hb hu (g.adj u) _ (fun e he => he) hm hMid hvu
  have hVf : ∀ i, (settle g u st).vis i = if i = u then true else st.vis i := by
    intro i
    have : (settle g u st).vis i =
        ({ st with visited := st.visited.set u true } : DState).vis i := by
      unfold DState.vis settle; rw [s2]
    rw [this, hV1 i huv]
  have hVm : ∀ i, (settle g u st).vis i =
      ((g.adj u).foldl (relaxEdge g u) { st with visited := st.visited.set u true }).vis i :=
    fun i => rfl
  refine { nonneg := m1.nonneg, mono := ?_, closed := ?_ }
  · intro i j hi hj hiv hjv
    exact le_trans (m1.below i hi hiv) (m1.above j hj hjv)
  · intro i hi hiv e he j hj
    have hjn : j < g.vertexCount := (findName_some hj).1
    by_cases hiu : i = u
    · subst hiu
      cases hjv : (settle g i st).vis j with
      | true =>
        have h1 := m1.below j hjn hjv
        have h2 := hnn i e he
        show ((g.adj i).foldl (relaxEdge g i) _).dist j ≤
          ((g.adj i).foldl (relaxEdge g i) _).dist i + e.weight
        omega
      | false =>
        have hjv1 : ({ st with visited := st.visited.set i true } : DState).vis j = false := by
          rw [hVf j] at hjv
          rw [hV1 j huv]; exact hjv
        have h1 := m2 e he j hj hjv1
        have h2 : ((g.adj i).foldl (relaxEdge g i)
            { st with visited := st.visited.set i true }).dist i =
            ({ st with visited := st.visited.set i true } : DState).dist i := s3 i hvu
        show ((g.adj i).foldl (relaxEdge g i) _).dist j ≤
          ((g.adj i).foldl (relaxEdge g i) _).dist i + e.weight
        rw [h2]; exact h1
    · exact m1.closed i hi hiv hiu e he j hj

theorem Metric.loop_metric {g : Graph} (hnd : g.vertexNames.Nodup) (hnn : NonNeg g)
    (hb : LoopFreeBound g MAX_SAFE_WEIGHT) {si : Nat} :
    ∀ (k : Nat) (st : DState), Shape g si st → Metric g st →
      Metric g (dijkstraLoop g k st) := by
  intro k
  induction k with
  | zero => intro st _ hM; exact hM
  | succ k ih =>
    intro st hS hM
    unfold dijkstraLoop
    cases hm : getMinDistanceVertex st.distances st.visited g.vertexCount with
    | none => exact hM
    | some u =>
      obtain ⟨hu, hnv, hfin, hmin⟩ := getMin_some hm
      simp only
      rw [if_neg (ne_of_lt hfin)]
      exact ih _ (hS.settle_ok hu hfin).1 (hM.settle_metric hnd hnn hb hS hu hnv hfin hmin)

theorem Metric.init_metric {g : Graph} {si : Nat} (hsi : si < g.vertexCount) :
    Metric g (initState g.vertexCount si) := by
  have hS := Shape.init hsi
  have hV : ∀ i, i < g.vertexCount → (initState g.vertexCount si).vis i = false := by
    intro i hi
    rcases hS.src_vis with h | h
    · simp [initState, DState.vis, List.getD_eq_getElem?_getD, List.getElem?_replicate, hi]
    · exact (h i hi).1
  refine { nonneg := ?_, mono := ?_, closed := ?_ }
  · intro i hi
    by_cases h : i = si
    · rw [h, hS.src_dist]
    · rcases hS.src_vis with h2 | h2
      · rw [hV si hsi] at h2; cases h2
      · rw [(h2 i hi).2 h]; simp [INF]
  · intro i j hi _ hiv _
    rw [hV i hi] at hiv; cases hiv
  · intro i hi hiv
    rw [hV i hi] at hiv; cases hiv

/-! ## Graphs built by `addVertex` and `addEdge` -/

theorem findName_append_of_some {l : List Char} {v : Char} {i : Nat} (c : Char)
    (h : findName l v = some i) : findName (l ++ [c]) v = some i := by
  induction l generalizing i with
  | nil => simp [findName] at h
  | cons a as ih =>
    simp only [List.cons_append]
    unfold findName at h ⊢
    by_cases hc : a = v
    · simpa [hc] using h
    · simp only [hc, if_false, Option.map_eq_some'] at h ⊢
      obtain ⟨k, hk, rfl⟩ := h
      exact ⟨k, ih hk, rfl⟩

theorem findName_append_new {l : List Char} {c : Char} (h : findName l c = none) :
    findName (l ++ [c]) c = some l.length := by
  induction l with
  | nil => simp [findName]
  | cons a as ih =>
    simp only [List.cons_append]
    unfold findName at h ⊢
    by_cases hc : a = c
    · simp [hc] at h
    · simp only [hc, if_false, Option.map_eq_none'] at h
      simp only [hc, if_false, ih h, List.length_cons]
      rfl

theorem getD_append_left (l : List Char) (c : Char) {i : Nat} (hi : i < l.length) :
    (l ++ [c]).getD i NUL = l.getD i NUL := by
  simp [List.getD_eq_getElem?_getD, List.getElem?_append_left hi]

theorem WF.create : WF createGraph := by
  refine
    { nodup := by simp [createGraph]
      count_le := by simp [createGraph, Graph.vertexCount]
      adj_len := by simp [createGraph]
      adj_unused := ?_
      dest_mem := ?_
      symm := ?_ }
  · intro i _
    simp only [Graph.adj, createGraph, List.getD_eq_getElem?_getD, List.getElem?_replicate]
    by_cases h : i < MAX_VERTICES <;> simp [h]
  · intro i e he
    simp only [Graph.adj, createGraph, List.getD_eq_getElem?_getD, List.getElem?_replicate] at he
    by_cases h : i < MAX_VERTICES <;> simp [h] at he
  · intro i hi
    simp [createGraph, Graph.vertexCount] at hi

/-- What `addVertex` returns and how it leaves the graph. -/
theorem addVertex_cases (g : Graph) (c : Char) :
    (∃ i, getVertexIndex g c = some i ∧ addVertex g c = (g, some i)) ∨
    (getVertexIndex g c = none ∧ MAX_VERTICES ≤ g.vertexCount ∧ addVertex g c = (g, none)) ∨
    (getVertexIndex g c = none ∧ g.vertexCount < MAX_VERTICES ∧
      addVertex g c = ({ g with vertexNames := g.vertexNames ++ [c] }, some g.vertexCount)) := by
  unfold addVertex
  cases h : getVertexIndex g c with
  | some i => left; exact ⟨i, rfl, rfl⟩
  | none =>
    right
    by_cases hc : g.vertexCount ≥ MAX_VERTICES
    · left; simp [hc]
    · right; simp only [hc, if_false]; exact ⟨trivial, Nat.lt_of_not_le hc, trivial⟩

theorem WF.append {g : Graph} (h : WF g) {c : Char} (hc : getVertexIndex g c = none)
    (hn : g.vertexCount < MAX_VERTICES) :
    WF { g with vertexNames := g.vertexNames ++ [c] } := by
  have hnot : c ∉ g.vertexNames := findName_none.1 hc
  refine
    { nodup := ?_
      count_le := ?_
      adj_len := h.adj_len
      adj_unused := ?_
      dest_mem := ?_
      symm := ?_ }
  · rw [List.nodup_append]
    refine ⟨h.nodup, List.nodup_singleton _, ?_⟩
    intro a ha hb
    rw [List.mem_singleton] at hb
    exact hnot (hb ▸ ha)
  · simp only [Graph.vertexCount, List.length_append, List.length_singleton]
    exact hn
  · intro i hi
    simp only [Graph.vertexCount, List.length_append, List.length_singleton] at hi
    exact h.adj_unused i (by unfold Graph.vertexCount; omega)
  · intro i e he
    exact List.mem_append_left _ (h.dest_mem i e he)
  · intro i hi e he
    simp only [Graph.vertexCount, List.length_append, List.length_singleton] at hi
    by_cases hlt : i < g.vertexCount
    · obtain ⟨j, hj, hmem⟩ := h.symm i hlt e he
      refine ⟨j, findName_append_of_some c hj, ?_⟩
      have : ({ g with vertexNames := g.vertexNames ++ [c] } : Graph).name i = g.name i :=
        getD_append_left g.vertexNames c hlt
      rw [this]; exact hmem
    · have : g.adj i = [] := h.adj_unused i (Nat.le_of_not_lt hlt)
      have he2 : e ∈ g.adj i := he
      rw [this] at he2; cases he2

theorem WF.addVertex_ok {g : Graph} (h : WF g) (c : Char) : WF (addVertex g c).1 := by
  rcases addVertex_cases g c with ⟨i, _, h2⟩ | ⟨_, _, h2⟩ | ⟨h1, hn, h2⟩
  · rw [h2]; exact h
  · rw [h2]; exact h
  · rw [h2]; exact h.append h1 hn

theorem addVertex_index {g : Graph} {c : Char} {i : Nat} (h : (addVertex g c).2 = some i) :
    getVertexIndex (addVertex g c).1 c = some i := by
  rcases addVertex_cases g c with ⟨k, h1, h2⟩ | ⟨_, _, h2⟩ | ⟨h1, _, h2⟩
  · rw [h2] at h ⊢; simp only at h ⊢; rw [← h]; exact h1
  · rw [h2] at h; simp at h
  · rw [h2] at h ⊢
    simp only [Option.some.injEq] at h ⊢
    rw [← h]
    exact findName_append_new h1

theorem addVertex_keeps {g : Graph} (c : Char) {v : Char} {i : Nat}
    (h : getVertexIndex g v = some i) : getVertexIndex (addVertex g c).1 v = some i := by
  rcases addVertex_cases g c with ⟨k, _, h2⟩ | ⟨_, _, h2⟩ | ⟨_, _, h2⟩
  · rw [h2]; exact h
  · rw [h2]; exact h
  · rw [h2]; exact findName_append_of_some c h

theorem addVertex_adj (g : Graph) (c : Char) : (addVertex g c).1.adjList = g.adjList := by
  rcases addVertex_cases g c with ⟨k, _, h2⟩ | ⟨_, _, h2⟩ | ⟨_, _, h2⟩ <;> rw [h2]

/-- Membership in the adjacency lists after the two insertions of `addEdge`. -/
theorem mem_adj_insert (adj : List (List Edge)) (si di : Nat) (a b : Edge)
    (hs : si < adj.length) (hd : di < adj.length) (i : Nat) (e : Edge) :
    e ∈ ((adj.set si (a :: adj.getD si [])).set di
        (b :: (adj.set si (a :: adj.getD si [])).getD di [])).getD i [] ↔
      e ∈ adj.getD i [] ∨ (i = si ∧ e = a) ∨ (i = di ∧ e = b) := by
  have hs2 : si < (adj.set si (a :: adj.getD si [])).length := by simpa using hs
  have hd2 : di < (adj.set si (a :: adj.getD si [])).length := by simpa using hd
  rw [getD_set_eq, getD_set_eq, getD_set_eq]
  by_cases h1 : di = i
  · subst h1
    by_cases h2 : si = di
    · subst h2
      simp only [hd2, and_self, if_true, hs, List.mem_cons]
      constructor
      · rintro (h | h | h)
        · right; right; exact ⟨trivial, h⟩
        · right; left; exact ⟨trivial, h⟩
        · left; exact h
      · rintro (h | ⟨_, h⟩ | ⟨_, h⟩)
        · right; right; exact h
        · right; left; exact h
        · left; exact h
    · simp only [hd2, and_self, if_true, h2, false_and, if_false, List.mem_cons]
      constructor
      · rintro (h | h)
        · right; right; exact ⟨trivial, h⟩
        · left; exact h
      · rintro (h | ⟨h, _⟩ | ⟨_, h⟩)
        · right; exact h
        · exact absurd h.symm h2
        · left; exact h
  · simp only [h1, false_and, if_false]
    by_cases h2 : si = i
    · subst h2
      simp only [hs, and_self, if_true, List.mem_cons]
      constructor
      · rintro (h | h)
        · right; left; exact ⟨trivial, h⟩
        · left; exact h
      · rintro (h | ⟨_, h⟩ | ⟨h, _⟩)
        · right; exact h
        · left; exact h
        · exact absurd h.symm h1
    · simp only [h2, false_and, if_false]
      constructor
      · intro h; left; exact h
      · rintro (h | ⟨h, _⟩ | ⟨h, _⟩)
        · exact h
        · exact absurd h.symm h2
        · exact absurd h.symm h1

/-- The two outcomes of `addEdge`. -/
theorem addEdge_cases (g : Graph) (src dest : Char) (w : Int) :
    (∃ si di, (addVertex g src).2 = some si ∧
      (addVertex (addVertex g src).1 dest).2 = some di ∧
      addEdge g src dest w =
        ({ (addVertex (addVertex g src).1 dest).1 with
            adjList :=
              (((addVertex (addVertex g src).1 dest).1.adjList.set si
                (⟨dest, w⟩ :: (addVertex (addVertex g src).1 dest).1.adjList.getD si [])).set di
                (⟨src, w⟩ :: (((addVertex (addVertex g src).1 dest).1.adjList.set si
                  (⟨dest, w⟩ ::
                    (addVertex (addVertex g src).1 dest).1.adjList.getD si [])).getD di []))) },
          0)) ∨
    (((addVertex g src).2 = none ∨ (addVertex (addVertex g src).1 dest).2 = none) ∧
      addEdge g src dest w = ((addVertex (addVertex g src).1 dest).1, -1)) := by
  cases h1 : (addVertex g src).2 with
  | none =>
    right
    refine ⟨Or.inl rfl, ?_⟩
    unfold addEdge
    simp only [h1]
  | some si =>
    cases h2 : (addVertex (addVertex g src).1 dest).2 with
    | none =>
      right
      refine ⟨Or.inr rfl, ?_⟩
      unfold addEdge
      simp only [h1, h2]
    | some di =>
      left
      refine ⟨si, di, rfl, rfl, ?_⟩
      unfold addEdge
      simp only [h1, h2]

/-- The adjacency entries after a successful `addEdge`, in terms of the graph `g2` that
holds both endpoints. -/
theorem WF.insert {g2 : Graph} (h : WF g2) {src dest : Char} {si di : Nat} (w : Int)
    (hs : getVertexIndex g2 src = some si) (hd : getVertexIndex g2 dest = some di) :
    WF { g2 with
        adjList := (g2.adjList.set si (⟨dest, w⟩ :: g2.adjList.getD si [])).set di
          (⟨src, w⟩ :: (g2.adjList.set si (⟨dest, w⟩ :: g2.adjList.getD si [])).getD di []) } ∧
    ∀ i e, e ∈ ({ g2 with
        adjList := (g2.adjList.set si (⟨dest, w⟩ :: g2.adjList.getD si [])).set di
          (⟨src, w⟩ :: (g2.adjList.set si (⟨dest, w⟩ :: g2.adjList.getD si [])).getD di []) } :
          Graph).adj i ↔
      e ∈ g2.adj i ∨ (i = si ∧ e = ⟨dest, w⟩) ∨ (i = di ∧ e = ⟨src, w⟩) := by
  have hsn := (findName_some hs).1
  have hdn := (findName_some hd).1
  have hsname : g2.name si = src := (findName_some hs).2
  have hdname : g2.name di = dest := (findName_some hd).2
  have hcl : g2.vertexNames.length ≤ g2.adjList.length := by
    rw [h.adj_len]; exact h.count_le
  have hmem := mem_adj_insert g2.adjList si di ⟨dest, w⟩ ⟨src, w⟩
    (lt_of_lt_of_le hsn hcl) (lt_of_lt_of_le hdn hcl)
  refine ⟨?_, fun i e => hmem i e⟩
  refine
    { nodup := h.nodup
      count_le := h.count_le
      adj_len := by simp [h.adj_len]
      adj_unused := ?_
      dest_mem := ?_
      symm := ?_ }
  · intro i hi
    have hi2 : g2.vertexNames.length ≤ i := hi
    apply List.eq_nil_iff_forall_not_mem.2
    intro e he
    rcases (hmem i e).1 he with h1 | ⟨h1, _⟩ | ⟨h1, _⟩
    · have := h.adj_unused i hi
      unfold Graph.adj at this
      rw [this] at h1; cases h1
    · omega
    · omega
  · intro i e he
    rcases (hmem i e).1 he with h1 | ⟨_, h1⟩ | ⟨_, h1⟩
    · exact h.dest_mem i e h1
    · rw [h1, ← hdname]; exact getD_mem_of_lt hdn
    · rw [h1, ← hsname]; exact getD_mem_of_lt hsn
  · intro i hi e he
    rcases (hmem i e).1 he with h1 | ⟨h0, h1⟩ | ⟨h0, h1⟩
    · obtain ⟨j, hj, hjm⟩ := h.symm i hi e h1
      exact ⟨j, hj, (hmem j _).2 (Or.inl hjm)⟩
    · refine ⟨di, by rw [h1]; exact hd, (hmem di _).2 (Or.inr (Or.inr ⟨rfl, ?_⟩))⟩
      rw [h1, h0]
      show (⟨g2.name si, w⟩ : Edge) = ⟨src, w⟩
      rw [hsname]
    · refine ⟨si, by rw [h1]; exact hs, (hmem si _).2 (Or.inr (Or.inl ⟨rfl, ?_⟩))⟩
      rw [h1, h0]
      show (⟨g2.name di, w⟩ : Edge) = ⟨dest, w⟩
      rw [hdname]

theorem WF.addEdge_ok {g : Graph} (h : WF g) (src dest : Char) (w : Int) :
    WF (addEdge g src dest w).1 := by
  have h2 : WF (addVertex (addVertex g src).1 dest).1 := (h.addVertex_ok src).addVertex_ok dest
  rcases addEdge_cases g src dest w with ⟨si, di, hs, hd, heq⟩ | ⟨_, heq⟩
  · rw [heq]
    exact (h2.insert w (addVertex_keeps dest (addVertex_index hs)) (addVertex_index hd)).1
  · rw [heq]; exact h2

/-- Every adjacency entry after `addEdge` is an old entry or carries the new weight. -/
theorem addEdge_weight {g : Graph} (h : WF g) (src dest : Char) (w : Int) (i : Nat) (e : Edge)
    (he : e ∈ (addEdge g src dest w).1.adj i) : e ∈ g.adj i ∨ e.weight = w := by
  have h2 : WF (addVertex (addVertex g src).1 dest).1 := (h.addVertex_ok src).addVertex_ok dest
  have hadj : (addVertex (addVertex g src).1 dest).1.adjList = g.adjList := by
    rw [addVertex_adj, addVertex_adj]
  rcases addEdge_cases g src dest w with ⟨si, di, hs, hd, heq⟩ | ⟨_, heq⟩
  · rw [heq] at he
    rcases ((h2.insert w (addVertex_keeps dest (addVertex_index hs))
      (addVertex_index hd)).2 i e).1 he with h1 | ⟨_, h1⟩ | ⟨_, h1⟩
    · left; unfold Graph.adj at h1 ⊢; rw [hadj] at h1; exact h1
    · right; rw [h1]
    · right; rw [h1]
  · rw [heq] at he
    left; unfold Graph.adj at he ⊢; rw [hadj] at he; exact he

theorem WF.foldl_ok (es : List (Char × Char × Int)) :
    ∀ g : Graph, WF g → WF (es.foldl (fun g e => (addEdge g e.1 e.2.1 e.2.2).1) g) := by
  induction es with
  | nil => intro g h; exact h
  | cons e es ih => intro g h; exact ih _ (h.addEdge_ok _ _ _)

theorem WF.build (es : List (Char × Char × Int)) : WF (buildGraph es) :=
  WF.foldl_ok es _ WF.create

/-- A property of the weights that holds for the weights of all triples holds for all
adjacency entries of the graph built from them. -/
theorem foldl_weights (P : Int → Prop) (es : List (Char × Char × Int))
    (hes : ∀ e, e ∈ es → P e.2.2) :
    ∀ g : Graph, WF g → (∀ i e, e ∈ g.adj i → P e.weight) →
      ∀ i e, e ∈ (es.foldl (fun g e => (addEdge g e.1 e.2.1 e.2.2).1) g).adj i →
        P e.weight := by
  induction es with
  | nil => intro g _ h; exact h
  | cons x xs ih =>
    intro g hw h
    apply ih (fun e he => hes e (List.mem_cons_of_mem _ he)) _ (hw.addEdge_ok _ _ _)
    intro i e he
    rcases addEdge_weight hw _ _ _ i e he with h1 | h1
    · exact h i e h1
    · rw [h1]; exact hes x (List.mem_cons_self _ _)

theorem build_weights (P : Int → Prop) (es : List (Char × Char × Int))
    (hes : ∀ e, e ∈ es → P e.2.2) : ∀ i e, e ∈ (buildGraph es).adj i → P e.weight := by
  apply foldl_weights P es hes _ WF.create
  intro i e he
  rw [WF.create.adj_unused i (by simp [createGraph, Graph.vertexCount])] at he
  cases he

theorem NonNeg.build_nonneg (es : List (Char × Char × Int)) (hes : ∀ e, e ∈ es → 0 ≤ e.2.2) :
    NonNeg (buildGraph es) :=
  build_weights (fun w => 0 ≤ w) es hes

/-! ## What the final arrays of `dijkstra` mean -/

theorem final_shape {g : Graph} {si : Nat} (hsi : si < g.vertexCount) :
    Shape g si (finalState g si) ∧ Done g (finalState g si) :=
  Shape.loop g.vertexCount _ (Shape.init hsi) (Nat.le_add_left _ _)

theorem final_metric {g : Graph} (hnd : g.vertexNames.Nodup) (hnn : NonNeg g)
    (hb : LoopFreeBound g MAX_SAFE_WEIGHT) {si : Nat} (hsi : si < g.vertexCount) :
    Metric g (finalState g si) :=
  Metric.loop_metric hnd hnn hb g.vertexCount _ (Shape.init hsi) (Metric.init_metric hsi)

theorem dijkstra_eq {g : Graph} {s : Char} {si : Nat} (hs : getVertexIndex g s = some si) :
    dijkstra g s =
      some { paths := (finalState g si).paths, source := s, vertexCount := g.vertexCount } := by
  unfold dijkstra; rw [hs]

/-- The distance read back by `getShortestDistance` is the final entry of `distances`. -/
theorem recorded_eq {g : Graph} {s v : Char} {si j : Nat} (hs : getVertexIndex g s = some si)
    (hv : getVertexIndex g v = some j) :
    getShortestDistance (dijkstra g s) g v = (finalState g si).dist j := by
  rw [dijkstra_eq hs]
  unfold getShortestDistance
  rw [hv]
  exact (final_shape (findName_some hs).1).1.sync j (findName_some hv).1

theorem final_src_vis {g : Graph} {si : Nat} (hsi : si < g.vertexCount) :
    (finalState g si).vis si = true := by
  obtain ⟨hS, hD⟩ := final_shape hsi
  rcases hS.src_vis with h | h
  · exact h
  · have := hD si hsi (h si hsi).1
    rw [hS.src_dist] at this
    simp [INF] at this

/-- A recorded predecessor chain is a simple path of the graph whose weight is the recorded
distance. -/
theorem Tree.path {g : Graph} (hnd : g.vertexNames.Nodup) (hnn : NonNeg g)
    (hb : LoopFreeBound g MAX_SAFE_WEIGHT) {si : Nat} {st : DState} (hS : Shape g si st)
    (hM : Metric g st) {v : Nat} {p : List Nat} (h : Tree g si st v p) :
    v < g.vertexCount ∧ p.Nodup ∧ (∀ j, j ∈ p → j < g.vertexCount) ∧
      Path g (g.name si) (g.name v) (p.reverse.map g.name) (st.dist v) := by
  induction h with
  | root =>
    refine ⟨hS.si_lt, List.nodup_singleton _, ?_, ?_⟩
    · intro j hj; rw [List.mem_singleton] at hj; rw [hj]; exact hS.si_lt
    · rw [hS.src_dist]
      exact Path.nil (getD_mem_of_lt hS.si_lt)
  | @step u v p w hu hvis hlt hnot hedge hdist hprev ih =>
    obtain ⟨hun, hnodup, hall, hpath⟩ := ih
    have huv : u ≠ v := fun h => hnot (h ▸ hu.head_mem)
    obtain ⟨hsum, _⟩ := @relax_sum g hnd hnn hb st _ _ _ hun hedge (index_name hnd hlt) huv
      (hM.nonneg u hun) (hS.vis_fin u hun hvis)
    refine ⟨hlt, List.nodup_cons.2 ⟨hnot, hnodup⟩, ?_, ?_⟩
    · intro j hj
      rcases List.mem_cons.1 hj with h | h
      · rw [h]; exact hlt
      · exact hall j h
    · have he : HasEdge g (g.name u) (g.name v) w := ⟨u, index_name hnd hun, hedge⟩
      have := Path.snoc hpath he
      rw [hdist, hsum]
      simpa using this

theorem map_name_nodup {g : Graph} (hnd : g.vertexNames.Nodup) {p : List Nat} (hp : p.Nodup)
    (hall : ∀ j, j ∈ p → j < g.vertexCount) : (p.map g.name).Nodup := by
  apply List.Nodup.map_on _ hp
  intro a ha b hb hab
  exact name_inj hnd (hall a ha) (hall b hb) hab

/-- Lower bound: the recorded distance is at most the weight of any path. -/
theorem path_lower {g : Graph} (hwf : WF g) (hnn : NonNeg g)
    (hb : LoopFreeBound g MAX_SAFE_WEIGHT) {s : Char} {si : Nat}
    (hs : getVertexIndex g s = some si) {v : Char} {vs : List Char} {d : Int}
    (h : Path g s v vs d) :
    ∃ j, getVertexIndex g v = some j ∧ (finalState g si).dist j ≤ d := by
  have hsi := (findName_some hs).1
  obtain ⟨hS, hD⟩ := final_shape hsi
  have hM := final_metric hwf.nodup hnn hb hsi
  induction h with
  | nil _ => exact ⟨si, hs, by rw [hS.src_dist]⟩
  | @snoc u v vs d w _ hedge ih =>
    obtain ⟨i, hi, hle⟩ := ih
    obtain ⟨i2, hi2, hmem⟩ := hedge
    rw [hi] at hi2
    have : i = i2 := Option.some.inj hi2
    subst this
    have hin := (findName_some hi).1
    obtain ⟨j, hj⟩ := findName_of_mem (hwf.dest_mem i _ hmem)
    have hjn := (findName_some hj).1
    refine ⟨j, hj, ?_⟩
    have hw : 0 ≤ w := hnn i _ hmem
    cases hvis : (finalState g si).vis i with
    | true =>
      have := hM.closed i hin hvis _ hmem j hj
      simp only at this
      omega
    | false =>
      have h1 := hD i hin hvis
      have h2 := hS.le_inf j hjn
      omega

theorem bound_of_paths {g : Graph} (hwf : WF g) (hsmall : PathsBelowInf g) :
    LoopFreeBound g MAX_SAFE_WEIGHT := by
  intro i hi e he hne
  have h1 : Path g (g.name i) (g.name i) [g.name i] 0 := Path.nil (getD_mem_of_lt hi)
  have h2 : HasEdge g (g.name i) e.destination e.weight := ⟨i, index_name hwf.nodup hi, he⟩
  have h3 := Path.snoc h1 h2
  have h4 := hsmall _ _ _ _ h3 (by simpa using Ne.symm hne)
  unfold INF at h4; unfold MAX_SAFE_WEIGHT; omega

/-- A finite recorded distance is the weight of a path without repeated vertex. -/
theorem realized {g : Graph} (hwf : WF g) (hnn : NonNeg g)
    (hb : LoopFreeBound g MAX_SAFE_WEIGHT) {s : Char} {si : Nat}
    (hs : getVertexIndex g s = some si) {j : Nat} (hj : j < g.vertexCount)
    (hfin : (finalState g si).dist j < INF) :
    ∃ p : List Nat, Tree g si (finalState g si) j p ∧ p.Nodup ∧
      (∀ k, k ∈ p → k < g.vertexCount) ∧
      Path g s (g.name j) (p.reverse.map g.name) ((finalState g si).dist j) ∧
      (p.reverse.map g.name).Nodup := by
  have hsi := (findName_some hs).1
  obtain ⟨hS, _⟩ := final_shape hsi
  have hM := final_metric hwf.nodup hnn hb hsi
  obtain ⟨p, hp⟩ := hS.tree j hj hfin
  obtain ⟨_, h2, h3, h4⟩ := hp.path hwf.nodup hnn hb hS hM
  have hname : g.name si = s := (findName_some hs).2
  rw [hname] at h4
  exact ⟨p, hp, h2, h3, h4, map_name_nodup hwf.nodup (List.nodup_reverse.2 h2)
    (fun k hk => h3 k (List.mem_reverse.1 hk))⟩

/-- With all simple paths below the sentinel, every vertex on a path from the source is
visited. -/
theorem reach_visited {g : Graph} (hwf : WF g) (hnn : NonNeg g) (hsmall : PathsBelowInf g)
    {s : Char} {si : Nat} (hs : getVertexIndex g s = some si) {v : Char} {vs : List Char}
    {d : Int} (h : Path g s v vs d) :
    ∃ j, getVertexIndex g v = some j ∧ (finalState g si).vis j = true := by
  have hb := bound_of_paths hwf hsmall
  have hsi := (findName_some hs).1
  obtain ⟨hS, hD⟩ := final_shape hsi
  have hM := final_metric hwf.nodup hnn hb hsi
  induction h with
  | nil _ => exact ⟨si, hs, final_src_vis hsi⟩
  | @snoc u v vs d w _ hedge ih =>
    obtain ⟨i, hi, hvis⟩ := ih
    obtain ⟨i2, hi2, hmem⟩ := hedge
    rw [hi] at hi2
    have : i = i2 := Option.some.inj hi2
    subst this
    have hin := (findName_some hi).1
    obtain ⟨j, hj⟩ := findName_of_mem (hwf.dest_mem i _ hmem)
    have hjn := (findName_some hj).1
    have hjname : g.name j = v := (findName_some hj).2
    refine ⟨j, hj, ?_⟩
    cases hjv : (finalState g si).vis j with
    | true => rfl
    | false =>
      exfalso
      have hinf := hD j hjn hjv
      have hcl := hM.closed i hin hvis _ hmem j hj
      simp only at hcl
      obtain ⟨p, hp, hnd, hall, hpath, hpnd⟩ :=
        realized hwf hnn hb hs hin (hS.vis_fin i hin hvis)
      have hjp : j ∉ p := by
        intro hin2
        rcases hp.mem j hin2 with h1 | h1
        · rw [h1, hvis] at hjv; cases hjv
        · rw [h1] at hjv; cases hjv
      have he : HasEdge g (g.name i) v w := ⟨i, index_name hwf.nodup hin, hmem⟩
      have hpath2 := Path.snoc hpath he
      have hnd2 : (List.map g.name p.reverse ++ [v]).Nodup := by
        rw [List.nodup_append]
        refine ⟨hpnd, List.nodup_singleton _, ?_⟩
        intro a ha hb2
        rw [List.mem_singleton] at hb2
        rw [hb2, List.mem_map] at ha
        obtain ⟨k, hk, hkn⟩ := ha
        rw [List.mem_reverse] at hk
        rw [← hjname] at hkn
        have := name_inj hwf.nodup (hall k hk) hjn hkn
        exact hjp (this ▸ hk)
      have := hsmall _ _ _ _ hpath2 hnd2
      omega

theorem path_weight_le {g : Graph} (hwf : WF g) {W : Int}
    (hW : ∀ i e, e ∈ g.adj i → e.weight ≤ W) {a b : Char} {vs : List Char} {d : Int}
    (h : Path g a b vs d) :
    d ≤ ((vs.length : Int) - 1) * W ∧ 1 ≤ vs.length ∧ ∀ x, x ∈ vs → x ∈ g.vertexNames := by
  induction h with
  | nil hmem =>
    refine ⟨by simp, by simp, ?_⟩
    intro x hx
    rw [List.mem_singleton] at hx
    rw [hx]; exact hmem
  | @snoc u v vs d w _ hedge ih =>
    obtain ⟨h1, h2, h3⟩ := ih
    obtain ⟨i, _, hmem⟩ := hedge
    have hw := hW i _ hmem
    simp only at hw
    refine ⟨?_, by simp, ?_⟩
    · have : (((vs ++ [v]).length : Int) - 1) * W = ((vs.length : Int) - 1) * W + W := by
        simp only [List.length_append, List.length_singleton]
        push_cast
        ring
      rw [this]; omega
    · intro x hx
      rcases List.mem_append.1 hx with h | h
      · exact h3 x h
      · rw [List.mem_singleton] at h
        rw [h]; exact hwf.dest_mem i _ hmem

/-- Weights of at most 38461 keep every simple path of a graph below the sentinel. -/
theorem paths_below_of_weights {g : Graph} (hwf : WF g) {W : Int} (hW0 : 0 ≤ W)
    (hW1 : W ≤ 38461) (hW : ∀ i e, e ∈ g.adj i → e.weight ≤ W) : PathsBelowInf g := by
  intro a b vs d hp hnd
  obtain ⟨h1, h2, h3⟩ := path_weight_le hwf hW hp
  have hlen : vs.length ≤ g.vertexNames.length :=
    (List.Nodup.subperm hnd h3).length_le
  have hn : g.vertexNames.length ≤ 26 := hwf.count_le
  have h4 : ((vs.length : Int) - 1) * W ≤ 25 * W := by
    apply mul_le_mul_of_nonneg_right _ hW0
    omega
  unfold INF
  omega

theorem index_of_mem {g : Graph} {v : Char} (h : v ∈ g.vertexNames) :
    ∃ i, getVertexIndex g v = some i := findName_of_mem h

theorem index_lt {g : Graph} {v : Char} {i : Nat} (h : getVertexIndex g v = some i) :
    i < g.vertexCount ∧ g.name i = v := findName_some h

theorem index_mem {g : Graph} {v : Char} {i : Nat} (h : getVertexIndex g v = some i) :
    v ∈ g.vertexNames := by
  by_contra hn
  have : getVertexIndex g v = none := findName_none.2 hn
  rw [this] at h; cases h

/-! ## C1: recorded distances are minimum path weights -/

theorem exampleEdges_below : PathsBelowInf (buildGraph exampleEdges) := by
  apply paths_below_of_weights (WF.build _) (W := 10) (by decide) (by decide)
  apply build_weights (fun w => w ≤ 10)
  decide

/-- C1: for a graph built by `addEdge` calls with non-negative weights in which every path
without repeated vertex weighs less than 999999, a source `s` and a vertex `v` of the
graph, `dijkstra` succeeds and the distance it records for `v` is the weight of a path
from `s` to `v` and a lower bound of the weights of all such paths (parallel entries
counted) when `v` is reachable, is `0` when `v = s`, and is 999999 when `v` is not
reachable. -/
theorem dijkstra_records_minimum (es : List (Char × Char × Int))
    (hes : ∀ e, e ∈ es → 0 ≤ e.2.2) (hsmall : PathsBelowInf (buildGraph es)) (s v : Char)
    (hs : s ∈ (buildGraph es).vertexNames) (hv : v ∈ (buildGraph es).vertexNames) :
    ∃ r, dijkstra (buildGraph es) s = some r ∧
      (Reachable (buildGraph es) s v →
        (∃ vs, Path (buildGraph es) s v vs (getShortestDistance (some r) (buildGraph es) v)) ∧
        ∀ vs d, Path (buildGraph es) s v vs d →
          getShortestDistance (some r) (buildGraph es) v ≤ d) ∧
      (v = s → getShortestDistance (some r) (buildGraph es) v = 0) ∧
      (¬ Reachable (buildGraph es) s v →
        getShortestDistance (some r) (buildGraph es) v = INF) := by
  have hwf := WF.build es
  have hnn := NonNeg.build_nonneg es hes
  have hb := bound_of_paths hwf hsmall
  obtain ⟨si, hsi⟩ := index_of_mem hs
  obtain ⟨j, hj⟩ := index_of_mem hv
  have hsn := (index_lt hsi).1
  have hjn := (index_lt hj).1
  have hjname : (buildGraph es).name j = v := (index_lt hj).2
  obtain ⟨hS, hD⟩ := final_shape hsn
  refine ⟨_, dijkstra_eq hsi, ?_⟩
  rw [← dijkstra_eq hsi, recorded_eq hsi hj]
  refine ⟨?_, ?_, ?_⟩
  · rintro ⟨vs, d, hp⟩
    obtain ⟨j2, hj2, hvis⟩ := reach_visited hwf hnn hsmall hsi hp
    rw [hj] at hj2
    have : j = j2 := Option.some.inj hj2
    subst this
    obtain ⟨p, _, _, _, hpath, _⟩ := realized hwf hnn hb hsi hjn (hS.vis_fin j hjn hvis)
    rw [hjname] at hpath
    refine ⟨⟨_, hpath⟩, ?_⟩
    intro vs2 d2 hp2
    obtain ⟨j3, hj3, hle⟩ := path_lower hwf hnn hb hsi hp2
    rw [hj] at hj3
    have : j = j3 := Option.some.inj hj3
    subst this
    exact hle
  · intro hvs
    subst hvs
    rw [hsi] at hj
    have : si = j := Option.some.inj hj
    subst this
    exact hS.src_dist
  · intro hnr
    by_contra hne
    have hlt : (finalState (buildGraph es) si).dist j < INF :=
      lt_of_le_of_ne (hS.le_inf j hjn) hne
    obtain ⟨p, _, _, _, hpath, _⟩ := realized hwf hnn hb hsi hjn hlt
    rw [hjname] at hpath
    exact hnr ⟨_, _, hpath⟩

theorem dijkstra_records_minimum_witness :
    ∃ r, dijkstra (buildGraph exampleEdges) 'A' = some r ∧
      (∃ vs, Path (buildGraph exampleEdges) 'A' 'C' vs
        (getShortestDistance (some r) (buildGraph exampleEdges) 'C')) ∧
      getShortestDistance (some r) (buildGraph exampleEdges) 'C' ≤ 0 + 10 := by
  have hp : Path (buildGraph exampleEdges) 'A' 'C' (['A'] ++ ['C']) (0 + 10) :=
    Path.snoc (Path.nil (by decide)) ⟨0, by decide, by decide⟩
  obtain ⟨r, h1, h2, _, _⟩ := dijkstra_records_minimum exampleEdges (by decide)
    exampleEdges_below 'A' 'C' (by decide) (by decide)
  exact ⟨r, h1, (h2 ⟨_, _, hp⟩).1, (h2 ⟨_, _, hp⟩).2 _ _ hp⟩

/-! ## Path reconstruction follows the recorded predecessor chain -/

theorem Tree.src_mem {g : Graph} {si : Nat} {st : DState} {v : Nat} {p : List Nat}
    (h : Tree g si st v p) : si ∈ p := by
  induction h with
  | root => simp
  | step _ _ _ _ _ _ _ ih => exact List.mem_cons_of_mem _ ih

/-- A recorded predecessor chain follows adjacency entries, whatever the weights are. -/
theorem Tree.links {g : Graph} (hnd : g.vertexNames.Nodup) {si : Nat} {st : DState}
    (hsi : si < g.vertexCount) {v : Nat} {p : List Nat} (h : Tree g si st v p) :
    v < g.vertexCount ∧ p.Nodup ∧ (∀ j, j ∈ p → j < g.vertexCount) ∧
      ∃ w, Path g (g.name si) (g.name v) (p.reverse.map g.name) w := by
  induction h with
  | root =>
    refine ⟨hsi, List.nodup_singleton _, ?_, 0, Path.nil (getD_mem_of_lt hsi)⟩
    intro j hj; rw [List.mem_singleton] at hj; rw [hj]; exact hsi
  | @step u v p w hu hvis hlt hnot hedge hdist hprev ih =>
    obtain ⟨hun, hnodup, hall, tot, hpath⟩ := ih
    refine ⟨hlt, List.nodup_cons.2 ⟨hnot, hnodup⟩, ?_, tot + w, ?_⟩
    · intro j hj
      rcases List.mem_cons.1 hj with h | h
      · rw [h]; exact hlt
      · exact hall j h
    · have he : HasEdge g (g.name u) (g.name v) w := ⟨u, index_name hnd hun, hedge⟩
      have := Path.snoc hpath he
      simpa using this

theorem Path.ends {g : Graph} {s v : Char} {vs : List Char} {d : Int} (h : Path g s v vs d) :
    vs.head? = some s ∧ vs.getLast? = some v := by
  induction h with
  | nil _ => simp
  | @snoc u v vs d w _ _ ih =>
    refine ⟨?_, by simp⟩
    cases vs with
    | nil => simp at ih
    | cons a as => simpa using ih.1

theorem length_le_of_nodup_lt {p : List Nat} {n : Nat} (hnd : p.Nodup)
    (hall : ∀ j, j ∈ p → j < n) : p.length ≤ n := by
  have hsub : p ⊆ List.range n := fun j hj => List.mem_range.2 (hall j hj)
  have := (List.Nodup.subperm hnd hsub).length_le
  simpa using this

theorem walkBack_tree {g : Graph} (hnd : g.vertexNames.Nodup) (hnul : NUL ∉ g.vertexNames)
    {si : Nat} {st : DState} (hsi : si < g.vertexCount) (r : DijkstraResult)
    (hr : r.paths = st.paths) (hsrc : r.source = g.name si) {v : Nat} {p : List Nat}
    (h : Tree g si st v p) :
    ∀ (room : Nat) (temp : List Char), p.length ≤ room + 1 →
      walkBack r g room (g.name v) temp = some (g.name si, temp ++ (p.map g.name).dropLast) := by
  induction h with
  | root =>
    intro room temp _
    unfold walkBack
    simp [hsrc]
  | @step u v p w hu hvis hlt hnot hedge hdist hprev ih =>
    intro room temp hroom
    obtain ⟨hun, _, hall, _⟩ := hu.links hnd hsi
    have hvs : v ≠ si := fun h => hnot (h ▸ hu.src_mem)
    have hne1 : g.name v ≠ r.source := by
      rw [hsrc]; exact fun h => hvs (name_inj hnd hlt hsi h)
    have hne2 : g.name v ≠ NUL := fun h => hnul (h ▸ getD_mem_of_lt hlt)
    have hp1 : 1 ≤ p.length := List.length_pos_of_mem hu.head_mem
    have hlen : (v :: p).length = p.length + 1 := rfl
    rw [hlen] at hroom
    unfold walkBack
    rw [if_pos ⟨hne1, hne2⟩]
    cases room with
    | zero => omega
    | succ room =>
      simp only [index_name hnd hlt]
      have hprev2 : (r.paths.getD v ⟨0, NUL⟩).previous = g.name u := by
        rw [hr]; exact hprev
      rw [hprev2, ih room (temp ++ [g.name v]) (by omega)]
      have hpne : p.map g.name ≠ [] := by
        intro h
        rw [List.map_eq_nil_iff] at h
        rw [h] at hp1
        simp at hp1
      rw [List.map_cons, List.dropLast_cons_of_ne_nil hpne]
      simp

/-- The separator-prefixed rendering of the vertices after the first one. -/
theorem emit_foldl (cs : List Char) (hnul : NUL ∉ cs) :
    ∀ acc : List Char, acc ≠ [] →
      cs.foldl emitStep acc = acc ++ (cs.map fun c => " -> ".toList ++ [c]).flatten := by
  induction cs with
  | nil => intro acc _; simp
  | cons c cs ih =>
    intro acc hacc
    have hc : c ≠ NUL := fun h => hnul (h ▸ List.mem_cons_self _ _)
    have hpos : acc.length > 0 := List.length_pos.2 hacc
    have hstep : emitStep acc c = acc ++ " -> ".toList ++ [c] := by
      unfold emitStep appendVertex
      rw [if_pos hpos, if_neg hc]
    rw [List.foldl_cons, hstep, ih (fun h => hnul (List.mem_cons_of_mem _ h)) _ (by simp)]
    simp

theorem joinArrow_cons (c : Char) (cs : List Char) :
    joinArrow (c :: cs) = c :: (cs.map fun x => " -> ".toList ++ [x]).flatten := by
  induction cs generalizing c with
  | nil => simp [joinArrow]
  | cons d ds ih =>
    rw [joinArrow, ih d]
    simp

theorem emit_join (vs : List Char) (hnul : NUL ∉ vs) : vs.foldl emitStep [] = joinArrow vs := by
  cases vs with
  | nil => simp [joinArrow]
  | cons c cs =>
    have hc : c ≠ NUL := fun h => hnul (h ▸ List.mem_cons_self _ _)
    have hstep : emitStep [] c = [c] := by
      unfold emitStep appendVertex
      simp [hc]
    rw [List.foldl_cons, hstep, emit_foldl cs (fun h => hnul (List.mem_cons_of_mem _ h)) [c]
      (by simp), joinArrow_cons]
    simp

theorem Tree.last {g : Graph} {si : Nat} {st : DState} {v : Nat} {p : List Nat}
    (h : Tree g si st v p) : ∃ q, p = q ++ [si] := by
  induction h with
  | root => exact ⟨[], rfl⟩
  | step _ _ _ _ _ _ _ ih =>
    obtain ⟨q, hq⟩ := ih
    exact ⟨_ :: q, by rw [hq]; rfl⟩

/-- The text written for a destination whose predecessor chain is `p`. -/
theorem reconstruct_tree {g : Graph} (hwf : WF g) (hnul : NUL ∉ g.vertexNames) {s d : Char}
    {si j : Nat} (hs : getVertexIndex g s = some si) (hj : getVertexIndex g d = some j)
    (hfin : (finalState g si).dist j ≠ INF) {p : List Nat}
    (hp : Tree g si (finalState g si) j p) :
    reconstructPath
      { paths := (finalState g si).paths, source := s, vertexCount := g.vertexCount } g d =
      some (joinArrow (p.reverse.map g.name)) := by
  have hsi := (index_lt hs).1
  have hsname : g.name si = s := (index_lt hs).2
  have hjn := (index_lt hj).1
  have hjname : g.name j = d := (index_lt hj).2
  obtain ⟨hS, _⟩ := final_shape hsi
  obtain ⟨_, hnd, hall, _⟩ := hp.links hwf.nodup hsi
  have hlen : p.length ≤ g.vertexCount := length_le_of_nodup_lt hnd hall
  have hcount : g.vertexCount ≤ 26 := hwf.count_le
  obtain ⟨q, hq⟩ := hp.last
  have hwalk := walkBack_tree hwf.nodup hnul hsi
    { paths := (finalState g si).paths, source := s, vertexCount := g.vertexCount } rfl
    hsname.symm hp MAX_VERTICES [] (by unfold MAX_VERTICES; omega)
  rw [hjname, hsname] at hwalk
  have hdrop : (p.map g.name).dropLast = q.map g.name := by
    rw [hq, List.map_append, List.map_singleton, List.dropLast_concat]
  have hdist : ((finalState g si).paths.getD j ⟨0, NUL⟩).distance ≠ INF := by
    have := hS.sync j hjn
    unfold DState.info at this
    rw [this]; exact hfin
  unfold reconstructPath
  simp only [hj, hdist, if_false, hwalk, List.nil_append, if_true, hdrop]
  have hqlen : (q.map g.name).length < MAX_VERTICES := by
    have : p.length = q.length + 1 := by rw [hq]; simp
    simp only [List.length_map]
    unfold MAX_VERTICES; omega
  rw [if_pos hqlen]
  have hrev : (q.map g.name ++ [s]).reverse = p.reverse.map g.name := by
    rw [hq, ← hsname]
    simp
  rw [hrev, emit_join]
  intro hmem
  rw [List.mem_map] at hmem
  obtain ⟨k, hk, hkn⟩ := hmem
  exact hnul (hkn ▸ getD_mem_of_lt (hall k (List.mem_reverse.1 hk)))

/-! ## C2: the reconstructed text is a path with the recorded cost -/

theorem path_nonneg {g : Graph} (hnn : NonNeg g) {s v : Char} {vs : List Char} {d : Int}
    (h : Path g s v vs d) : 0 ≤ d := by
  induction h with
  | nil _ => exact le_refl _
  | snoc _ hedge ih =>
    obtain ⟨i, _, hmem⟩ := hedge
    have := hnn i _ hmem
    simp only at this
    omega

theorem bound_of_weights (es : List (Char × Char × Int))
    (h : ∀ e, e ∈ es → e.2.2 ≤ MAX_SAFE_WEIGHT) :
    LoopFreeBound (buildGraph es) MAX_SAFE_WEIGHT :=
  fun i _ e he _ => build_weights (fun w => w ≤ MAX_SAFE_WEIGHT) es h i e he

/-- C2 (amended): for a graph built by `addEdge` with non-negative weights in which the
terminator byte is not a vertex, a source `s` of the graph and a destination `d` whose
recorded distance is not 999999, `reconstructPath` writes the vertices `v0 .. vk` joined
by `" -> "` with `v0 = s`, `vk = d` and consecutive vertices joined by adjacency entries;
when moreover every weight is at most 2146483649 the weights of those entries sum to
the recorded distance of `d`. -/
theorem reconstructPath_emits_path (es : List (Char × Char × Int))
    (hes : ∀ e, e ∈ es → 0 ≤ e.2.2) (hnul : NUL ∉ (buildGraph es).vertexNames) (s d : Char)
    (hs : s ∈ (buildGraph es).vertexNames)
    (hd : getShortestDistance (dijkstra (buildGraph es) s) (buildGraph es) d ≠ INF) :
    ∃ r vs, dijkstra (buildGraph es) s = some r ∧
      reconstructPath r (buildGraph es) d = some (joinArrow vs) ∧
      vs.head? = some s ∧ vs.getLast? = some d ∧
      (∃ w, Path (buildGraph es) s d vs w) ∧
      ((∀ e, e ∈ es → e.2.2 ≤ MAX_SAFE_WEIGHT) →
        Path (buildGraph es) s d vs (getShortestDistance (some r) (buildGraph es) d)) := by
  have hwf := WF.build es
  have hnn := NonNeg.build_nonneg es hes
  obtain ⟨si, hsi⟩ := index_of_mem hs
  have hsn := (index_lt hsi).1
  have hsname := (index_lt hsi).2
  cases hj : getVertexIndex (buildGraph es) d with
  | none =>
    exfalso; apply hd
    unfold getShortestDistance; rw [hj]
  | some j =>
    have hjn := (index_lt hj).1
    have hjname := (index_lt hj).2
    rw [recorded_eq hsi hj] at hd
    obtain ⟨hS, _⟩ := final_shape hsn
    obtain ⟨p, hp⟩ := hS.tree j hjn (lt_of_le_of_ne (hS.le_inf j hjn) hd)
    obtain ⟨_, _, _, w, hpath⟩ := hp.links hwf.nodup hsn
    rw [hsname, hjname] at hpath
    refine ⟨_, p.reverse.map (buildGraph es).name, dijkstra_eq hsi,
      reconstruct_tree hwf hnul hsi hj hd hp, hpath.ends.1, hpath.ends.2, ⟨w, hpath⟩, ?_⟩
    intro hbound
    have hb := bound_of_weights es hbound
    have hM := final_metric hwf.nodup hnn hb hsn
    obtain ⟨_, _, _, hpath2⟩ := hp.path hwf.nodup hnn hb hS hM
    rw [hsname, hjname] at hpath2
    rw [← dijkstra_eq hsi, recorded_eq hsi hj]
    exact hpath2

theorem reconstructPath_emits_path_witness :
    ∃ r vs, dijkstra (buildGraph exampleEdges) 'A' = some r ∧
      reconstructPath r (buildGraph exampleEdges) 'C' = some (joinArrow vs) ∧
      vs.head? = some 'A' ∧ vs.getLast? = some 'C' ∧
      Path (buildGraph exampleEdges) 'A' 'C' vs
        (getShortestDistance (some r) (buildGraph exampleEdges) 'C') := by
  obtain ⟨r, vs, h1, h2, h3, h4, _, h6⟩ := reconstructPath_emits_path exampleEdges
    (by decide) (by decide) 'A' 'C' (by decide) (by decide)
  exact ⟨r, vs, h1, h2, h3, h4, h6 (by decide)⟩

/-- C2 fails as stated: with the terminator byte as a vertex, `dijkstra` from `A` records
distance 1 for it, and `reconstructPath` writes the empty text, which is not a path. -/
theorem reconstructPath_nul_counterexample :
    (∀ e, e ∈ nulEdges → 0 ≤ e.2.2) ∧ 'A' ∈ (buildGraph nulEdges).vertexNames ∧
    getShortestDistance (dijkstra (buildGraph nulEdges) 'A') (buildGraph nulEdges) NUL = 1 ∧
    (∀ r, dijkstra (buildGraph nulEdges) 'A' = some r →
      reconstructPath r (buildGraph nulEdges) NUL = some []) ∧
    ¬ EmitsRecordedPath (buildGraph nulEdges) 'A' NUL := by
  have h4 : ∀ r, dijkstra (buildGraph nulEdges) 'A' = some r →
      reconstructPath r (buildGraph nulEdges) NUL = some [] := by
    intro r hr
    have : dijkstra (buildGraph nulEdges) 'A' =
        some ⟨[⟨0, NUL⟩, ⟨1, 'A'⟩], 'A', 2⟩ := by decide
    rw [this] at hr
    rw [← Option.some.inj hr]
    decide
  refine ⟨by decide, by decide, by decide, h4, ?_⟩
  rintro ⟨r, vs, hr, htext, hpath⟩
  rw [h4 r hr] at htext
  have hhead := hpath.ends.1
  cases vs with
  | nil => simp at hhead
  | cons c cs =>
    rw [joinArrow_cons] at htext
    simp at htext

/-- C2 also fails on overflow: from `A` the program computes `1 + 2147483647`, records the
wrapped value for `B`, and no path has a negative weight. -/
theorem reconstructPath_overflow_example :
    (∀ e, e ∈ bigEdges → 0 ≤ e.2.2) ∧
    getShortestDistance (dijkstra (buildGraph bigEdges) 'A') (buildGraph bigEdges) 'B' =
      -2147483648 ∧
    ¬ EmitsRecordedPath (buildGraph bigEdges) 'A' 'B' := by
  have h2 : getShortestDistance (dijkstra (buildGraph bigEdges) 'A') (buildGraph bigEdges) 'B' =
      -2147483648 := by decide
  refine ⟨by decide, h2, ?_⟩
  rintro ⟨r, vs, hr, _, hpath⟩
  rw [← hr, h2] at hpath
  have := path_nonneg (NonNeg.build_nonneg bigEdges (by decide)) hpath
  omega

/-! ## C3: selection of the next delivery -/

theorem score_pos (d : Delivery) (distance : Int) : 0 < calculateDeliveryScore d distance := by
  unfold calculateDeliveryScore
  have h1 : (0 : ℚ) < (d.priority.val : ℚ) * 10 := by
    cases d.priority <;> simp [Priority.val]
  have h2 : (0 : ℚ) < (if distance > 0 then 50 / (distance : ℚ) else 50) := by
    by_cases h : distance > 0
    · rw [if_pos h]
      have : (0 : ℚ) < (distance : ℚ) := by exact_mod_cast h
      positivity
    · rw [if_neg h]; norm_num
  simp only
  linarith

theorem selectFold_spec (g : Graph) (dl : DeliveryList) (res : Option DijkstraResult)
    (k : Nat) (hk : k ≤ dl.length) :
    (((List.range k).foldl (selectStep g dl res) (none, -1)).1 = none →
      ((List.range k).foldl (selectStep g dl res) (none, -1)).2 = -1 ∧
      ∀ j, j < k → ¬ Eligible g dl res j) ∧
    (∀ i, ((List.range k).foldl (selectStep g dl res) (none, -1)).1 = some i →
      i < k ∧ Eligible g dl res i ∧
      ((List.range k).foldl (selectStep g dl res) (none, -1)).2 = scoreAt g dl res i ∧
      (∀ j, j < k → Eligible g dl res j → scoreAt g dl res j ≤ scoreAt g dl res i) ∧
      (∀ j, j < i → Eligible g dl res j → scoreAt g dl res j < scoreAt g dl res i)) := by
  induction k with
  | zero => simp
  | succ k ih =>
    have hk2 : k < dl.length := hk
    rw [List.range_succ, List.foldl_append]
    generalize (List.range k).foldl (selectStep g dl res) (none, -1) = acc at ih ⊢
    obtain ⟨ih1, ih2⟩ := ih (Nat.le_of_lt hk2)
    simp only [List.foldl_cons, List.foldl_nil]
    have hskip : ¬ Eligible g dl res k → selectStep g dl res acc k = acc := by
      intro hne
      unfold selectStep
      by_cases hc : (deliveryAt dl k).completed = true
      · rw [if_pos hc]
      · rw [if_neg hc]
        have hc2 : (deliveryAt dl k).completed = false := by simpa using hc
        by_cases hd : getShortestDistance res g (deliveryAt dl k).location = INF
        · simp only [hd, if_true]
        · exact absurd ⟨hk2, hc2, hd⟩ hne
    have htake : Eligible g dl res k → selectStep g dl res acc k =
        if scoreAt g dl res k > acc.2 then (some k, scoreAt g dl res k) else acc := by
      intro he
      unfold selectStep scoreAt
      have hc : ¬ (deliveryAt dl k).completed = true := by rw [he.2.1]; simp
      rw [if_neg hc]
      simp only [he.2.2, if_false]
    by_cases he : Eligible g dl res k
    · rw [htake he]
      by_cases hgt : scoreAt g dl res k > acc.2
      · rw [if_pos hgt]
        refine ⟨fun h => by simp at h, ?_⟩
        intro i hi
        simp only [Option.some.injEq] at hi
        subst hi
        refine ⟨Nat.lt_succ_self _, he, rfl, ?_, ?_⟩
        · intro j hj hej
          rcases Nat.lt_succ_iff_lt_or_eq.1 hj with hlt | heq
          · cases hacc : acc.1 with
            | none => exact absurd hej ((ih1 hacc).2 j hlt)
            | some b =>
              obtain ⟨_, _, hb3, hb4, _⟩ := ih2 b hacc
              have := hb4 j hlt hej
              rw [← hb3] at this
              exact le_of_lt (lt_of_le_of_lt this hgt)
          · rw [heq]
        · intro j hj hej
          cases hacc : acc.1 with
          | none => exact absurd hej ((ih1 hacc).2 j hj)
          | some b =>
            obtain ⟨_, _, hb3, hb4, _⟩ := ih2 b hacc
            have := hb4 j hj hej
            rw [← hb3] at this
            exact lt_of_le_of_lt this hgt
      · rw [if_neg hgt]
        constructor
        · intro hnone
          exfalso
          have := (ih1 hnone).1
          rw [this] at hgt
          have := score_pos (deliveryAt dl k)
            (getShortestDistance res g (deliveryAt dl k).location)
          unfold scoreAt at hgt
          linarith
        · intro i hi
          obtain ⟨h1, h2, h3, h4, h5⟩ := ih2 i hi
          refine ⟨Nat.lt_succ_of_lt h1, h2, h3, ?_, h5⟩
          intro j hj hej
          rcases Nat.lt_succ_iff_lt_or_eq.1 hj with hlt | heq
          · exact h4 j hlt hej
          · rw [heq, ← h3]; exact not_lt.1 hgt
    · rw [hskip he]
      constructor
      · intro hnone
        refine ⟨(ih1 hnone).1, ?_⟩
        intro j hj
        rcases Nat.lt_succ_iff_lt_or_eq.1 hj with hlt | heq
        · exact (ih1 hnone).2 j hlt
        · rw [heq]; exact he
      · intro i hi
        obtain ⟨h1, h2, h3, h4, h5⟩ := ih2 i hi
        refine ⟨Nat.lt_succ_of_lt h1, h2, h3, ?_, h5⟩
        intro j hj hej
        rcases Nat.lt_succ_iff_lt_or_eq.1 hj with hlt | heq
        · exact h4 j hlt hej
        · rw [heq] at hej; exact absurd hej he

theorem select_none {g : Graph} {dl : DeliveryList} {c : Char} {res : Option DijkstraResult} :
    selectNextDelivery g dl c res = none ↔ ∀ j, ¬ Eligible g dl res j := by
  obtain ⟨h1, h2⟩ := selectFold_spec g dl res dl.length (le_refl _)
  unfold selectNextDelivery
  constructor
  · intro h j hj
    exact (h1 h).2 j hj.1 hj
  · intro h
    cases hacc : ((List.range dl.length).foldl (selectStep g dl res) (none, -1)).1 with
    | none => rfl
    | some i => exact absurd (h2 i hacc).2.1 (h i)

theorem select_some {g : Graph} {dl : DeliveryList} {c : Char} {res : Option DijkstraResult}
    {i : Nat} (h : selectNextDelivery g dl c res = some i) :
    Eligible g dl res i ∧
      (∀ j, Eligible g dl res j → scoreAt g dl res j ≤ scoreAt g dl res i) ∧
      (∀ j, j < i → Eligible g dl res j → scoreAt g dl res j < scoreAt g dl res i) := by
  obtain ⟨_, h2⟩ := selectFold_spec g dl res dl.length (le_refl _)
  obtain ⟨_, k2, _, k4, k5⟩ := h2 i h
  exact ⟨k2, fun j hj => k4 j hj.1 hj, k5⟩

/-- C3: with the score taken as an exact rational, `selectNextDelivery` returns `-1`
(`none`) exactly when no delivery is both not completed and at a distance different
from 999999; otherwise it returns the index of such a delivery whose score is at least
the score of every such delivery and strictly greater than the score of every such
delivery with a smaller index. -/
theorem selectNextDelivery_spec (g : Graph) (deliveries : DeliveryList) (currentLocation : Char)
    (res : Option DijkstraResult) :
    (selectNextDelivery g deliveries currentLocation res = none ↔
      ¬ ∃ j, Eligible g deliveries res j) ∧
    (∀ d distance, calculateDeliveryScore d distance =
      (d.priority.val : ℚ) * 10 + (if distance > 0 then 50 / (distance : ℚ) else 50)) ∧
    (Priority.LOW.val = 1 ∧ Priority.MEDIUM.val = 2 ∧ Priority.HIGH.val = 3) ∧
    ∀ i, selectNextDelivery g deliveries currentLocation res = some i →
      Eligible g deliveries res i ∧
      (∀ j, Eligible g deliveries res j →
        scoreAt g deliveries res j ≤ scoreAt g deliveries res i) ∧
      (∀ j, j < i → Eligible g deliveries res j →
        scoreAt g deliveries res j < scoreAt g deliveries res i) := by
  refine ⟨?_, fun _ _ => rfl, ⟨rfl, rfl, rfl⟩, fun i hi => select_some hi⟩
  rw [select_none]
  exact not_exists.symm

/-! ## The walk of `reconstructPath` over the predecessor links -/

theorem walkBack_stop (r : DijkstraResult) (g : Graph) (room : Nat) (c : Char)
    (temp : List Char) (h : ¬ (c ≠ r.source ∧ c ≠ NUL)) :
    walkBack r g room c temp = some (c, temp) := by
  unfold walkBack
  rw [if_neg h]

theorem walkBack_zero (r : DijkstraResult) (g : Graph) (c : Char) (temp : List Char)
    (h : c ≠ r.source ∧ c ≠ NUL) : walkBack r g 0 c temp = none := by
  unfold walkBack
  rw [if_pos h]

theorem walkBack_unknown (r : DijkstraResult) (g : Graph) (room : Nat) (c : Char)
    (temp : List Char) (h : c ≠ r.source ∧ c ≠ NUL) (hi : getVertexIndex g c = none) :
    walkBack r g (room + 1) c temp = some (c, temp ++ [c]) := by
  unfold walkBack
  rw [if_pos h]
  simp only [hi]

theorem walkBack_step (r : DijkstraResult) (g : Graph) (room : Nat) (c : Char)
    (temp : List Char) (h : c ≠ r.source ∧ c ≠ NUL) {i : Nat}
    (hi : getVertexIndex g c = some i) :
    walkBack r g (room + 1) c temp =
      walkBack r g room (r.paths.getD i ⟨0, NUL⟩).previous (temp ++ [c]) := by
  conv => lhs; unfold walkBack
  rw [if_pos h]
  simp only [hi]

/-- The walk does not depend on what `tempPath` already holds. -/
theorem walkBack_temp (r : DijkstraResult) (g : Graph) :
    ∀ (room : Nat) (c : Char) (temp : List Char),
      walkBack r g room c temp =
        (walkBack r g room c []).map fun p => (p.1, temp ++ p.2) := by
  intro room
  induction room with
  | zero =>
    intro c temp
    by_cases h : c ≠ r.source ∧ c ≠ NUL
    · rw [walkBack_zero r g c temp h, walkBack_zero r g c [] h]; rfl
    · rw [walkBack_stop r g 0 c temp h, walkBack_stop r g 0 c [] h]; simp
  | succ room ih =>
    intro c temp
    by_cases h : c ≠ r.source ∧ c ≠ NUL
    · cases hi : getVertexIndex g c with
      | none =>
        rw [walkBack_unknown r g room c temp h hi, walkBack_unknown r g room c [] h hi]; simp
      | some i =>
        rw [walkBack_step r g room c temp h hi, walkBack_step r g room c [] h hi,
          ih _ (temp ++ [c]), ih _ ([] ++ [c])]
        cases walkBack r g room (r.paths.getD i ⟨0, NUL⟩).previous [] with
        | none => rfl
        | some p => simp
    · rw [walkBack_stop r g _ c temp h, walkBack_stop r g _ c [] h]; simp

theorem walkBack_mono (r : DijkstraResult) (g : Graph) :
    ∀ (room : Nat) (c : Char) (temp : List Char) (x : Char × List Char),
      walkBack r g room c temp = some x → walkBack r g (room + 1) c temp = some x := by
  intro room
  induction room with
  | zero =>
    intro c temp x hx
    by_cases h : c ≠ r.source ∧ c ≠ NUL
    · rw [walkBack_zero r g c temp h] at hx; cases hx
    · rw [walkBack_stop r g 0 c temp h] at hx
      rw [walkBack_stop r g _ c temp h]; exact hx
  | succ room ih =>
    intro c temp x hx
    by_cases h : c ≠ r.source ∧ c ≠ NUL
    · cases hi : getVertexIndex g c with
      | none =>
        rw [walkBack_unknown r g room c temp h hi] at hx
        rw [walkBack_unknown r g _ c temp h hi]; exact hx
      | some i =>
        rw [walkBack_step r g room c temp h hi] at hx
        rw [walkBack_step r g _ c temp h hi]
        exact ih _ _ x hx
    · rw [walkBack_stop r g _ c temp h] at hx
      rw [walkBack_stop r g _ c temp h]; exact hx

theorem walkBack_mono_le (r : DijkstraResult) (g : Graph) {room room2 : Nat}
    (hle : room ≤ room2) {c : Char} {temp : List Char} {x : Char × List Char}
    (hx : walkBack r g room c temp = some x) : walkBack r g room2 c temp = some x := by
  induction hle with
  | refl => exact hx
  | step _ ih => exact walkBack_mono r g _ c temp x ih

/-- Shape of a finished walk: it needs as many slots as it collects, every collected
symbol differs from the source, is a vertex unless it is the final `current`, and the
walk started at a collected symbol is the rest of the walk. -/
theorem walkBack_spec (r : DijkstraResult) (g : Graph) :
    ∀ (room : Nat) (c c2 : Char) (t : List Char), walkBack r g room c [] = some (c2, t) →
      walkBack r g t.length c [] = some (c2, t) ∧
      (∀ x, x ∈ t → x ≠ r.source ∧ (x ∈ g.vertexNames ∨ x = c2)) ∧
      (∀ pre x post, t = pre ++ x :: post → walkBack r g room x [] = some (c2, x :: post)) := by
  intro room
  induction room with
  | zero =>
    intro c c2 t ht
    by_cases h : c ≠ r.source ∧ c ≠ NUL
    · rw [walkBack_zero r g c [] h] at ht; cases ht
    · rw [walkBack_stop r g 0 c [] h] at ht
      cases ht
      refine ⟨walkBack_stop r g _ c [] h, fun x hx => by simp at hx, ?_⟩
      intro pre x post hp
      simp at hp
  | succ room ih =>
    intro c c2 t ht
    by_cases h : c ≠ r.source ∧ c ≠ NUL
    · cases hi : getVertexIndex g c with
      | none =>
        rw [walkBack_unknown r g room c [] h hi] at ht
        cases ht
        refine ⟨walkBack_unknown r g 0 c [] h hi, ?_, ?_⟩
        · intro x hx
          simp only [List.nil_append, List.mem_singleton] at hx
          rw [hx]; exact ⟨h.1, Or.inr rfl⟩
        · intro pre x post hp
          cases pre with
          | nil =>
            simp only [List.nil_append, List.cons.injEq] at hp
            rw [← hp.1, ← hp.2]
            exact walkBack_unknown r g room c [] h hi
          | cons a pre2 =>
            have hl := congrArg List.length hp
            simp at hl
      | some i =>
        rw [walkBack_step r g room c [] h hi, walkBack_temp] at ht
        cases hw : walkBack r g room (r.paths.getD i ⟨0, NUL⟩).previous [] with
        | none => rw [hw] at ht; cases ht
        | some p =>
          obtain ⟨c3, t3⟩ := p
          rw [hw] at ht
          simp only [Option.map_some', List.nil_append, Option.some.injEq, Prod.mk.injEq] at ht
          obtain ⟨hc, htt⟩ := ht
          subst hc
          obtain ⟨k1, k2, k3⟩ := ih _ c3 t3 hw
          have hself : walkBack r g (room + 1) c [] = some (c3, c :: t3) := by
            rw [walkBack_step r g room c [] h hi, walkBack_temp, hw]; rfl
          rw [← htt]
          refine ⟨?_, ?_, ?_⟩
          · show walkBack r g (t3.length + 1) c [] = some (c3, [c] ++ t3)
            rw [walkBack_step r g _ c [] h hi, walkBack_temp, k1]; rfl
          · intro x hx
            rcases List.mem_append.1 hx with hx1 | hx1
            · rw [List.mem_singleton] at hx1
              rw [hx1]; exact ⟨h.1, Or.inl (index_mem hi)⟩
            · exact k2 x hx1
          · intro pre x post hp
            cases pre with
            | nil =>
              simp only [List.nil_append, List.singleton_append, List.cons.injEq] at hp
              rw [← hp.1, ← hp.2]; exact hself
            | cons a pre2 =>
              simp only [List.singleton_append, List.cons_append, List.cons.injEq] at hp
              exact walkBack_mono r g _ _ _ _ (k3 pre2 x post hp.2)
    · rw [walkBack_stop r g _ c [] h] at ht
      cases ht
      refine ⟨walkBack_stop r g _ c [] h, fun x hx => by simp at hx, ?_⟩
      intro pre x post hp
      simp at hp

/-- A finished walk collects no symbol twice. -/
theorem walkBack_nodup (r : DijkstraResult) (g : Graph) :
    ∀ (room : Nat) (c c2 : Char) (t : List Char), walkBack r g room c [] = some (c2, t) →
      t.Nodup := by
  intro room
  induction room with
  | zero =>
    intro c c2 t ht
    by_cases h : c ≠ r.source ∧ c ≠ NUL
    · rw [walkBack_zero r g c [] h] at ht; cases ht
    · rw [walkBack_stop r g 0 c [] h] at ht; cases ht; exact List.nodup_nil
  | succ room ih =>
    intro c c2 t ht
    by_cases h : c ≠ r.source ∧ c ≠ NUL
    · cases hi : getVertexIndex g c with
      | none =>
        rw [walkBack_unknown r g room c [] h hi] at ht
        cases ht
        exact List.nodup_singleton _
      | some i =>
        have hself := ht
        rw [walkBack_step r g room c [] h hi, walkBack_temp] at ht
        cases hw : walkBack r g room (r.paths.getD i ⟨0, NUL⟩).previous [] with
        | none => rw [hw] at ht; cases ht
        | some p =>
          obtain ⟨c3, t3⟩ := p
          rw [hw] at ht
          simp only [Option.map_some', List.nil_append, Option.some.injEq, Prod.mk.injEq] at ht
          obtain ⟨hc, htt⟩ := ht
          subst hc
          rw [← htt]
          show (c :: t3).Nodup
          refine List.nodup_cons.2 ⟨?_, ih _ c3 t3 hw⟩
          intro hmem
          obtain ⟨pre, post, hp⟩ := List.append_of_mem hmem
          obtain ⟨_, _, k3⟩ := walkBack_spec r g room _ c3 t3 hw
          have h1 := walkBack_mono r g _ _ _ _ (k3 pre c post hp)
          rw [hself] at h1
          simp only [Option.some.injEq, Prod.mk.injEq, true_and] at h1
          rw [← htt] at h1
          simp only [List.singleton_append, List.cons.injEq, true_and] at h1
          have hl := congrArg List.length hp
          rw [h1] at hl
          simp only [List.length_append, List.length_cons] at hl
          omega
    · rw [walkBack_stop r g _ c [] h] at ht; cases ht; exact List.nodup_nil

theorem walk_count {g : Graph} {r : DijkstraResult}
    (hsrc : r.source ∈ g.vertexNames) {room : Nat} {c c2 : Char} {t : List Char}
    (h : walkBack r g room c [] = some (c2, t)) :
    t.length + (if c2 = r.source then 1 else 0) ≤ g.vertexCount := by
  have hn := walkBack_nodup r g room c c2 t h
  obtain ⟨_, hmem, _⟩ := walkBack_spec r g room c c2 t h
  have hlen : (g.vertexNames.erase r.source).length = g.vertexNames.length - 1 :=
    List.length_erase_of_mem hsrc
  have hpos : 0 < g.vertexNames.length := List.length_pos_of_mem hsrc
  by_cases hc : c2 = r.source
  · rw [if_pos hc]
    have hsub : t ⊆ g.vertexNames.erase r.source := by
      intro x hx
      obtain ⟨h1, h2⟩ := hmem x hx
      rcases h2 with h2 | h2
      · exact (List.mem_erase_of_ne h1).2 h2
      · exact absurd (h2.trans hc) h1
    have := (List.Nodup.subperm hn hsub).length_le
    unfold Graph.vertexCount
    omega
  · rw [if_neg hc]
    have hsub : t ⊆ c2 :: g.vertexNames.erase r.source := by
      intro x hx
      obtain ⟨h1, h2⟩ := hmem x hx
      rcases h2 with h2 | h2
      · exact List.mem_cons_of_mem _ ((List.mem_erase_of_ne h1).2 h2)
      · rw [h2]; exact List.mem_cons_self _ _
    have := (List.Nodup.subperm hn hsub).length_le
    simp only [List.length_cons] at this
    unfold Graph.vertexCount
    omega

theorem walk_tree_ends {g : Graph} (hnd : g.vertexNames.Nodup) {si : Nat} {st : DState}
    (r : DijkstraResult) (hr : r.paths = st.paths)
    (hsrc : r.source = g.name si) {v : Nat} {p : List Nat} (h : Tree g si st v p) :
    ∀ temp : List Char, ∃ c t, walkBack r g p.length (g.name v) temp = some (c, t) := by
  induction h with
  | root =>
    intro temp
    exact ⟨_, _, walkBack_stop r g _ _ temp (fun hc => hc.1 hsrc.symm)⟩
  | @step u v p w hu hvis hlt hnot hedge hdist hprev ih =>
    intro temp
    by_cases hc : g.name v ≠ r.source ∧ g.name v ≠ NUL
    · have hstep := walkBack_step r g p.length (g.name v) temp hc (index_name hnd hlt)
      have hprev2 : (r.paths.getD v ⟨0, NUL⟩).previous = g.name u := by
        rw [hr]; exact hprev
      rw [hprev2] at hstep
      obtain ⟨c, t, hw⟩ := ih (temp ++ [g.name v])
      exact ⟨c, t, by rw [List.length_cons, hstep]; exact hw⟩
    · exact ⟨_, _, walkBack_stop r g _ _ temp hc⟩

/-- The walk over a result produced by `dijkstra` ends, whatever the destination. -/
theorem walk_ends_dijkstra {g : Graph} (hnd : g.vertexNames.Nodup) {s : Char} {si : Nat}
    (hs : getVertexIndex g s = some si) (d : Char) :
    ∃ room c t, walkBack
      { paths := (finalState g si).paths, source := s, vertexCount := g.vertexCount } g room d []
        = some (c, t) := by
  have hsi := (index_lt hs).1
  obtain ⟨hS, _⟩ := final_shape hsi
  by_cases hc : d ≠ s ∧ d ≠ NUL
  · cases hj : getVertexIndex g d with
    | none => exact ⟨1, _, _, walkBack_unknown _ g 0 d [] hc hj⟩
    | some j =>
      have hjn := (index_lt hj).1
      by_cases hfin : (finalState g si).dist j = INF
      · refine ⟨1, NUL, [d], ?_⟩
        rw [walkBack_step _ g 0 d [] hc hj]
        have hprev : ((finalState g si).paths.getD j ⟨0, NUL⟩).previous = NUL :=
          hS.unset j hjn (Or.inl hfin)
        simp only [hprev]
        exact walkBack_stop _ g 0 NUL _ (fun h => h.2 rfl)
      · obtain ⟨p, hp⟩ := hS.tree j hjn (lt_of_le_of_ne (hS.le_inf j hjn) hfin)
        obtain ⟨c, t, hw⟩ := walk_tree_ends hnd
          { paths := (finalState g si).paths, source := s, vertexCount := g.vertexCount } rfl
          (index_lt hs).2.symm hp []
        rw [(index_lt hj).2] at hw
        exact ⟨_, c, t, hw⟩
  · exact ⟨0, _, _, walkBack_stop _ g 0 d [] hc⟩

/-! ## The length of the path text -/

theorem emitStep_length (acc : List Char) (c : Char) :
    (emitStep acc c).length ≤ (if acc.length = 0 then 1 else acc.length + 5) := by
  unfold emitStep appendVertex
  by_cases h0 : acc.length = 0
  · have : ¬ acc.length > 0 := by omega
    rw [if_neg this, if_pos h0]
    split
    · omega
    · simp [h0]
  · have : acc.length > 0 := by omega
    rw [if_pos this, if_neg h0]
    split
    · simp
    · simp

theorem emit_length_aux (l : List Char) :
    ∀ (acc : List Char) (k : Nat), (acc.length = 0 ∨ acc.length + 4 ≤ 5 * k) →
      ((l.foldl emitStep acc).length = 0 ∨
        (l.foldl emitStep acc).length + 4 ≤ 5 * (k + l.length)) := by
  induction l with
  | nil => intro acc k h; simpa using h
  | cons c cs ih =>
    intro acc k h
    rw [List.foldl_cons]
    have hstep := emitStep_length acc c
    have := ih (emitStep acc c) (k + 1) (by
      by_cases h0 : acc.length = 0
      · rw [if_pos h0] at hstep
        omega
      · rw [if_neg h0] at hstep
        omega)
    rw [List.length_cons]
    rcases this with h1 | h1
    · exact Or.inl h1
    · right; omega

/-- The text of `k` vertices has at most `5 * k - 4` characters. -/
theorem emit_length (l : List Char) : (l.foldl emitStep []).length + 4 ≤ 5 * l.length ∨
    (l.foldl emitStep []).length = 0 := by
  rcases emit_length_aux l [] 0 (Or.inl rfl) with h | h
  · exact Or.inr h
  · left; omega

/-- What `reconstructPath` returns once the walk has ended. -/
theorem reconstruct_of_walk {g : Graph} (hcount : g.vertexCount ≤ MAX_VERTICES)
    {r : DijkstraResult} (hsrc : r.source ∈ g.vertexNames) {d : Char} {room : Nat} {c : Char}
    {t : List Char} (hw : walkBack r g room d [] = some (c, t)) :
    ∃ l : List Char, l.length ≤ g.vertexCount ∧
      (reconstructPath r g d = some "No path".toList ∨
        reconstructPath r g d = some (l.foldl emitStep [])) := by
  have hcnt := walk_count hsrc hw
  obtain ⟨hexact, _, _⟩ := walkBack_spec r g room d c t hw
  have hle : t.length ≤ g.vertexCount := by omega
  have hmax := walkBack_mono_le r g (le_trans hle hcount) hexact
  unfold reconstructPath
  cases hj : getVertexIndex g d with
  | none => exact ⟨[], Nat.zero_le _, Or.inl rfl⟩
  | some j =>
    simp only
    by_cases hinf : (r.paths.getD j ⟨0, NUL⟩).distance = INF
    · rw [if_pos hinf]; exact ⟨[], Nat.zero_le _, Or.inl rfl⟩
    · rw [if_neg hinf, hmax]
      simp only
      by_cases hc : c = r.source
      · rw [if_pos hc] at hcnt
        have hlt : t.length < MAX_VERTICES := by omega
        rw [if_pos hc, if_pos hlt]
        exact ⟨(t ++ [r.source]).reverse, by simpa using hcnt, Or.inr rfl⟩
      · rw [if_neg hc]
        exact ⟨t.reverse, by simpa using hle, Or.inr rfl⟩

/-- On a graph of at most 20 pairwise distinct vertices every path text has at most 96
characters. -/
theorem texts_fit_small {g : Graph} (hnd : g.vertexNames.Nodup) (hcount : g.vertexCount ≤ 20) :
    TextsFit g := by
  intro s d r hr
  cases hsi : getVertexIndex g s with
  | none =>
    unfold dijkstra at hr
    rw [hsi] at hr
    cases hr
  | some si =>
    rw [dijkstra_eq hsi] at hr
    have hr2 := Option.some.inj hr
    obtain ⟨room, c, t, hw⟩ := walk_ends_dijkstra hnd hsi d
    rw [hr2] at hw
    have hsrc : r.source ∈ g.vertexNames := by
      rw [← hr2]; exact index_mem hsi
    obtain ⟨l, hl, h | h⟩ := reconstruct_of_walk (le_trans hcount (by decide)) hsrc hw
    · exact ⟨_, h, by decide⟩
    · refine ⟨_, h, ?_⟩
      unfold PATH_SIZE
      rcases emit_length l with h1 | h1
      · omega
      · omega

/-! ## The loop of `optimizeDeliveryRoute` -/

theorem wrapInt_add (a b : Int) : wrapInt (wrapInt a + b) = wrapInt (a + b) := by
  unfold wrapInt; omega

theorem deliveryAt_set (dl : DeliveryList) (i j : Nat) (d : Delivery) :
    deliveryAt (dl.set i d) j = if i = j ∧ i < dl.length then d else deliveryAt dl j := by
  unfold deliveryAt
  exact getD_set_eq dl i j d _

theorem lastLocation_append (w : Char) (steps : List DeliveryStep) (s : DeliveryStep) :
    lastLocation w (steps ++ [s]) = s.location := by
  simp [lastLocation]

theorem CostsFrom_append (g : Graph) (s : DeliveryStep) :
    ∀ (steps : List DeliveryStep) (w : Char), CostsFrom g w steps →
      s.cost = getShortestDistance (dijkstra g (lastLocation w steps)) g s.location →
      CostsFrom g w (steps ++ [s]) := by
  intro steps
  induction steps with
  | nil =>
    intro w _ h
    exact ⟨h, trivial⟩
  | cons a as ih =>
    intro w hc h
    refine ⟨hc.1, ih a.location hc.2 ?_⟩
    have : lastLocation w (a :: as) = lastLocation a.location as := by
      cases as with
      | nil => simp [lastLocation]
      | cons b bs =>
        simp only [lastLocation, List.getLast?_cons_cons]
        cases hl : (b :: bs).getLast? with
        | none => simp at hl
        | some x => rfl
    rw [← this]; exact h

theorem costSum_append (steps : List DeliveryStep) (s : DeliveryStep) :
    costSum (steps ++ [s]) = costSum steps + s.cost := by
  simp [costSum]

theorem RouteInv.start (g : Graph) (dl : DeliveryList) (w : Char) :
    RouteInv g dl w (routeStart g dl w) := by
  refine
    { graph := rfl
      len := rfl
      frame := fun i => by simp [routeStart]
      nodup := List.nodup_nil
      fresh := fun i hi => by simp [routeStart] at hi
      steps_len := rfl
      total_steps := rfl
      warehouse := rfl
      current := rfl
      costs := trivial
      total := by simp [routeStart, costSum, wrapInt]
      locations := rfl
      priorities := rfl }

theorem RouteInv.take {g : Graph} {dl0 : DeliveryList} {w : Char} {st : RouteState}
    (h : RouteInv g dl0 w st) {res : DijkstraResult}
    (hres : dijkstra g st.currentLocation = some res) {idx : Nat}
    (hsel : selectNextDelivery g st.deliveries st.currentLocation (some res) = some idx)
    {st2 : RouteState} (htake : takeDelivery g st res idx = some st2) :
    RouteInv g dl0 w st2 ∧ idx ∉ st.chosen ∧
      st2.chosen = st.chosen ++ [idx] ∧
      st2.currentLocation = (deliveryAt dl0 idx).location := by
  obtain ⟨⟨hlt, hnc, _⟩, _, _⟩ := select_some hsel
  have hnot : idx ∉ st.chosen := by
    intro hin
    have := h.frame idx
    rw [if_pos hin] at this
    rw [this] at hnc
    simp at hnc
  have hsame : deliveryAt st.deliveries idx = deliveryAt dl0 idx := by
    have := h.frame idx
    rw [if_neg hnot] at this
    exact this
  have hnew : deliveryAt (st.deliveries.set idx
      { deliveryAt st.deliveries idx with completed := true }) idx =
      { deliveryAt dl0 idx with completed := true } := by
    rw [deliveryAt_set, if_pos ⟨rfl, hlt⟩, hsame]
  unfold takeDelivery at htake
  simp only at htake
  split at htake
  · cases htake
  · split at htake
    · have hst2 := (Option.some.inj htake).symm
      subst hst2
      refine ⟨?_, hnot, rfl, ?_⟩
      · refine
          { graph := h.graph
            len := by simp [h.len]
            frame := ?_
            nodup := ?_
            fresh := ?_
            steps_len := by simp [h.steps_len]
            total_steps := by simp [h.total_steps]
            warehouse := h.warehouse
            current := ?_
            costs := ?_
            total := ?_
            locations := ?_
            priorities := ?_ }
        · intro i
          show deliveryAt (st.deliveries.set idx _) i = if i ∈ st.chosen ++ [idx] then _ else _
          rw [deliveryAt_set]
          by_cases hi : idx = i
          · subst hi
            rw [if_pos ⟨rfl, hlt⟩, if_pos (by simp), hsame]
          · have : ¬ (idx = i ∧ idx < st.deliveries.length) := fun hc => hi hc.1
            rw [if_neg this, h.frame i]
            have hiff : i ∈ st.chosen ++ [idx] ↔ i ∈ st.chosen := by
              simp [Ne.symm hi]
            by_cases hin : i ∈ st.chosen
            · rw [if_pos hin, if_pos (hiff.2 hin)]
            · rw [if_neg hin, if_neg (fun hc => hin (hiff.1 hc))]
        · show (st.chosen ++ [idx]).Nodup
          rw [List.nodup_append]
          refine ⟨h.nodup, List.nodup_singleton _, ?_⟩
          intro a ha hb
          rw [List.mem_singleton] at hb
          exact hnot (hb ▸ ha)
        · intro i hi
          have hi2 : i ∈ st.chosen ++ [idx] := hi
          rcases List.mem_append.1 hi2 with h1 | h1
          · exact h.fresh i h1
          · rw [List.mem_singleton] at h1
            rw [h1, ← hsame]
            exact ⟨by rw [← h.len]; exact hlt, hnc⟩
        · show (deliveryAt (st.deliveries.set idx _) idx).location =
            lastLocation w (st.sequence.steps ++ [_])
          rw [lastLocation_append]
        · show CostsFrom g w (st.sequence.steps ++ [_])
          apply CostsFrom_append g _ _ w h.costs
          rw [← h.current, hres]
        · show wrapInt (st.sequence.totalCost + _) = wrapInt (costSum (st.sequence.steps ++ [_]))
          rw [costSum_append, h.total, wrapInt_add]
        · show (st.sequence.steps ++ [_]).map (fun s : DeliveryStep => s.location) =
            (st.chosen ++ [idx]).map fun i => (deliveryAt dl0 i).location
          rw [List.map_append, List.map_append, h.locations]
          simp only [List.map_cons, List.map_nil, hnew]
        · show (st.sequence.steps ++ [_]).map (fun s : DeliveryStep => s.priority) =
            (st.chosen ++ [idx]).map fun i => (deliveryAt dl0 i).priority
          rw [List.map_append, List.map_append, h.priorities]
          simp only [List.map_cons, List.map_nil, hnew]
      · show (deliveryAt (st.deliveries.set idx _) idx).location = _
        rw [hnew]
    · cases htake

/-- When every path text fits its field, the loop body builds the step. -/
theorem takeDelivery_fits {g : Graph} (hfit : TextsFit g) {st : RouteState}
    {res : DijkstraResult} (hres : dijkstra g st.currentLocation = some res) (idx : Nat) :
    ∃ st2, takeDelivery g st res idx = some st2 := by
  obtain ⟨text, h1, h2⟩ := hfit st.currentLocation
    (deliveryAt (st.deliveries.set idx
      { deliveryAt st.deliveries idx with completed := true }) idx).location res hres
  unfold takeDelivery
  simp only [h1, h2, if_true]
  exact ⟨_, rfl⟩

/-- The cases of one iteration of the loop that ends in the state `out`. -/
theorem routeLoop_succ {g : Graph} {k : Nat} {st out : RouteState}
    (h : routeLoop g (k + 1) st = some out) :
    (dijkstra g st.currentLocation = none ∧ out = st) ∨
    (∃ res, dijkstra g st.currentLocation = some res ∧
      selectNextDelivery g st.deliveries st.currentLocation (some res) = none ∧ out = st) ∨
    (∃ res idx st2, dijkstra g st.currentLocation = some res ∧
      selectNextDelivery g st.deliveries st.currentLocation (some res) = some idx ∧
      takeDelivery g st res idx = some st2 ∧ routeLoop g k st2 = some out) := by
  unfold routeLoop at h
  cases hres : dijkstra g st.currentLocation with
  | none =>
    rw [hres] at h
    exact Or.inl ⟨rfl, (Option.some.inj h).symm⟩
  | some res =>
    rw [hres] at h
    simp only at h
    cases hsel : selectNextDelivery g st.deliveries st.currentLocation (some res) with
    | none =>
      rw [hsel] at h
      exact Or.inr (Or.inl ⟨res, rfl, hsel, (Option.some.inj h).symm⟩)
    | some idx =>
      rw [hsel] at h
      simp only at h
      cases htake : takeDelivery g st res idx with
      | none => rw [htake] at h; cases h
      | some st2 =>
        rw [htake] at h
        exact Or.inr (Or.inr ⟨res, idx, st2, rfl, hsel, htake, h⟩)

/-- When every path text fits its field, the loop ends in a state. -/
theorem routeLoop_fits {g : Graph} (hfit : TextsFit g) :
    ∀ (k : Nat) (st : RouteState), ∃ out, routeLoop g k st = some out := by
  intro k
  induction k with
  | zero => intro st; exact ⟨st, rfl⟩
  | succ k ih =>
    intro st
    unfold routeLoop
    cases hres : dijkstra g st.currentLocation with
    | none => exact ⟨st, rfl⟩
    | some res =>
      simp only
      cases hsel : selectNextDelivery g st.deliveries st.currentLocation (some res) with
      | none => exact ⟨st, rfl⟩
      | some idx =>
        simp only
        obtain ⟨st2, htake⟩ := takeDelivery_fits hfit hres idx
        rw [htake]
        exact ih st2

theorem route_defined {g : Graph} (hfit : TextsFit g) (dl : DeliveryList) (w : Char) :
    ∃ out, optimizeDeliveryRoute g dl w = some out :=
  routeLoop_fits hfit _ _

theorem RouteInv.loop_route {g : Graph} {dl0 : DeliveryList} {w : Char} :
    ∀ (k : Nat) (st out : RouteState), RouteInv g dl0 w st → routeLoop g k st = some out →
      RouteInv g dl0 w out ∧ out.chosen.length ≤ st.chosen.length + k := by
  intro k
  induction k with
  | zero =>
    intro st out h hout
    have := (Option.some.inj hout).symm
    subst this
    exact ⟨h, le_refl _⟩
  | succ k ih =>
    intro st out h hout
    rcases routeLoop_succ hout with ⟨_, he⟩ | ⟨_, _, _, he⟩ | ⟨res, idx, st2, hres, hsel, htake, hrest⟩
    · subst he; exact ⟨h, Nat.le_add_right _ _⟩
    · subst he; exact ⟨h, Nat.le_add_right _ _⟩
    · obtain ⟨h1, _, h3, _⟩ := h.take hres hsel htake
      obtain ⟨k1, k2⟩ := ih _ _ h1 hrest
      refine ⟨k1, ?_⟩
      rw [h3] at k2
      simp only [List.length_append, List.length_singleton] at k2
      omega

theorem route_inv {g : Graph} {dl : DeliveryList} {w : Char} {out : RouteState}
    (hout : optimizeDeliveryRoute g dl w = some out) :
    RouteInv g dl w out ∧ out.chosen.length ≤ dl.length := by
  obtain ⟨h1, h2⟩ := RouteInv.loop_route dl.length _ _ (RouteInv.start g dl w) hout
  refine ⟨h1, ?_⟩
  have : (routeStart g dl w).chosen.length = 0 := rfl
  omega

set_option maxRecDepth 1000000 in
/-- On the chain a-b-...-z the text for the step to `z` from the warehouse `a` has 126
characters: the loop body writes past the end of the field `path`. -/
theorem chain_overrun :
    optimizeDeliveryRoute (buildGraph (letterChain 25)) farDelivery 'a' = none := by
  decide!

/-! ## C4, C5, C7: the returned sequence -/

/-- C5 (amended): on a graph whose path texts fit the field `path` of a step,
`optimizeDeliveryRoute` returns a sequence in which every step costs the distance that
`dijkstra`, run from the location of the step before it (from the warehouse for the first
step), records for the location of the step; `totalCost` is the sum of the step costs
reduced to the 32-bit `int` range, hence equal to that sum whenever the sum lies in that
range. -/
theorem route_costs (g : Graph) (deliveries : DeliveryList) (warehouse : Char)
    (hfit : TextsFit g) :
    ∃ st, optimizeDeliveryRoute g deliveries warehouse = some st ∧
      CostsFrom g warehouse st.sequence.steps ∧
      st.sequence.totalCost = wrapInt (costSum st.sequence.steps) ∧
      (-2147483648 ≤ costSum st.sequence.steps ∧ costSum st.sequence.steps < 2147483648 →
        st.sequence.totalCost = costSum st.sequence.steps) := by
  obtain ⟨st, hst⟩ := route_defined hfit deliveries warehouse
  obtain ⟨h, _⟩ := route_inv hst
  refine ⟨st, hst, h.costs, h.total, ?_⟩
  intro hr
  rw [h.total]
  exact wrapInt_id hr.1 hr.2

theorem route_costs_witness :
    ∃ st, optimizeDeliveryRoute (buildGraph exampleEdges) exampleDeliveries 'A' = some st ∧
      CostsFrom (buildGraph exampleEdges) 'A' st.sequence.steps ∧
      st.sequence.totalCost = wrapInt (costSum st.sequence.steps) ∧
      (-2147483648 ≤ costSum st.sequence.steps ∧ costSum st.sequence.steps < 2147483648 →
        st.sequence.totalCost = costSum st.sequence.steps) :=
  route_costs (buildGraph exampleEdges) exampleDeliveries 'A'
    (texts_fit_small (WF.build exampleEdges).nodup (by decide))

/-- C5 fails as stated: with one entry of weight `-2147483648` between `A` and `B` and a
delivery on each, both path texts fit their field, both steps cost `-2147483648`, their
sum is `-4294967296`, and `totalCost` is `0`, not that sum. -/
theorem route_costs_counterexample :
    (optimizeDeliveryRoute (buildGraph negEdges) negDeliveries 'A').map
      (fun st => st.sequence.steps.map (fun s => s.path)) =
      some ["A -> B".toList, "B -> A".toList] ∧
    (optimizeDeliveryRoute (buildGraph negEdges) negDeliveries 'A').map
      (fun st => st.sequence.steps.map (fun s => s.cost)) =
      some [-2147483648, -2147483648] ∧
    (optimizeDeliveryRoute (buildGraph negEdges) negDeliveries 'A').map
      (fun st => costSum st.sequence.steps) = some (-4294967296) ∧
    (optimizeDeliveryRoute (buildGraph negEdges) negDeliveries 'A').map
      (fun st => st.sequence.totalCost) = some 0 ∧
    (optimizeDeliveryRoute (buildGraph negEdges) negDeliveries 'A').map
      (fun st => decide (st.sequence.totalCost = costSum st.sequence.steps)) = some false := by
  refine ⟨?_, ?_, ?_, ?_, ?_⟩ <;> decide!

/-- The same failure with non-negative weights only: on `chainEdges` both recorded step
costs are the wrapped value `-2147483648` and `totalCost` is `0`. -/
theorem route_costs_overflow_example :
    (∀ e, e ∈ chainEdges → 0 ≤ e.2.2) ∧
    (optimizeDeliveryRoute (buildGraph chainEdges) chainDeliveries 'A').map
      (fun st => st.sequence.steps.map (fun s => s.cost)) =
      some [-2147483648, -2147483648] ∧
    (optimizeDeliveryRoute (buildGraph chainEdges) chainDeliveries 'A').map
      (fun st => st.sequence.totalCost) = some 0 := by
  refine ⟨by decide, ?_, ?_⟩ <;> decide!

/-- C7: on the map A-B (5), B-C (3), A-C (10) built in that order, with the deliveries
(B, Medium, 0, 100) and (C, High, 0, 100) not completed and warehouse A, `dijkstra` from A
records 5 for B and 8 for C, and `optimizeDeliveryRoute` returns exactly the steps
(C, High, "A -> B -> C", 8, 1) and (B, Medium, "C -> B", 3, 2) with `totalSteps = 2` and
`totalCost = 11`. -/
theorem scenario_route :
    getShortestDistance (dijkstra (buildGraph exampleEdges) 'A') (buildGraph exampleEdges) 'B'
      = 5 ∧
    getShortestDistance (dijkstra (buildGraph exampleEdges) 'A') (buildGraph exampleEdges) 'C'
      = 8 ∧
    (optimizeDeliveryRoute (buildGraph exampleEdges) exampleDeliveries 'A').map
        (fun st => st.sequence) =
      some
        { steps :=
            [{ location := 'C', priority := Priority.HIGH, path := "A -> B -> C".toList,
               cost := 8, stepNumber := 1 },
             { location := 'B', priority := Priority.MEDIUM, path := "C -> B".toList,
               cost := 3, stepNumber := 2 }]
          totalSteps := 2
          totalCost := 11
          warehouse := 'A' } := by
  refine ⟨by decide, by decide, ?_⟩
  with_unfolding_all decide

/-! ## Paths compose and reverse -/

theorem Path.trans {g : Graph} {a b c : Char} {vs1 vs2 : List Char} {d1 d2 : Int}
    (h1 : Path g a b vs1 d1) (h2 : Path g b c vs2 d2) : ∃ vs, Path g a c vs (d1 + d2) := by
  induction h2 with
  | nil _ => exact ⟨vs1, by simpa using h1⟩
  | @snoc u v vs d w _ hedge ih =>
    obtain ⟨vs3, h3⟩ := ih
    refine ⟨vs3 ++ [v], ?_⟩
    have := Path.snoc h3 hedge
    rw [Int.add_assoc] at this
    exact this

theorem HasEdge.symm {g : Graph} (hwf : WF g) {u v : Char} {w : Int} (h : HasEdge g u v w) :
    HasEdge g v u w := by
  obtain ⟨i, hi, hmem⟩ := h
  obtain ⟨j, hj, hjm⟩ := hwf.symm i (index_lt hi).1 _ hmem
  rw [(index_lt hi).2] at hjm
  exact ⟨j, hj, hjm⟩

theorem Path.reverse {g : Graph} (hwf : WF g) {a b : Char} {vs : List Char} {d : Int}
    (h : Path g a b vs d) : ∃ vs2, Path g b a vs2 d := by
  induction h with
  | nil hmem => exact ⟨[a], Path.nil hmem⟩
  | @snoc u v vs d w _ hedge ih =>
    obtain ⟨vs2, h2⟩ := ih
    have hback := hedge.symm hwf
    obtain ⟨j, hj, _⟩ := hback
    have h1 : Path g v u ([v] ++ [u]) (0 + w) := Path.snoc (Path.nil (index_mem hj)) (hedge.symm hwf)
    obtain ⟨vs3, h3⟩ := h1.trans h2
    refine ⟨vs3, ?_⟩
    have : 0 + w + d = d + w := by ring
    rw [this] at h3
    exact h3

theorem recorded_le_symm {g : Graph} (hwf : WF g) (hnn : NonNeg g)
    (hb : LoopFreeBound g MAX_SAFE_WEIGHT) {a b : Char} {ia ib : Nat}
    (ha : getVertexIndex g a = some ia) (hib : getVertexIndex g b = some ib)
    (hfin : (finalState g ia).dist ib < INF) :
    (finalState g ib).dist ia ≤ (finalState g ia).dist ib := by
  obtain ⟨p, _, _, _, hpath, _⟩ := realized hwf hnn hb ha (index_lt hib).1 hfin
  rw [(index_lt hib).2] at hpath
  obtain ⟨vs2, h2⟩ := hpath.reverse hwf
  obtain ⟨j, hj, hle⟩ := path_lower hwf hnn hb hib h2
  rw [ha] at hj
  have hij : ia = j := Option.some.inj hj
  rw [← hij] at hle
  exact hle

theorem recorded_symm {g : Graph} (hwf : WF g) (hnn : NonNeg g)
    (hb : LoopFreeBound g MAX_SAFE_WEIGHT) {a b : Char} (ha : a ∈ g.vertexNames)
    (hbm : b ∈ g.vertexNames) :
    getShortestDistance (dijkstra g a) g b = getShortestDistance (dijkstra g b) g a := by
  obtain ⟨ia, hia⟩ := index_of_mem ha
  obtain ⟨ib, hib⟩ := index_of_mem hbm
  rw [recorded_eq hia hib, recorded_eq hib hia]
  have h1 := (final_shape (index_lt hia).1).1.le_inf ib (index_lt hib).1
  have h2 := (final_shape (index_lt hib).1).1.le_inf ia (index_lt hia).1
  by_cases hf1 : (finalState g ia).dist ib < INF
  · have k1 := recorded_le_symm hwf hnn hb hia hib hf1
    have k2 := recorded_le_symm hwf hnn hb hib hia (lt_of_le_of_lt k1 hf1)
    omega
  · by_cases hf2 : (finalState g ib).dist ia < INF
    · have k2 := recorded_le_symm hwf hnn hb hib hia hf2
      omega
    · omega

/-- C9 (amended): for a graph built by `addEdge` with non-negative weights of at most
2146483649 and two vertices `a`, `b` with `b` reachable from `a`, the distance that
`dijkstra` from `a` records for `b` equals the distance that `dijkstra` from `b` records
for `a`. -/
theorem recorded_distance_symmetric (es : List (Char × Char × Int))
    (hes : ∀ e, e ∈ es → 0 ≤ e.2.2) (hbound : ∀ e, e ∈ es → e.2.2 ≤ MAX_SAFE_WEIGHT)
    (a b : Char) (ha : a ∈ (buildGraph es).vertexNames) (hb : b ∈ (buildGraph es).vertexNames)
    (_hreach : Reachable (buildGraph es) a b) :
    getShortestDistance (dijkstra (buildGraph es) a) (buildGraph es) b =
      getShortestDistance (dijkstra (buildGraph es) b) (buildGraph es) a :=
  recorded_symm (WF.build es) (NonNeg.build_nonneg es hes) (bound_of_weights es hbound) ha hb

theorem recorded_distance_symmetric_witness :
    getShortestDistance (dijkstra (buildGraph exampleEdges) 'A') (buildGraph exampleEdges) 'C' =
      getShortestDistance (dijkstra (buildGraph exampleEdges) 'C') (buildGraph exampleEdges) 'A' :=
  recorded_distance_symmetric exampleEdges (by decide) (by decide) 'A' 'C' (by decide)
    (by decide)
    ⟨['A'] ++ ['C'], 0 + 10, Path.snoc (Path.nil (by decide)) ⟨0, by decide, by decide⟩⟩

/-- C9 fails as stated: on the map A-C (1), C-B (2147483647) the vertex `B` is reachable
from `A`; from `A` the sum `1 + 2147483647` leaves the `int` range and the wrapped value
is recorded for `B`, while from `B` the sentinel is recorded for `A`. -/
theorem recorded_distance_symmetric_counterexample :
    (∀ e, e ∈ bigEdges → 0 ≤ e.2.2) ∧
    Reachable (buildGraph bigEdges) 'A' 'B' ∧
    getShortestDistance (dijkstra (buildGraph bigEdges) 'A') (buildGraph bigEdges) 'B' =
      -2147483648 ∧
    getShortestDistance (dijkstra (buildGraph bigEdges) 'B') (buildGraph bigEdges) 'A' =
      999999 := by
  refine ⟨by decide, ?_, by decide, by decide⟩
  have h1 : Path (buildGraph bigEdges) 'A' 'C' (['A'] ++ ['C']) (0 + 1) :=
    Path.snoc (Path.nil (by decide)) ⟨0, by decide, by decide⟩
  have h2 : Path (buildGraph bigEdges) 'A' 'B' (['A'] ++ ['C'] ++ ['B']) (0 + 1 + 2147483647) :=
    Path.snoc h1 ⟨1, by decide, by decide⟩
  exact ⟨_, _, h2⟩

/-! ## C10: the distance across a freshly added edge -/

theorem Shape.fold_le {g : Graph} {si u : Nat} (hu : u < g.vertexCount) :
    ∀ (es : List Edge) (st : DState), (∀ e, e ∈ es → e ∈ g.adj u) → Shape g si st →
      st.vis u = true →
      ∀ e, e ∈ es → ∀ j, getVertexIndex g e.destination = some j → st.vis j = false →
        (es.foldl (relaxEdge g u) st).dist j ≤ wrapInt (st.dist u + e.weight) := by
  intro es
  induction es with
  | nil => intro st _ _ _ e he; simp at he
  | cons e es ih =>
    intro st hsub hS hvis e2 he2 j hj hjv
    have hein := hsub e (List.mem_cons_self _ _)
    obtain ⟨h1, h2, h3, _⟩ := hS.relax hu hvis hein
    have hV : ∀ i, (relaxEdge g u st e).vis i = st.vis i := by
      intro i; unfold DState.vis; rw [h2]
    have hvis2 : (relaxEdge g u st e).vis u = true := by rw [hV]; exact hvis
    have hsub2 : ∀ x, x ∈ es → x ∈ g.adj u := fun x hx => hsub x (List.mem_cons_of_mem _ hx)
    obtain ⟨_, _, _, f4⟩ := Shape.fold hu es (relaxEdge g u st e) hsub2 h1 hvis2
    simp only [List.foldl_cons]
    rcases List.mem_cons.1 he2 with heq | hin
    · subst heq
      have hjn : j < g.vertexCount := (index_lt hj).1
      have := relaxEdge_le g u st e2 j hj hjv (by rw [hS.len_d]; exact hjn)
      exact le_trans (f4 j) this
    · have := ih (relaxEdge g u st e) hsub2 h1 hvis2 e2 hin j hj (by rw [hV]; exact hjv)
      rw [h3 u hvis] at this
      exact this

theorem Shape.loop_le {g : Graph} {si : Nat} :
    ∀ (k : Nat) (st : DState), Shape g si st →
      ∀ i, (dijkstraLoop g k st).dist i ≤ st.dist i := by
  intro k
  induction k with
  | zero => intro st _ i; exact le_refl _
  | succ k ih =>
    intro st hS i
    unfold dijkstraLoop
    cases hm : getMinDistanceVertex st.distances st.visited g.vertexCount with
    | none => exact le_refl _
    | some u =>
      obtain ⟨hu, _, hfin, _⟩ := getMin_some hm
      simp only
      rw [if_neg (ne_of_lt hfin)]
      obtain ⟨h1, _, _, h4⟩ := hS.settle_ok hu hfin
      exact le_trans (ih _ h1 i) (h4 i)

/-- The first vertex settled is the source, so every entry of the source is relaxed from
distance 0. -/
theorem first_relax {g : Graph} {si : Nat} (hsi : si < g.vertexCount) {e : Edge}
    (he : e ∈ g.adj si) {j : Nat} (hj : getVertexIndex g e.destination = some j)
    (hne : j ≠ si) : (finalState g si).dist j ≤ wrapInt (0 + e.weight) := by
  have hS := Shape.init (g := g) hsi
  have hpos : g.vertexCount = (g.vertexCount - 1) + 1 := by omega
  unfold finalState
  rw [hpos]
  unfold dijkstraLoop
  rw [← hpos]
  have hinit : ∀ i, i < g.vertexCount →
      (initState g.vertexCount si).vis i = false ∧
        (i ≠ si → (initState g.vertexCount si).dist i = INF) := by
    rcases hS.src_vis with h | h
    · exfalso
      have : (initState g.vertexCount si).vis si = false := by
        simp [initState, DState.vis, List.getD_eq_getElem?_getD, List.getElem?_replicate, hsi]
      rw [this] at h; cases h
    · exact h
  cases hm : getMinDistanceVertex (initState g.vertexCount si).distances
      (initState g.vertexCount si).visited g.vertexCount with
  | none =>
    exfalso
    have := getMin_none hm si hsi (hinit si hsi).1
    rw [hS.src_dist] at this
    simp [INF] at this
  | some u =>
    obtain ⟨hu, _, hfin, _⟩ := getMin_some hm
    have hus : u = si := by
      by_contra hc
      rw [(hinit u hu).2 hc] at hfin
      exact lt_irrefl _ hfin
    subst hus
    simp only
    rw [if_neg (ne_of_lt hfin)]
    obtain ⟨h1, _, _, _⟩ := hS.settle_ok hu hfin
    refine le_trans (Shape.loop_le _ _ h1 j) ?_
    have huv : u < (initState g.vertexCount u).visited.length := by rw [hS.len_v]; exact hu
    have hm2 := hS.mark hu hfin
    have hV := vis_mark (initState g.vertexCount u) u
    have hvu : ({ initState g.vertexCount u with
        visited := (initState g.vertexCount u).visited.set u true } : DState).vis u = true := by
      rw [hV u huv]; simp
    have hvj : ({ initState g.vertexCount u with
        visited := (initState g.vertexCount u).visited.set u true } : DState).vis j = false := by
      rw [hV j huv]; simp only [hne, if_false]; exact (hinit j (index_lt hj).1).1
    have := Shape.fold_le hu (g.adj u) _ (fun x hx => hx) hm2 hvu e he j hj hvj
    have hd0 : ({ initState g.vertexCount u with
        visited := (initState g.vertexCount u).visited.set u true } : DState).dist u = 0 :=
      hS.src_dist
    rw [hd0] at this
    exact this

/-- After a successful `addEdge` both endpoints are vertices and each holds the entry for
the other. -/
theorem addEdge_success {g : Graph} (hwf : WF g) {a b : Char} {w : Int}
    (hok : (addEdge g a b w).2 = 0) :
    ∃ si di, getVertexIndex (addEdge g a b w).1 a = some si ∧
      getVertexIndex (addEdge g a b w).1 b = some di ∧
      (⟨b, w⟩ : Edge) ∈ (addEdge g a b w).1.adj si ∧
      (⟨a, w⟩ : Edge) ∈ (addEdge g a b w).1.adj di := by
  have h2 : WF (addVertex (addVertex g a).1 b).1 := (hwf.addVertex_ok a).addVertex_ok b
  rcases addEdge_cases g a b w with ⟨si, di, hs, hd, heq⟩ | ⟨_, heq⟩
  · have hs2 := addVertex_keeps b (addVertex_index hs)
    have hd2 := addVertex_index hd
    obtain ⟨_, hmem⟩ := h2.insert w hs2 hd2
    rw [heq]
    exact ⟨si, di, hs2, hd2, (hmem si _).2 (Or.inr (Or.inl ⟨rfl, rfl⟩)),
      (hmem di _).2 (Or.inr (Or.inr ⟨rfl, rfl⟩))⟩
  · rw [heq] at hok
    simp at hok

theorem buildGraph_snoc (es : List (Char × Char × Int)) (a b : Char) (w : Int) :
    (addEdge (buildGraph es) a b w).1 = buildGraph (es ++ [(a, b, w)]) := by
  unfold buildGraph
  rw [List.foldl_append]
  rfl

/-- The recorded distance across an entry of the source is at most its weight. -/
theorem recorded_le_entry {g : Graph} {a b : Char} {w : Int} {si di : Nat}
    (hs : getVertexIndex g a = some si) (hd : getVertexIndex g b = some di)
    (hmem : (⟨b, w⟩ : Edge) ∈ g.adj si) (hw0 : 0 ≤ w) (hw1 : w ≤ 2147483647) :
    getShortestDistance (dijkstra g a) g b ≤ w := by
  rw [recorded_eq hs hd]
  by_cases hne : di = si
  · rw [hne, (final_shape (index_lt hs).1).1.src_dist]; exact hw0
  · have := first_relax (index_lt hs).1 hmem hd hne
    rw [wrapInt_id (by simp only; omega) (by simp only; omega)] at this
    simpa using this

theorem path_weight_ge {g : Graph} {W : Int} (hW0 : 0 ≤ W)
    (hW : ∀ i e, e ∈ g.adj i → W ≤ e.weight) {s v : Char} {vs : List Char} {d : Int}
    (h : Path g s v vs d) : (v = s ∧ d = 0) ∨ W ≤ d := by
  induction h with
  | nil _ => left; exact ⟨rfl, rfl⟩
  | snoc _ hedge ih =>
    obtain ⟨i, _, hmem⟩ := hedge
    have := hW i _ hmem
    simp only at this
    right
    rcases ih with ⟨_, h0⟩ | h1
    · omega
    · omega

/-- C10 (amended): for a graph built by `addEdge` with non-negative weights and a
successful `addEdge(graph, a, b, w)` with `0 ≤ w`, the distance that `dijkstra` from `a`
records for `b` afterwards is at most `w`; it equals `w` when the graph has no path from
`a` to `b` of total weight less than `w`, provided `w` is below the sentinel 999999 and
every weight is at most 2146483649. -/
theorem addEdge_distance (es : List (Char × Char × Int)) (hes : ∀ e, e ∈ es → 0 ≤ e.2.2)
    (a b : Char) (w : Int) (hw0 : 0 ≤ w) (hw1 : w ≤ 2147483647)
    (hok : (addEdge (buildGraph es) a b w).2 = 0) :
    getShortestDistance (dijkstra (addEdge (buildGraph es) a b w).1 a)
      (addEdge (buildGraph es) a b w).1 b ≤ w ∧
    ((∀ e, e ∈ es → e.2.2 ≤ MAX_SAFE_WEIGHT) → w < INF →
      (¬ ∃ vs d, Path (addEdge (buildGraph es) a b w).1 a b vs d ∧ d < w) →
      getShortestDistance (dijkstra (addEdge (buildGraph es) a b w).1 a)
        (addEdge (buildGraph es) a b w).1 b = w) := by
  obtain ⟨si, di, hs, hd, hmem, _⟩ := addEdge_success (WF.build es) hok
  have hle := recorded_le_entry hs hd hmem hw0 hw1
  refine ⟨hle, ?_⟩
  intro hbound hwinf hnone
  rw [buildGraph_snoc] at hs hd hle hnone ⊢
  have hes2 : ∀ e, e ∈ es ++ [(a, b, w)] → 0 ≤ e.2.2 := by
    intro e he
    rcases List.mem_append.1 he with h | h
    · exact hes e h
    · rw [List.mem_singleton] at h; rw [h]; exact hw0
  have hb2 : ∀ e, e ∈ es ++ [(a, b, w)] → e.2.2 ≤ MAX_SAFE_WEIGHT := by
    intro e he
    rcases List.mem_append.1 he with h | h
    · exact hbound e h
    · rw [List.mem_singleton] at h; rw [h]
      unfold INF at hwinf; unfold MAX_SAFE_WEIGHT; simp only; omega
  have hwf := WF.build (es ++ [(a, b, w)])
  have hnn := NonNeg.build_nonneg _ hes2
  have hb := bound_of_weights _ hb2
  rw [recorded_eq hs hd] at hle ⊢
  obtain ⟨p, _, _, _, hpath, _⟩ := realized hwf hnn hb hs (index_lt hd).1
    (lt_of_le_of_lt hle hwinf)
  rw [(index_lt hd).2] at hpath
  by_contra hne
  exact hnone ⟨_, _, hpath, lt_of_le_of_ne hle hne⟩

theorem addEdge_distance_witness :
    getShortestDistance (dijkstra (addEdge (buildGraph [('A', 'B', 5)]) 'B' 'C' 3).1 'B')
      (addEdge (buildGraph [('A', 'B', 5)]) 'B' 'C' 3).1 'C' = 3 := by
  refine (addEdge_distance [('A', 'B', 5)] (by decide) 'B' 'C' 3 (by decide) (by decide)
    (by decide)).2 (by decide) (by decide) ?_
  rintro ⟨vs, d, hp, hd⟩
  rw [buildGraph_snoc] at hp
  have hW : ∀ i e, e ∈ (buildGraph ([('A', 'B', 5)] ++ [('B', 'C', 3)])).adj i →
      (3 : Int) ≤ e.weight :=
    build_weights (fun x => (3 : Int) ≤ x) _ (by decide)
  rcases path_weight_ge (by decide) hW hp with ⟨h1, _⟩ | h2
  · exact absurd h1 (by decide)
  · omega

/-- C10 fails as stated: after `addEdge(graph, A, B, 1000000)` on the empty graph, no path
from `A` to `B` weighs less than 1000000, and the distance recorded for `B` is the
sentinel 999999. -/
theorem addEdge_distance_counterexample :
    (addEdge (buildGraph []) 'A' 'B' 1000000).2 = 0 ∧
    (¬ ∃ vs d, Path (addEdge (buildGraph []) 'A' 'B' 1000000).1 'A' 'B' vs d ∧ d < 1000000) ∧
    getShortestDistance (dijkstra (addEdge (buildGraph []) 'A' 'B' 1000000).1 'A')
      (addEdge (buildGraph []) 'A' 'B' 1000000).1 'B' = 999999 := by
  refine ⟨by decide, ?_, by decide⟩
  rintro ⟨vs, d, hp, hd⟩
  rw [buildGraph_snoc] at hp
  have hW : ∀ i e, e ∈ (buildGraph ([] ++ [('A', 'B', 1000000)])).adj i →
      (1000000 : Int) ≤ e.weight :=
    build_weights (fun x => (1000000 : Int) ≤ x) _ (by decide)
  rcases path_weight_ge (by decide) hW hp with ⟨h1, _⟩ | h2
  · exact absurd h1 (by decide)
  · omega

/-! ## C6: the route covers exactly the deliveries connected to the warehouse -/

/-- With all simple paths below the sentinel, a finite recorded distance means
reachability. -/
theorem reachable_iff_recorded {g : Graph} (hwf : WF g) (hnn : NonNeg g)
    (hsmall : PathsBelowInf g) {s : Char} (hs : s ∈ g.vertexNames) (c : Char) :
    Reachable g s c ↔ getShortestDistance (dijkstra g s) g c ≠ INF := by
  obtain ⟨si, hsi⟩ := index_of_mem hs
  have hsn := (index_lt hsi).1
  obtain ⟨hS, _⟩ := final_shape hsn
  have hb := bound_of_paths hwf hsmall
  constructor
  · rintro ⟨vs, d, hp⟩
    obtain ⟨j, hj, hvis⟩ := reach_visited hwf hnn hsmall hsi hp
    rw [recorded_eq hsi hj]
    exact ne_of_lt (hS.vis_fin j (index_lt hj).1 hvis)
  · intro hne
    cases hj : getVertexIndex g c with
    | none =>
      exfalso; apply hne
      unfold getShortestDistance; rw [hj]
    | some j =>
      rw [recorded_eq hsi hj] at hne
      have hjn := (index_lt hj).1
      obtain ⟨p, _, _, _, hpath, _⟩ := realized hwf hnn hb hsi hjn
        (lt_of_le_of_ne (hS.le_inf j hjn) hne)
      rw [(index_lt hj).2] at hpath
      exact ⟨_, _, hpath⟩

theorem dijkstra_none_iff (g : Graph) (s : Char) :
    dijkstra g s = none ↔ s ∉ g.vertexNames := by
  constructor
  · intro h hs
    obtain ⟨si, hsi⟩ := index_of_mem hs
    rw [dijkstra_eq hsi] at h
    cases h
  · intro hs
    have : getVertexIndex g s = none := findName_none.2 hs
    unfold dijkstra
    rw [this]

/-- A vertex without a path from the source keeps the initial entry. -/
theorem unreachable_entry {g : Graph} (hnd : g.vertexNames.Nodup) {s : Char} {si : Nat}
    (hs : getVertexIndex g s = some si) {j : Nat} (hj : j < g.vertexCount)
    (hnr : ¬ Reachable g s (g.name j)) :
    (finalState g si).info j = ⟨INF, NUL⟩ := by
  have hsi := (index_lt hs).1
  obtain ⟨hS, _⟩ := final_shape hsi
  have hd : (finalState g si).dist j = INF := by
    by_contra hne
    obtain ⟨p, hp⟩ := hS.tree j hj (lt_of_le_of_ne (hS.le_inf j hj) hne)
    obtain ⟨_, _, _, w, hpath⟩ := hp.links hnd hsi
    rw [(index_lt hs).2] at hpath
    exact hnr ⟨_, _, hpath⟩
  have h1 := hS.sync j hj
  have h2 := hS.unset j hj (Or.inl hd)
  rw [hd] at h1
  cases hi : (finalState g si).info j with
  | mk a b =>
    rw [hi] at h1 h2
    simp only at h1 h2
    rw [h1, h2]

/-- C11: `dijkstra` produces no result exactly when the source is not a vertex; for a
vertex `s` it produces a result with the graph's vertex count and one entry per vertex,
distance 0 for `s`, predecessor `'\0'` wherever the distance is still 999999, and (the
names being pairwise distinct) distance 999999 and predecessor `'\0'` for every vertex
without a path from `s`. -/
theorem dijkstra_result_contract (g : Graph) (s : Char) :
    (dijkstra g s = none ↔ s ∉ g.vertexNames) ∧
    (s ∈ g.vertexNames → ∃ r, dijkstra g s = some r ∧
      r.source = s ∧ r.vertexCount = g.vertexCount ∧ r.paths.length = g.vertexCount ∧
      getShortestDistance (some r) g s = 0 ∧
      (∀ i, i < g.vertexCount → (r.paths.getD i ⟨0, NUL⟩).distance = INF →
        (r.paths.getD i ⟨0, NUL⟩).previous = NUL) ∧
      (g.vertexNames.Nodup → ∀ v i, getVertexIndex g v = some i → ¬ Reachable g s v →
        r.paths.getD i ⟨0, NUL⟩ = ⟨INF, NUL⟩)) := by
  refine ⟨dijkstra_none_iff g s, ?_⟩
  intro hs
  obtain ⟨si, hsi⟩ := index_of_mem hs
  have hsn := (index_lt hsi).1
  obtain ⟨hS, _⟩ := final_shape hsn
  refine ⟨_, dijkstra_eq hsi, rfl, rfl, hS.len_p, ?_, ?_, ?_⟩
  · rw [← dijkstra_eq hsi, recorded_eq hsi hsi]
    exact hS.src_dist
  · intro i hi hd
    have h1 := hS.sync i hi
    exact hS.unset i hi (Or.inl (h1 ▸ hd))
  · intro hnd v i hv hnr
    have hvn := (index_lt hv).2
    rw [← hvn] at hnr
    exact unreachable_entry hnd hsi (index_lt hv).1 hnr

/-- C12: when the destination is not a vertex of the graph or its recorded distance is
999999, `reconstructPath` yields exactly the text "No path", whatever the predecessor
links of the result are; `getShortestDistance` returns 999999 for a destination that is
not a vertex. -/
theorem no_path_contract (g : Graph) (r : DijkstraResult) (d : Char) :
    (d ∉ g.vertexNames ∨ getShortestDistance (some r) g d = INF →
      reconstructPath r g d = some "No path".toList) ∧
    (∀ res : Option DijkstraResult, d ∉ g.vertexNames → getShortestDistance res g d = INF) := by
  have hnone : d ∉ g.vertexNames → getVertexIndex g d = none := fun h => findName_none.2 h
  constructor
  · intro h
    cases hd : getVertexIndex g d with
    | none => unfold reconstructPath; rw [hd]
    | some i =>
      rcases h with h | h
      · rw [hnone h] at hd; cases hd
      · unfold getShortestDistance at h
        rw [hd] at h
        simp only at h
        unfold reconstructPath
        rw [hd]
        simp only [h, if_true]
  · intro res h
    unfold getShortestDistance
    rw [hnone h]

theorem no_path_contract_witness :
    reconstructPath ⟨[⟨0, NUL⟩, ⟨5, 'A'⟩, ⟨8, 'B'⟩], 'A', 3⟩ (buildGraph exampleEdges) 'Z' =
      some "No path".toList :=
  (no_path_contract (buildGraph exampleEdges) ⟨[⟨0, NUL⟩, ⟨5, 'A'⟩, ⟨8, 'B'⟩], 'A', 3⟩ 'Z').1
    (Or.inl (by decide))

theorem splitEdges_below : PathsBelowInf (buildGraph splitEdges) := by
  apply paths_below_of_weights (WF.build _) (W := 5) (by decide) (by decide)
  apply build_weights (fun w => w ≤ 5)
  decide

theorem splitEdges_unreachable : ¬ Reachable (buildGraph splitEdges) 'A' 'C' := by
  intro h
  have := (reachable_iff_recorded (WF.build splitEdges)
    (NonNeg.build_nonneg splitEdges (by decide)) splitEdges_below
    (s := 'A') (by decide) 'C').1 h
  exact this (by decide)

/-- With pairwise distinct names, a vertex whose recorded distance is not the sentinel is
reachable from the source. -/
theorem reachable_of_recorded {g : Graph} (hnd : g.vertexNames.Nodup) {s v : Char}
    (hs : s ∈ g.vertexNames) (h : getShortestDistance (dijkstra g s) g v ≠ INF) :
    Reachable g s v := by
  obtain ⟨si, hsi⟩ := index_of_mem hs
  cases hj : getVertexIndex g v with
  | none =>
    exfalso; apply h
    unfold getShortestDistance; rw [hj]
  | some j =>
    by_contra hnr
    rw [← (index_lt hj).2] at hnr
    have := unreachable_entry hnd hsi (index_lt hj).1 hnr
    apply h
    rw [recorded_eq hsi hj, ← (final_shape (index_lt hsi).1).1.sync j (index_lt hj).1, this]

/-- C13 (amended): for every graph and every vertex `s` other than the byte `'\0'`,
`reconstructPath` applied to the result of `dijkstra` from `s` and the destination `s`
yields the text made of `s` alone, and `getShortestDistance` for `s` is 0. -/
theorem source_path (g : Graph) (s : Char) (hs : s ∈ g.vertexNames) (hn : s ≠ NUL) :
    ∃ r, dijkstra g s = some r ∧ reconstructPath r g s = some [s] ∧
      getShortestDistance (some r) g s = 0 := by
  obtain ⟨si, hsi⟩ := index_of_mem hs
  have hsn := (index_lt hsi).1
  obtain ⟨hS, _⟩ := final_shape hsn
  have h0 : getShortestDistance (dijkstra g s) g s = 0 := by
    rw [recorded_eq hsi hsi]; exact hS.src_dist
  refine ⟨_, dijkstra_eq hsi, ?_, by rw [← dijkstra_eq hsi]; exact h0⟩
  have hd : ((finalState g si).paths.getD si ⟨0, NUL⟩).distance ≠ INF := by
    have := hS.sync si hsn
    unfold DState.info at this
    rw [this, hS.src_dist]
    decide
  unfold reconstructPath
  simp only [hsi, hd, if_false]
  unfold walkBack
  simp [MAX_VERTICES, emitStep, appendVertex, hn]

theorem source_path_witness :
    ∃ r, dijkstra (buildGraph exampleEdges) 'B' = some r ∧
      reconstructPath r (buildGraph exampleEdges) 'B' = some ['B'] ∧
      getShortestDistance (some r) (buildGraph exampleEdges) 'B' = 0 :=
  source_path (buildGraph exampleEdges) 'B' (by decide) (by decide)

/-- C13 fails as stated: when the byte `'\0'` is a vertex, the text written for the path
from it to itself is empty. -/
theorem source_path_counterexample :
    NUL ∈ (buildGraph nulEdges).vertexNames ∧
    ∃ r, dijkstra (buildGraph nulEdges) NUL = some r ∧
      reconstructPath r (buildGraph nulEdges) NUL = some [] ∧
      reconstructPath r (buildGraph nulEdges) NUL ≠ some [NUL] := by
  refine ⟨by decide, ⟨[⟨1, NUL⟩, ⟨0, NUL⟩], NUL, 2⟩, by decide, by decide, by decide⟩

/-- C14 (amended): for a graph built by `addEdge` with non-negative weights, a source `s`
and a vertex `v` of the graph, `dijkstra` records 999999 for `v` whenever the graph has no
path from `s` to `v`; when every path without repeated vertex weighs less than 999999,
it records 999999 for `v` if and only if the graph has no path from `s` to `v`. -/
theorem sentinel_iff_unreachable (es : List (Char × Char × Int))
    (hes : ∀ e, e ∈ es → 0 ≤ e.2.2) (s v : Char) (hs : s ∈ (buildGraph es).vertexNames)
    (_hv : v ∈ (buildGraph es).vertexNames) :
    (¬ Reachable (buildGraph es) s v →
      getShortestDistance (dijkstra (buildGraph es) s) (buildGraph es) v = INF) ∧
    (PathsBelowInf (buildGraph es) →
      (getShortestDistance (dijkstra (buildGraph es) s) (buildGraph es) v = INF ↔
        ¬ Reachable (buildGraph es) s v)) := by
  have hwf := WF.build es
  constructor
  · intro hnr
    by_contra hne
    exact hnr (reachable_of_recorded hwf.nodup hs hne)
  · intro hsmall
    have := reachable_iff_recorded hwf (NonNeg.build_nonneg es hes) hsmall hs v
    constructor
    · intro h hr
      exact this.1 hr h
    · intro hnr
      by_contra hne
      exact hnr (this.2 hne)

theorem sentinel_iff_unreachable_witness :
    getShortestDistance (dijkstra (buildGraph splitEdges) 'A') (buildGraph splitEdges) 'C' = INF ∧
    ¬ Reachable (buildGraph splitEdges) 'A' 'C' := by
  have h := sentinel_iff_unreachable splitEdges (by decide) 'A' 'C' (by decide) (by decide)
  have h1 : getShortestDistance (dijkstra (buildGraph splitEdges) 'A') (buildGraph splitEdges)
      'C' = INF := by decide
  exact ⟨h1, (h.2 splitEdges_below).1 h1⟩

/-- C14 fails as stated: on the map with the single entry A-B of weight 1000000 the
vertex `B` is reachable from `A`, and `dijkstra` from `A` records 999999 for it. -/
theorem sentinel_iff_unreachable_counterexample :
    (∀ e, e ∈ heavyEdges → 0 ≤ e.2.2) ∧
    Reachable (buildGraph heavyEdges) 'A' 'B' ∧
    getShortestDistance (dijkstra (buildGraph heavyEdges) 'A') (buildGraph heavyEdges) 'B' =
      INF := by
  refine ⟨by decide, ?_, by decide⟩
  exact ⟨['A'] ++ ['B'], 0 + 1000000,
    Path.snoc (Path.nil (by decide)) ⟨0, by decide, by decide⟩⟩

theorem dijkstra_result_contract_witness :
    ∃ r, dijkstra (buildGraph splitEdges) 'A' = some r ∧
      getShortestDistance (some r) (buildGraph splitEdges) 'A' = 0 ∧
      r.paths.getD 2 ⟨0, NUL⟩ = ⟨INF, NUL⟩ := by
  obtain ⟨r, h1, _, _, _, h5, _, h7⟩ :=
    (dijkstra_result_contract (buildGraph splitEdges) 'A').2 (by decide)
  exact ⟨r, h1, h5, h7 (by decide) 'C' 2 (by decide) splitEdges_unreachable⟩

/-! ## C16: `addVertex` -/

theorem applyOps_wf (ops : List GraphOp) : ∀ g : Graph, WF g → WF (ops.foldl applyOp g) := by
  induction ops with
  | nil => intro g h; exact h
  | cons o os ih =>
    intro g h
    apply ih
    cases o with
    | vertex c => exact h.addVertex_ok c
    | edge a b w => exact h.addEdge_ok a b w

theorem addVertex_twice (g : Graph) (x : Char) :
    addVertex (addVertex g x).1 x = ((addVertex g x).1, (addVertex g x).2) := by
  rcases addVertex_cases g x with ⟨i, h1, h2⟩ | ⟨h1, hn, h2⟩ | ⟨h1, hn, h2⟩
  · rw [h2]
    exact h2
  · rw [h2]
    exact h2
  · rw [h2]
    simp only
    have hidx : getVertexIndex ({ g with vertexNames := g.vertexNames ++ [x] } : Graph) x =
        some g.vertexCount := findName_append_new h1
    unfold addVertex
    rw [hidx]

/-- C16: when `x` is already a vertex, `addVertex` returns its index and leaves the graph
unchanged; when `x` is not a vertex and fewer than 26 vertices exist, it appends `x` as
the last vertex and returns the previous vertex count; when `x` is not a vertex and 26
vertices exist, it returns `-1` and leaves the graph unchanged; a second call with the
same symbol returns the same index and changes nothing; after any sequence of
`addVertex` and `addEdge` calls the vertex symbols are pairwise distinct and at most 26. -/
theorem addVertex_contract (g : Graph) (x : Char) :
    (x ∈ g.vertexNames → ∃ i, i < g.vertexCount ∧ g.name i = x ∧
      addVertex g x = (g, some i)) ∧
    (x ∉ g.vertexNames → g.vertexCount < MAX_VERTICES →
      addVertex g x =
        ({ adjList := g.adjList, vertexNames := g.vertexNames ++ [x] }, some g.vertexCount)) ∧
    (x ∉ g.vertexNames → MAX_VERTICES ≤ g.vertexCount → addVertex g x = (g, none)) ∧
    addVertex (addVertex g x).1 x = ((addVertex g x).1, (addVertex g x).2) ∧
    (∀ ops, (applyOps ops).vertexNames.Nodup ∧ (applyOps ops).vertexCount ≤ MAX_VERTICES) := by
  refine ⟨?_, ?_, ?_, addVertex_twice g x, ?_⟩
  · intro hx
    obtain ⟨i, hi⟩ := index_of_mem hx
    refine ⟨i, (index_lt hi).1, (index_lt hi).2, ?_⟩
    unfold addVertex
    rw [hi]
  · intro hx hn
    have : getVertexIndex g x = none := findName_none.2 hx
    unfold addVertex
    rw [this]
    simp only [ge_iff_le, Nat.not_le.2 hn, if_false]
  · intro hx hn
    have : getVertexIndex g x = none := findName_none.2 hx
    unfold addVertex
    rw [this]
    simp only [ge_iff_le, hn, if_true]
  · intro ops
    have := applyOps_wf ops createGraph WF.create
    exact ⟨this.nodup, this.count_le⟩

theorem addVertex_contract_witness :
    addVertex (buildGraph exampleEdges) 'Z' =
      ({ adjList := (buildGraph exampleEdges).adjList,
         vertexNames := (buildGraph exampleEdges).vertexNames ++ ['Z'] }, some 3) :=
  (addVertex_contract (buildGraph exampleEdges) 'Z').2.1 (by decide) (by decide)

/-! ## C19: a rejected `addEdge` -/

theorem addEdge_status (g : Graph) (src dest : Char) (w : Int) :
    ((addEdge g src dest w).2 = 0 ∧ (addVertex g src).2 ≠ none ∧
      (addVertex (addVertex g src).1 dest).2 ≠ none) ∨
    ((addEdge g src dest w).2 = -1 ∧
      ((addVertex g src).2 = none ∨ (addVertex (addVertex g src).1 dest).2 = none) ∧
      (addEdge g src dest w).1 = (addVertex g src).1) := by
  rcases addEdge_cases g src dest w with ⟨si, di, hs, hd, heq⟩ | ⟨hfail, heq⟩
  · left
    rw [heq, hs, hd]
    simp
  · right
    rw [heq]
    refine ⟨rfl, hfail, ?_⟩
    simp only
    rcases addVertex_cases (addVertex g src).1 dest with ⟨i, h1, h2⟩ | ⟨_, _, h2⟩ | ⟨h1, hn, h2⟩
    · rw [h2]
    · rw [h2]
    · exfalso
      rcases hfail with hf | hf
      · rcases addVertex_cases g src with ⟨k, _, k2⟩ | ⟨_, kn, k2⟩ | ⟨_, _, k2⟩
        · rw [k2] at hf; cases hf
        · rw [k2] at hn
          simp only at hn
          omega
        · rw [k2] at hf; cases hf
      · rw [h2] at hf; cases hf

theorem addVertex_none_iff (g : Graph) (c : Char) :
    (addVertex g c).2 = none ↔ c ∉ g.vertexNames ∧ MAX_VERTICES ≤ g.vertexCount := by
  rcases addVertex_cases g c with ⟨k, k1, k2⟩ | ⟨k1, kn, k2⟩ | ⟨k1, kn, k2⟩
  · rw [k2]
    constructor
    · intro h; cases h
    · intro h; exact absurd (index_mem k1) h.1
  · rw [k2]
    exact ⟨fun _ => ⟨findName_none.1 k1, kn⟩, fun _ => rfl⟩
  · rw [k2]
    constructor
    · intro h; cases h
    · intro h; omega

/-- C19 (amended): `addEdge` returns `0` or `-1`; it returns `-1` exactly when `src` is
not a vertex while 26 vertices exist, or `dest` is not a vertex, once `src` has been
registered, while 26 vertices exist; in that case no adjacency entry is added and the
graph is left as the registration of `src` alone leaves it: exactly as before when `src`
was a vertex or 26 vertices existed, and otherwise with `src` appended as a new
vertex. -/
theorem addEdge_failure (g : Graph) (src dest : Char) (w : Int) :
    ((addEdge g src dest w).2 = 0 ∨ (addEdge g src dest w).2 = -1) ∧
    ((addEdge g src dest w).2 = -1 ↔
      (src ∉ g.vertexNames ∧ MAX_VERTICES ≤ g.vertexCount) ∨
      (dest ∉ (addVertex g src).1.vertexNames ∧
        MAX_VERTICES ≤ (addVertex g src).1.vertexCount)) ∧
    ((addEdge g src dest w).2 = -1 →
      (addEdge g src dest w).1 = (addVertex g src).1 ∧
      (addEdge g src dest w).1.adjList = g.adjList ∧
      (src ∈ g.vertexNames ∨ MAX_VERTICES ≤ g.vertexCount → (addEdge g src dest w).1 = g) ∧
      (src ∉ g.vertexNames → g.vertexCount < MAX_VERTICES →
        (addEdge g src dest w).1.vertexNames = g.vertexNames ++ [src])) := by
  have hst := addEdge_status g src dest w
  refine ⟨?_, ?_, ?_⟩
  · rcases hst with h | h
    · exact Or.inl h.1
    · exact Or.inr h.1
  · rw [← addVertex_none_iff, ← addVertex_none_iff]
    rcases hst with ⟨h0, h1, h2⟩ | ⟨h0, h1, _⟩
    · constructor
      · intro h; rw [h0] at h; cases h
      · rintro (h | h)
        · exact absurd h h1
        · exact absurd h h2
    · exact ⟨fun _ => h1, fun _ => h0⟩
  · intro hfail
    rcases hst with ⟨h0, _, _⟩ | ⟨_, _, h2⟩
    · rw [h0] at hfail; cases hfail
    · refine ⟨h2, by rw [h2, addVertex_adj], ?_, ?_⟩
      · intro hc
        rw [h2]
        rcases addVertex_cases g src with ⟨k, _, k2⟩ | ⟨_, _, k2⟩ | ⟨k1, kn, _⟩
        · rw [k2]
        · rw [k2]
        · rcases hc with hc | hc
          · exact absurd hc (findName_none.1 k1)
          · omega
      · intro hs hn
        rw [h2]
        rcases addVertex_cases g src with ⟨k, k1, _⟩ | ⟨_, kn, _⟩ | ⟨_, _, k2⟩
        · exact absurd (index_mem k1) hs
        · omega
        · rw [k2]

theorem addEdge_failure_witness :
    (addEdge (buildGraph (letterChain 24)) 'z' '0' 1).1.vertexNames =
      (buildGraph (letterChain 24)).vertexNames ++ ['z'] :=
  ((addEdge_failure (buildGraph (letterChain 24)) 'z' '0' 1).2.2 (by decide)).2.2.2
    (by decide) (by decide)

/-- C19 fails as stated: on a graph with 25 vertices, `addEdge` with two new symbols
returns `-1` and leaves the first of them registered as the 26th vertex. -/
theorem addEdge_failure_counterexample :
    (buildGraph (letterChain 24)).vertexCount = 25 ∧
    (addEdge (buildGraph (letterChain 24)) 'z' '0' 1).2 = -1 ∧
    (addEdge (buildGraph (letterChain 24)) 'z' '0' 1).1.vertexCount = 26 ∧
    (addEdge (buildGraph (letterChain 24)) 'z' '0' 1).1 ≠ buildGraph (letterChain 24) := by
  refine ⟨by decide, by decide, by decide, by decide⟩

/-! ## C17: the adjacency lists after `addEdge` -/

theorem adj_insert_eq (adj : List (List Edge)) (si di : Nat) (a b : Edge)
    (hs : si < adj.length) (hd : di < adj.length) (i : Nat) :
    ((adj.set si (a :: adj.getD si [])).set di
        (b :: (adj.set si (a :: adj.getD si [])).getD di [])).getD i [] =
      (if i = di then [b] else []) ++ ((if i = si then [a] else []) ++ adj.getD i []) := by
  have hd2 : di < (adj.set si (a :: adj.getD si [])).length := by simpa using hd
  rw [getD_set_eq, getD_set_eq, getD_set_eq]
  by_cases h1 : di = i
  · subst h1
    by_cases h2 : si = di
    · subst h2
      simp [hs]
    · simp [hd, hd2, h2, Ne.symm h2]
  · by_cases h2 : si = i
    · subst h2
      simp [h1, Ne.symm h1, hs]
    · simp [h1, h2, Ne.symm h1, Ne.symm h2]

theorem adjOf_addVertex {g : Graph} (hwf : WF g) (c x : Char) :
    adjOf (addVertex g c).1 x = adjOf g x := by
  rcases addVertex_cases g c with ⟨k, _, k2⟩ | ⟨_, _, k2⟩ | ⟨k1, kn, k2⟩
  · rw [k2]
  · rw [k2]
  · rw [k2]
    simp only
    unfold adjOf
    cases hx : getVertexIndex g x with
    | some i =>
      have : getVertexIndex ({ g with vertexNames := g.vertexNames ++ [c] } : Graph) x =
          some i := findName_append_of_some c hx
      rw [this]
      rfl
    | none =>
      cases hx2 : getVertexIndex ({ g with vertexNames := g.vertexNames ++ [c] } : Graph) x with
      | none => rfl
      | some j =>
        simp only
        have hj := (index_lt hx2).1
        have hjn := (index_lt hx2).2
        have hge : g.vertexCount ≤ j := by
          by_contra hlt
          have hlt2 : j < g.vertexNames.length := Nat.lt_of_not_le hlt
          have hname : g.name j = x := by
            have : ({ g with vertexNames := g.vertexNames ++ [c] } : Graph).name j = g.name j :=
              getD_append_left g.vertexNames c hlt2
            rw [← this]; exact hjn
          have hmem : x ∈ g.vertexNames := hname ▸ getD_mem_of_lt hlt2
          exact findName_none.1 hx hmem
        exact hwf.adj_unused j hge

/-- The adjacency list of every symbol after `addEdge`. -/
theorem addEdge_adjOf {g : Graph} (hwf : WF g) (src dest : Char) (w : Int) (x : Char) :
    adjOf (addEdge g src dest w).1 x =
      (if (addEdge g src dest w).2 = 0 then entryOf x (src, dest, w) else []) ++ adjOf g x := by
  have h1w : WF (addVertex g src).1 := hwf.addVertex_ok src
  have h2 : WF (addVertex (addVertex g src).1 dest).1 := h1w.addVertex_ok dest
  have hsame : adjOf (addVertex (addVertex g src).1 dest).1 x = adjOf g x := by
    rw [adjOf_addVertex h1w, adjOf_addVertex hwf]
  rcases addEdge_cases g src dest w with ⟨si, di, hs, hd, heq⟩ | ⟨_, heq⟩
  · rw [heq]
    simp only [if_true]
    have hs2 := addVertex_keeps dest (addVertex_index hs)
    have hd2 := addVertex_index hd
    have hcl : (addVertex (addVertex g src).1 dest).1.vertexNames.length ≤
        (addVertex (addVertex g src).1 dest).1.adjList.length := by
      rw [h2.adj_len]; exact h2.count_le
    have hsl := lt_of_lt_of_le (index_lt hs2).1 hcl
    have hdl := lt_of_lt_of_le (index_lt hd2).1 hcl
    rw [← hsame]
    unfold adjOf entryOf
    show (match getVertexIndex (addVertex (addVertex g src).1 dest).1 x with
      | some i => List.getD _ i []
      | none => []) = _
    cases hx : getVertexIndex (addVertex (addVertex g src).1 dest).1 x with
    | none =>
      have hxs : src ≠ x := fun h => by rw [← h, hs2] at hx; cases hx
      have hxd : dest ≠ x := fun h => by rw [← h, hd2] at hx; cases hx
      simp [hxs, hxd]
    | some i =>
      simp only
      rw [adj_insert_eq _ si di _ _ hsl hdl i]
      have hi : (addVertex (addVertex g src).1 dest).1.name i = x := (index_lt hx).2
      have e1 : (i = di) = (dest = x) := by
        apply propext
        constructor
        · intro h; rw [← hi, h]; exact ((index_lt hd2).2).symm
        · intro h
          rw [← h, hd2] at hx
          exact (Option.some.inj hx).symm
      have e2 : (i = si) = (src = x) := by
        apply propext
        constructor
        · intro h; rw [← hi, h]; exact ((index_lt hs2).2).symm
        · intro h
          rw [← h, hs2] at hx
          exact (Option.some.inj hx).symm
      simp only [e1, e2, Graph.adj, List.append_assoc]
  · rw [heq]
    simp only
    rw [hsame]
    simp

theorem entryOf_cases (x src dest : Char) (w : Int) :
    (src ≠ dest → entryOf src (src, dest, w) = [⟨dest, w⟩] ∧
      entryOf dest (src, dest, w) = [⟨src, w⟩]) ∧
    (src = dest → entryOf src (src, dest, w) = [⟨src, w⟩, ⟨dest, w⟩]) ∧
    (x ≠ src → x ≠ dest → entryOf x (src, dest, w) = []) := by
  unfold entryOf
  refine ⟨?_, ?_, ?_⟩
  · intro h; simp [h, Ne.symm h]
  · intro h; simp [h]
  · intro h1 h2; simp [Ne.symm h1, Ne.symm h2]

/-- The adjacency list after a sequence of `addEdge` calls: the entries of the accepted
calls, latest call first, in front of the previous entries. -/
theorem foldl_adjOf (x : Char) (es : List (Char × Char × Int)) :
    ∀ g : Graph, WF g →
      adjOf (es.foldl (fun g e => (addEdge g e.1 e.2.1 e.2.2).1) g) x =
        ((acceptedEdges g es).reverse.map (entryOf x)).flatten ++ adjOf g x := by
  induction es with
  | nil => intro g _; simp [acceptedEdges]
  | cons e es ih =>
    intro g hwf
    have hcons : acceptedEdges g (e :: es) =
        (if (addEdge g e.1 e.2.1 e.2.2).2 = 0 then [e] else []) ++
          acceptedEdges (addEdge g e.1 e.2.1 e.2.2).1 es := rfl
    rw [List.foldl_cons, ih _ (hwf.addEdge_ok _ _ _), addEdge_adjOf hwf, hcons]
    by_cases h : (addEdge g e.1 e.2.1 e.2.2).2 = 0
    · simp [h]
    · simp [h]

theorem adjOf_symm {g : Graph} (hwf : WF g) {u v : Char} {w : Int}
    (h : (⟨v, w⟩ : Edge) ∈ adjOf g u) : (⟨u, w⟩ : Edge) ∈ adjOf g v := by
  unfold adjOf at h ⊢
  cases hu : getVertexIndex g u with
  | none => rw [hu] at h; cases h
  | some i =>
    rw [hu] at h
    simp only at h
    obtain ⟨j, hj, hmem⟩ := hwf.symm i (index_lt hu).1 _ h
    simp only at hj hmem
    rw [hj]
    rw [(index_lt hu).2] at hmem
    exact hmem

theorem addEdge_again {g : Graph} {src dest : Char} {w : Int}
    (hok : (addEdge g src dest w).2 = 0) (w2 : Int) :
    (addEdge (addEdge g src dest w).1 src dest w2).2 = 0 := by
  rcases addEdge_cases g src dest w with ⟨si, di, hs, hd, heq⟩ | ⟨_, heq⟩
  · have hs2 := addVertex_keeps dest (addVertex_index hs)
    have hd2 := addVertex_index hd
    rcases addEdge_status (addEdge g src dest w).1 src dest w2 with h | ⟨_, hf, _⟩
    · exact h.1
    · exfalso
      have hsm : src ∈ (addEdge g src dest w).1.vertexNames := by
        rw [heq]; exact index_mem hs2
      have hdm : dest ∈ (addEdge g src dest w).1.vertexNames := by
        rw [heq]; exact index_mem hd2
      rcases hf with hf | hf
      · exact ((addVertex_none_iff _ _).1 hf).1 hsm
      · apply ((addVertex_none_iff _ _).1 hf).1
        obtain ⟨k, hk⟩ := index_of_mem hdm
        exact index_mem (addVertex_keeps src hk)
  · rw [heq] at hok; cases hok

/-- C17: after a successful `addEdge(graph, src, dest, w)` the adjacency list of `src` is
the entry `(dest, w)` followed by its previous entries and that of `dest` is `(src, w)`
followed by its previous entries (for `src = dest` both entries are in front of the same
list), every other adjacency list is unchanged; over any sequence of calls each list
holds the entries of the accepted calls, latest first; repeating the call yields a second,
parallel entry; and every entry `(v, w)` at `u` has a matching entry `(u, w)` at `v`. -/
theorem addEdge_adjacency (g : Graph) (hwf : WF g) (src dest : Char) (w : Int)
    (hok : (addEdge g src dest w).2 = 0) :
    (src ≠ dest →
      adjOf (addEdge g src dest w).1 src = ⟨dest, w⟩ :: adjOf g src ∧
      adjOf (addEdge g src dest w).1 dest = ⟨src, w⟩ :: adjOf g dest) ∧
    (src = dest →
      adjOf (addEdge g src dest w).1 src = ⟨src, w⟩ :: ⟨dest, w⟩ :: adjOf g src) ∧
    (∀ x, x ≠ src → x ≠ dest → adjOf (addEdge g src dest w).1 x = adjOf g x) ∧
    (∀ (es : List (Char × Char × Int)) (x : Char),
      adjOf (es.foldl (fun g e => (addEdge g e.1 e.2.1 e.2.2).1) g) x =
        ((acceptedEdges g es).reverse.map (entryOf x)).flatten ++ adjOf g x) ∧
    ((addEdge (addEdge g src dest w).1 src dest w).2 = 0 ∧
      (src ≠ dest →
        adjOf (addEdge (addEdge g src dest w).1 src dest w).1 src =
          ⟨dest, w⟩ :: ⟨dest, w⟩ :: adjOf g src)) ∧
    (∀ (u v : Char) (k : Int), (⟨v, k⟩ : Edge) ∈ adjOf (addEdge g src dest w).1 u →
      (⟨u, k⟩ : Edge) ∈ adjOf (addEdge g src dest w).1 v) := by
  have hwf2 := hwf.addEdge_ok src dest w
  have hadj : ∀ x, adjOf (addEdge g src dest w).1 x = entryOf x (src, dest, w) ++ adjOf g x := by
    intro x
    rw [addEdge_adjOf hwf, if_pos hok]
  have hok2 := addEdge_again hok w
  have hadj2 : ∀ x, adjOf (addEdge (addEdge g src dest w).1 src dest w).1 x =
      entryOf x (src, dest, w) ++ adjOf (addEdge g src dest w).1 x := by
    intro x
    rw [addEdge_adjOf hwf2, if_pos hok2]
  refine ⟨?_, ?_, ?_, fun es x => foldl_adjOf x es g hwf, ⟨hok2, ?_⟩, ?_⟩
  · intro hne
    rw [hadj src, hadj dest, ((entryOf_cases src src dest w).1 hne).1,
      ((entryOf_cases src src dest w).1 hne).2]
    exact ⟨rfl, rfl⟩
  · intro heq
    rw [hadj src, (entryOf_cases src src dest w).2.1 heq]
    rfl
  · intro x h1 h2
    rw [hadj x, (entryOf_cases x src dest w).2.2 h1 h2]
    rfl
  · intro hne
    rw [hadj2 src, hadj src, ((entryOf_cases src src dest w).1 hne).1]
    rfl
  · intro u v k h
    exact adjOf_symm hwf2 h

theorem addEdge_adjacency_witness :
    adjOf (addEdge (buildGraph exampleEdges) 'A' 'B' 7).1 'A' =
      ⟨'B', 7⟩ :: adjOf (buildGraph exampleEdges) 'A' ∧
    adjOf (addEdge (buildGraph exampleEdges) 'A' 'B' 7).1 'B' =
      ⟨'A', 7⟩ :: adjOf (buildGraph exampleEdges) 'B' :=
  (addEdge_adjacency (buildGraph exampleEdges) (WF.build exampleEdges) 'A' 'B' 7
    (by decide)).1 (by decide)

/-! ## C18: what `optimizeDeliveryRoute` changes -/

set_option maxRecDepth 1000000 in
/-- C20 fails on the code: on the chain a-b-...-z of 26 vertices, the text written for the
path from `a` to `z` has 126 characters, and the route step for a delivery at `z` from
the warehouse `a` is given that text: the loop body of `optimizeDeliveryRoute` writes it
past the end of the 100-byte field `path`. -/
theorem path_text_overflow :
    (buildGraph (letterChain 25)).vertexCount = 26 ∧
    (∀ e, e ∈ letterChain 25 → 0 ≤ e.2.2) ∧
    ((dijkstra (buildGraph (letterChain 25)) 'a').bind
      (fun r => reconstructPath r (buildGraph (letterChain 25)) 'z')).map List.length
        = some 126 ∧
    (dijkstra (buildGraph (letterChain 25)) 'a').bind
      (fun r => selectNextDelivery (buildGraph (letterChain 25)) farDelivery 'a' (some r))
        = some 0 ∧
    (deliveryAt farDelivery 0).location = 'z' ∧
    (dijkstra (buildGraph (letterChain 25)) 'a').map
      (fun r => takeDelivery (buildGraph (letterChain 25))
        (routeStart (buildGraph (letterChain 25)) farDelivery 'a') r 0) = some none ∧
    optimizeDeliveryRoute (buildGraph (letterChain 25)) farDelivery 'a' = none := by
  refine ⟨by decide, by decide, by decide!, by decide!, by decide, by decide!, chain_overrun⟩

/-! ## C15: the walk over malformed predecessor links -/

/-- C15 (amended): for a graph with pairwise distinct vertex symbols, at most 26 of them,
a result whose source is a vertex and any destination: if the walk of `reconstructPath`
over the predecessor links ends at all, it ends having filled at most `vertexCount`
slots of `tempPath`, source included (so every link followed is one of fewer than
`vertexCount`), and `reconstructPath` yields a text; the walk ends as soon as it meets an
unknown symbol, and it ends for every result produced by `dijkstra`. -/
theorem reconstruct_walk_bound (g : Graph) (hnd : g.vertexNames.Nodup)
    (hcount : g.vertexCount ≤ MAX_VERTICES) (r : DijkstraResult)
    (hsrc : r.source ∈ g.vertexNames) (d : Char) :
    ((∃ room c t, walkBack r g room d [] = some (c, t)) →
      ∃ c t, walkBack r g g.vertexCount d [] = some (c, t) ∧
        t.length + (if c = r.source then 1 else 0) ≤ g.vertexCount ∧
        ∃ text, reconstructPath r g d = some text) ∧
    (∀ room c temp, c ≠ r.source → c ≠ NUL → getVertexIndex g c = none →
      walkBack r g (room + 1) c temp = some (c, temp ++ [c])) ∧
    (dijkstra g r.source = some r → ∃ room c t, walkBack r g room d [] = some (c, t)) := by
  refine ⟨?_, fun room c temp h1 h2 h3 => walkBack_unknown r g room c temp ⟨h1, h2⟩ h3, ?_⟩
  · rintro ⟨room, c, t, hw⟩
    have hcnt := walk_count hsrc hw
    obtain ⟨hexact, _, _⟩ := walkBack_spec r g room d c t hw
    have hle : t.length ≤ g.vertexCount := by omega
    refine ⟨c, t, walkBack_mono_le r g hle hexact, hcnt, ?_⟩
    have hmax := walkBack_mono_le r g (le_trans hle hcount) hexact
    unfold reconstructPath
    cases hj : getVertexIndex g d with
    | none => exact ⟨_, rfl⟩
    | some j =>
      simp only
      by_cases hinf : (r.paths.getD j ⟨0, NUL⟩).distance = INF
      · rw [if_pos hinf]; exact ⟨_, rfl⟩
      · rw [if_neg hinf, hmax]
        simp only
        by_cases hc : c = r.source
        · rw [if_pos hc] at hcnt
          have hlt : t.length < MAX_VERTICES := by omega
          rw [if_pos hc, if_pos hlt]
          exact ⟨_, rfl⟩
        · rw [if_neg hc]; exact ⟨_, rfl⟩
  · intro hd
    obtain ⟨si, hsi⟩ := index_of_mem hsrc
    rw [dijkstra_eq hsi] at hd
    rw [← Option.some.inj hd]
    exact walk_ends_dijkstra hnd hsi d

theorem reconstruct_walk_bound_witness :
    ∃ c t, walkBack strayResult (buildGraph exampleEdges)
        (buildGraph exampleEdges).vertexCount 'C' [] = some (c, t) ∧
      t.length + (if c = strayResult.source then 1 else 0) ≤
        (buildGraph exampleEdges).vertexCount ∧
      ∃ text, reconstructPath strayResult (buildGraph exampleEdges) 'C' = some text :=
  (reconstruct_walk_bound (buildGraph exampleEdges) (by decide) (by decide) strayResult
    (by decide) 'C').1 ⟨2, 'Q', ['C', 'Q'], by decide⟩

theorem cycle_walk (room : Nat) :
    ∀ temp : List Char,
      walkBack cycleResult (buildGraph exampleEdges) room 'B' temp = none ∧
      walkBack cycleResult (buildGraph exampleEdges) room 'C' temp = none := by
  induction room with
  | zero =>
    intro temp
    exact ⟨walkBack_zero _ _ _ _ (by decide), walkBack_zero _ _ _ _ (by decide)⟩
  | succ room ih =>
    intro temp
    have hB : getVertexIndex (buildGraph exampleEdges) 'B' = some 1 := by decide
    have hC : getVertexIndex (buildGraph exampleEdges) 'C' = some 2 := by decide
    constructor
    · rw [walkBack_step _ _ room 'B' temp (by decide) hB]
      exact (ih _).2
    · rw [walkBack_step _ _ room 'C' temp (by decide) hC]
      exact (ih _).1

/-- C15 fails as stated: over the three vertices A, B, C, with the predecessor of `B` set
to `C` and that of `C` set to `B`, the walk from `B` is not over after any number of
collected vertices, and `reconstructPath` runs past the 26 slots of `tempPath`. -/
theorem reconstruct_walk_counterexample :
    (buildGraph exampleEdges).vertexCount = 3 ∧
    cycleResult.source ∈ (buildGraph exampleEdges).vertexNames ∧
    (∀ room, walkBack cycleResult (buildGraph exampleEdges) room 'B' [] = none) ∧
    reconstructPath cycleResult (buildGraph exampleEdges) 'B' = none := by
  refine ⟨by decide, by decide, fun room => (cycle_walk room []).1, ?_⟩
  unfold reconstructPath
  have hB : getVertexIndex (buildGraph exampleEdges) 'B' = some 1 := by decide
  rw [hB]
  simp only
  rw [if_neg (by decide), (cycle_walk MAX_VERTICES []).1]

end Route
